import Mathlib

/-
Verification development for the section-segmentation and semantic-ranking
pipeline of challenge_1b_new (src/utils/extractor.py, src/utils/ranker.py).

Modelling conventions:
* Python `str` values are modelled as `List Char`.
* Python `float` values are modelled as `ℚ` (exact rationals; the float
  constants 0.25, 0.1, 0.05, 0.2, 0.15, 0.6, 0.3, 0.5 appear as the
  corresponding rationals).
* Each Python regular expression used by the source is translated into an
  executable matcher that follows the backtracking search order of `re`
  (greedy/lazy quantifier preference, alternation order, leftmost match,
  non-overlapping `finditer` resumption).
-/

namespace C1B

/-- The Python whitespace characters: the set matched by `\s` in `re`
patterns over `str`, and the set stripped by `str.strip()` /
split on by `str.split()`. -/
def wsChars : List Char :=
  [' ', '\t', '\n', '\r', '\x0B', '\x0C',
   Char.ofNat 0x1C, Char.ofNat 0x1D, Char.ofNat 0x1E, Char.ofNat 0x1F,
   Char.ofNat 0x85, Char.ofNat 0xA0, Char.ofNat 0x1680,
   Char.ofNat 0x2000, Char.ofNat 0x2001, Char.ofNat 0x2002, Char.ofNat 0x2003,
   Char.ofNat 0x2004, Char.ofNat 0x2005, Char.ofNat 0x2006, Char.ofNat 0x2007,
   Char.ofNat 0x2008, Char.ofNat 0x2009, Char.ofNat 0x200A,
   Char.ofNat 0x2028, Char.ofNat 0x2029, Char.ofNat 0x202F,
   Char.ofNat 0x205F, Char.ofNat 0x3000]

/-- `\s` / `str.isspace()`. -/
def isWs (c : Char) : Bool := wsChars.contains c

/-- `[a-z]` (code points 97-122). -/
def isLow (c : Char) : Bool := 97 ≤ c.toNat && c.toNat ≤ 122

/-- `[A-Z]` (code points 65-90). -/
def isUpp (c : Char) : Bool := 65 ≤ c.toNat && c.toNat ≤ 90

/-- `\d` restricted to ASCII `[0-9]` (code points 48-57). -/
def isDig (c : Char) : Bool := 48 ≤ c.toNat && c.toNat ≤ 57

/-- `[A-Za-z]`. -/
def isAl (c : Char) : Bool := isLow c || isUpp c

/-- ASCII lowercasing, the effect of Python `str.lower()` on ASCII text. -/
def asciiLower (c : Char) : Char :=
  if isUpp c then Char.ofNat (c.toNat + 32) else c

/-- ASCII uppercasing. -/
def asciiUpper (c : Char) : Char :=
  if isLow c then Char.ofNat (c.toNat - 32) else c

/-- `str.lower()` on a whole string (ASCII model). -/
def pyLower (l : List Char) : List Char := l.map asciiLower

/-- Helper: the character list of a string literal. -/
def str (s : String) : List Char := s.data

/-- Remove trailing Python whitespace. -/
def dropTrail : List Char → List Char
  | [] => []
  | c :: t =>
    match dropTrail t with
    | [] => if isWs c then [] else [c]
    | d :: r => c :: d :: r

/-- Python `str.strip()` (no arguments): remove leading and trailing
whitespace. -/
def pyStrip (l : List Char) : List Char := dropTrail (l.dropWhile isWs)

theorem dropWhile_length_le (p : Char → Bool) :
    ∀ l : List Char, (l.dropWhile p).length ≤ l.length := by
  intro l
  induction l with
  | nil => simp [List.dropWhile]
  | cons c t ih =>
    simp only [List.dropWhile]
    cases p c <;> simp <;> omega

/-! ## normalize_text (extractor.py lines 74-90)

```python
def normalize_text(text):
    text = re.sub(r'\s+', ' ', text)
    text = re.sub(r'([a-z])([A-Z])', r'\1 \2', text)
    text = re.sub(r'(\d+)([A-Za-z])', r'\1 \2', text)
    text = re.sub(r'([a-zA-Z])(\d+)', r'\1 \2', text)
    text = re.sub(r'\.{2,}', '.', text)
    text = re.sub(r'\s*\.\s*', '. ', text)
    return text.strip()
```
Each `re.sub` becomes one recursive pass below. -/

/-- `re.sub(r'\s+', ' ', text)`: every maximal whitespace run becomes a
single space. -/
def sub1 : List Char → List Char
  | [] => []
  | c :: t =>
    if isWs c then ' ' :: sub1 (t.dropWhile isWs)
    else c :: sub1 t
termination_by l => l.length
decreasing_by
  · simp only [List.length_cons]
    exact Nat.lt_succ_of_le (dropWhile_length_le _ _)
  · simp

/-- `re.sub(r'([a-z])([A-Z])', r'\1 \2', text)`: insert a space between a
lowercase letter and an immediately following uppercase letter.  A match
consumes both characters, so scanning resumes after the uppercase one. -/
def sub2 : List Char → List Char
  | [] => []
  | [c] => [c]
  | a :: b :: t =>
    if isLow a && isUpp b then a :: ' ' :: b :: sub2 t
    else a :: sub2 (b :: t)

/-- `re.sub(r'(\d+)([A-Za-z])', r'\1 \2', text)`: insert a space between a
maximal digit run and an immediately following letter; scanning resumes
after the letter. -/
def sub3 : List Char → List Char
  | [] => []
  | c :: t =>
    if isDig c then
      match h : t.dropWhile isDig with
      | [] => c :: t.takeWhile isDig
      | d :: r =>
        if isAl d then (c :: t.takeWhile isDig) ++ ' ' :: d :: sub3 r
        else (c :: t.takeWhile isDig) ++ sub3 (d :: r)
    else c :: sub3 t
termination_by l => l.length
decreasing_by
  · rename_i c t hc hal
    have := dropWhile_length_le isDig t
    rw [h] at this
    simp only [List.length_cons] at *
    omega
  · rename_i c t hc hal
    have := dropWhile_length_le isDig t
    rw [h] at this
    simp only [List.length_cons] at *
    omega
  · simp

/-- `re.sub(r'([a-zA-Z])(\d+)', r'\1 \2', text)`: insert a space between a
letter and an immediately following maximal digit run; scanning resumes
after the digit run. -/
def sub4 : List Char → List Char
  | [] => []
  | c :: t =>
    if isAl c then
      match t with
      | [] => [c]
      | d :: r =>
        if isDig d then (c :: ' ' :: d :: r.takeWhile isDig) ++ sub4 (r.dropWhile isDig)
        else c :: sub4 (d :: r)
    else c :: sub4 t
termination_by l => l.length
decreasing_by
  · have := dropWhile_length_le isDig r
    simp only [List.length_cons] at *
    omega
  · simp
  · simp

/-- `re.sub(r'\.{2,}', '.', text)`: every run of two or more periods
becomes a single period (a single period is not a match). -/
def sub5 : List Char → List Char
  | [] => []
  | c :: t =>
    if c = '.' then
      match t with
      | [] => ['.']
      | d :: r =>
        if d = '.' then '.' :: sub5 (r.dropWhile (· == '.'))
        else '.' :: sub5 (d :: r)
    else c :: sub5 t
termination_by l => l.length
decreasing_by
  · have := dropWhile_length_le (· == '.') r
    simp only [List.length_cons] at *
    omega
  · simp
  · simp

/-- `re.sub(r'\s*\.\s*', '. ', text)`: a period together with the
whitespace around it becomes `". "`.  The leftmost match starts at the
whitespace run preceding a period (or at the period itself when no
whitespace precedes it); the whitespace following the period is consumed
by the match. -/
def sub6 : List Char → List Char
  | [] => []
  | c :: t =>
    if isWs c then
      match h : t.dropWhile isWs with
      | '.' :: r => '.' :: ' ' :: sub6 (r.dropWhile isWs)
      | other => (c :: t.takeWhile isWs) ++ sub6 other
    else if c = '.' then '.' :: ' ' :: sub6 (t.dropWhile isWs)
    else c :: sub6 t
termination_by l => l.length
decreasing_by
  · rename_i t hws
    have h1 := dropWhile_length_le isWs t
    have h2 := dropWhile_length_le isWs r
    rw [h] at h1
    simp only [List.length_cons] at *
    omega
  · have := dropWhile_length_le isWs r
    rw [h] at this
    simp only [List.length_cons]
    omega
  · have := dropWhile_length_le isWs r
    simp only [List.length_cons]
    omega
  · simp

/-- `normalize_text` (extractor.py lines 74-90): the six substitutions in
source order followed by `str.strip()`. -/
def normalize_text (l : List Char) : List Char :=
  pyStrip (sub6 (sub5 (sub4 (sub3 (sub2 (sub1 l))))))

/-! ## Normal-form machinery for the idempotence proof -/

/-- `okP p q l` holds when no adjacent pair `(a, b)` of `l` satisfies
`p a && q b`. -/
def okP (p q : Char → Bool) : List Char → Bool
  | [] => true
  | [_] => true
  | a :: b :: t => !(p a && q b) && okP p q (b :: t)

/-- Every whitespace character of `l` is a plain space. -/
def wsOnly (l : List Char) : Prop := ∀ c ∈ l, isWs c = true → c = ' '

/-- The head of `l`, when present, is not whitespace. -/
def headOkB (l : List Char) : Bool :=
  match l with
  | [] => true
  | e :: _ => !(isWs e)

/-- Guard for `dotOk`: a space may sit directly before a period only when
that space itself follows a period (that case is consumed by `dotOk`
before this guard is consulted). -/
def noSpDot (c : Char) (t : List Char) : Bool :=
  match t with
  | e :: _ => !((e == '.') && (c == ' '))
  | [] => true

/-- Shape of periods in `sub6` output: every period is followed by a
single space and then a non-whitespace character (or the string ends),
and a space directly before a period only occurs as part of a
`". "` group that follows another period. -/
def dotOk : List Char → Bool
  | [] => true
  | c :: t =>
    if c = '.' then
      match t with
      | [] => true
      | d :: t2 => (d == ' ') && headOkB t2 && dotOk t2
    else noSpDot c t && dotOk t

/-- `pairOk p q l`: no adjacent pair `(a, b)` of `l` satisfies `p a && q b`. -/
def pairOk (p q : Char → Bool) (l : List Char) : Prop :=
  List.Chain' (fun a b => (p a && q b) = false) l

theorem pairOk_tail {p q : Char → Bool} {a : Char} {t : List Char}
    (h : pairOk p q (a :: t)) : pairOk p q t := h.tail

theorem pairOk_cons_cons {p q : Char → Bool} {a b : Char} {t : List Char} :
    pairOk p q (a :: b :: t) ↔ (p a && q b) = false ∧ pairOk p q (b :: t) :=
  List.chain'_cons

theorem pairOk_append {p q : Char → Bool} {xs ys : List Char} :
    pairOk p q (xs ++ ys) ↔
      pairOk p q xs ∧ pairOk p q ys ∧
      (∀ a ∈ xs.getLast?, ∀ b ∈ ys.head?, (p a && q b) = false) :=
  List.chain'_append

/-- Pairs are vacuously fine when the left component never satisfies `p`. -/
theorem pairOk_of_all_p {p q : Char → Bool} {l : List Char}
    (h : ∀ c ∈ l, p c = false) : pairOk p q l := by
  induction l with
  | nil => exact List.chain'_nil
  | cons a t ih =>
    cases t with
    | nil => exact List.chain'_singleton a
    | cons b r =>
      rw [pairOk_cons_cons]
      constructor
      · rw [h a (by simp)]; rfl
      · exact ih (fun c hc => h c (List.mem_cons_of_mem _ hc))

/-- Pairs are vacuously fine when the right component never satisfies `q`. -/
theorem pairOk_of_all_q {p q : Char → Bool} {l : List Char}
    (h : ∀ c ∈ l, q c = false) : pairOk p q l := by
  induction l with
  | nil => exact List.chain'_nil
  | cons a t ih =>
    cases t with
    | nil => exact List.chain'_singleton a
    | cons b r =>
      rw [pairOk_cons_cons]
      constructor
      · rw [h b (by simp)]; simp
      · exact ih (fun c hc => h c (List.mem_cons_of_mem _ hc))

theorem head?_dropWhile_not {p : Char → Bool} :
    ∀ (l : List Char) (c : Char), (l.dropWhile p).head? = some c → p c = false := by
  intro l
  induction l with
  | nil => intro c h; cases h
  | cons a t ih =>
    intro c h
    rw [List.dropWhile_cons] at h
    by_cases hp : p a = true
    · rw [if_pos hp] at h; exact ih c h
    · rw [if_neg hp] at h
      simp only [List.head?_cons, Option.some_inj] at h
      subst h
      exact Bool.not_eq_true _ ▸ hp

theorem mem_takeWhile_sat {p : Char → Bool} :
    ∀ (l : List Char) (c : Char), c ∈ l.takeWhile p → p c = true := by
  intro l
  induction l with
  | nil => intro c h; cases h
  | cons a t ih =>
    intro c h
    rw [List.takeWhile_cons] at h
    by_cases hp : p a = true
    · rw [if_pos hp] at h
      rcases List.mem_cons.mp h with h | h
      · subst h; exact hp
      · exact ih c h
    · rw [if_neg hp] at h; cases h

theorem mem_dropWhile_sub {p : Char → Bool} :
    ∀ (l : List Char) (c : Char), c ∈ l.dropWhile p → c ∈ l := by
  intro l
  induction l with
  | nil => intro c h; cases h
  | cons a t ih =>
    intro c h
    rw [List.dropWhile_cons] at h
    by_cases hp : p a = true
    · rw [if_pos hp] at h; exact List.mem_cons_of_mem _ (ih c h)
    · rw [if_neg hp] at h; exact h

theorem pairOk_dropWhile {p q f : Char → Bool} :
    ∀ (l : List Char), pairOk p q l → pairOk p q (l.dropWhile f) := by
  intro l
  induction l with
  | nil => intro h; exact h
  | cons a t ih =>
    intro h
    rw [List.dropWhile_cons]
    by_cases hf : f a = true
    · rw [if_pos hf]; exact ih (pairOk_tail h)
    · rw [if_neg hf]; exact h

/-- `takeWhile` keeps a prefix, so pair invariants survive. -/
theorem pairOk_takeWhile {p q f : Char → Bool} :
    ∀ (l : List Char), pairOk p q l → pairOk p q (l.takeWhile f) := by
  intro l h
  have h2 : pairOk p q (l.takeWhile f ++ l.dropWhile f) := by
    rw [List.takeWhile_append_dropWhile]; exact h
  exact (pairOk_append.mp h2).1

theorem pairOk_take {p q : Char → Bool} (n : ℕ) :
    ∀ (l : List Char), pairOk p q l → pairOk p q (l.take n) := by
  intro l h
  have h2 : pairOk p q (l.take n ++ l.drop n) := by
    rw [List.take_append_drop]; exact h
  exact (pairOk_append.mp h2).1

theorem mem_takeWhile_sub {p : Char → Bool} :
    ∀ (l : List Char) (c : Char), c ∈ l.takeWhile p → c ∈ l := by
  intro l
  induction l with
  | nil => intro c h; cases h
  | cons a t ih =>
    intro c h
    rw [List.takeWhile_cons] at h
    by_cases hp : p a = true
    · rw [if_pos hp] at h
      rcases List.mem_cons.mp h with h | h
      · subst h; exact List.mem_cons_self _ _
      · exact List.mem_cons_of_mem _ (ih c h)
    · rw [if_neg hp] at h; cases h

/-! ### Unfolding equations for the substitution passes -/

theorem sub1_ws {c : Char} {t : List Char} (h : isWs c = true) :
    sub1 (c :: t) = ' ' :: sub1 (t.dropWhile isWs) := by
  rw [sub1, if_pos h]

theorem sub1_nws {c : Char} {t : List Char} (h : isWs c = false) :
    sub1 (c :: t) = c :: sub1 t := by
  rw [sub1, if_neg (by rw [h]; exact Bool.false_ne_true)]

theorem sub2_hit {a b : Char} {t : List Char} (h : (isLow a && isUpp b) = true) :
    sub2 (a :: b :: t) = a :: ' ' :: b :: sub2 t := by
  rw [sub2, if_pos h]

theorem sub2_miss {a b : Char} {t : List Char} (h : (isLow a && isUpp b) = false) :
    sub2 (a :: b :: t) = a :: sub2 (b :: t) := by
  rw [sub2, if_neg (by rw [h]; exact Bool.false_ne_true)]

theorem sub3_dig_nil {c : Char} {t : List Char} (h1 : isDig c = true)
    (h2 : t.dropWhile isDig = []) : sub3 (c :: t) = c :: t.takeWhile isDig := by
  rw [sub3, if_pos h1]
  split
  · rfl
  · rename_i d r heq
    rw [h2] at heq; cases heq

theorem sub3_dig_al {c d : Char} {t r : List Char} (h1 : isDig c = true)
    (h2 : t.dropWhile isDig = d :: r) (h3 : isAl d = true) :
    sub3 (c :: t) = (c :: t.takeWhile isDig) ++ ' ' :: d :: sub3 r := by
  rw [sub3, if_pos h1]
  split
  · rename_i heq; rw [h2] at heq; cases heq
  · rename_i d' r' heq
    rw [h2] at heq
    cases heq
    rw [if_pos h3]

theorem sub3_dig_nal {c d : Char} {t r : List Char} (h1 : isDig c = true)
    (h2 : t.dropWhile isDig = d :: r) (h3 : isAl d = false) :
    sub3 (c :: t) = (c :: t.takeWhile isDig) ++ sub3 (d :: r) := by
  rw [sub3, if_pos h1]
  split
  · rename_i heq; rw [h2] at heq; cases heq
  · rename_i d' r' heq
    rw [h2] at heq
    cases heq
    rw [if_neg (by rw [h3]; exact Bool.false_ne_true)]

theorem sub3_ndig {c : Char} {t : List Char} (h1 : isDig c = false) :
    sub3 (c :: t) = c :: sub3 t := by
  rw [sub3, if_neg (by rw [h1]; exact Bool.false_ne_true)]

theorem sub4_nil : sub4 [] = [] := by
  rw [sub4.eq_def]

theorem sub4_single {c : Char} : sub4 [c] = [c] := by
  rw [sub4.eq_def]
  dsimp only
  split
  · rfl
  · rw [sub4_nil]

theorem sub4_al_dig {c d : Char} {r : List Char} (h1 : isAl c = true)
    (h2 : isDig d = true) :
    sub4 (c :: d :: r) = (c :: ' ' :: d :: r.takeWhile isDig) ++ sub4 (r.dropWhile isDig) := by
  rw [sub4.eq_def]
  dsimp only
  rw [if_pos h1, if_pos h2]

theorem sub4_al_ndig {c d : Char} {r : List Char} (h1 : isAl c = true)
    (h2 : isDig d = false) :
    sub4 (c :: d :: r) = c :: sub4 (d :: r) := by
  rw [sub4.eq_def]
  dsimp only
  rw [if_pos h1, if_neg (by rw [h2]; exact Bool.false_ne_true)]

theorem sub4_nal {c : Char} {t : List Char} (h1 : isAl c = false) :
    sub4 (c :: t) = c :: sub4 t := by
  rw [sub4.eq_def]
  dsimp only
  cases t with
  | nil => rw [if_neg (by rw [h1]; exact Bool.false_ne_true)]
  | cons d r => rw [if_neg (by rw [h1]; exact Bool.false_ne_true)]

theorem sub5_dot_nil : sub5 ['.'] = ['.'] := by
  rw [sub5.eq_def]
  dsimp only
  rw [if_pos rfl]

theorem sub5_dotdot {r : List Char} :
    sub5 ('.' :: '.' :: r) = '.' :: sub5 (r.dropWhile (· == '.')) := by
  rw [sub5.eq_def]
  dsimp only
  rw [if_pos rfl, if_pos rfl]

theorem sub5_dot_nd {d : Char} {r : List Char} (h : d = '.' → False) :
    sub5 ('.' :: d :: r) = '.' :: sub5 (d :: r) := by
  rw [sub5.eq_def]
  dsimp only
  rw [if_pos rfl, if_neg h]

theorem sub5_ndot {c : Char} {t : List Char} (h : c = '.' → False) :
    sub5 (c :: t) = c :: sub5 t := by
  rw [sub5.eq_def]
  dsimp only
  cases t with
  | nil => rw [if_neg h]
  | cons d r => rw [if_neg h]

theorem sub6_ws_dot {c : Char} {t r : List Char} (h1 : isWs c = true)
    (h2 : t.dropWhile isWs = '.' :: r) :
    sub6 (c :: t) = '.' :: ' ' :: sub6 (r.dropWhile isWs) := by
  rw [sub6, if_pos h1]
  split
  · rename_i r' heq
    rw [h2] at heq
    cases heq
    rfl
  · rename_i hne
    exact absurd h2 (hne r)

theorem sub6_ws_other {c : Char} {t : List Char} (h1 : isWs c = true)
    (h2 : ∀ r, t.dropWhile isWs = '.' :: r → False) :
    sub6 (c :: t) = (c :: t.takeWhile isWs) ++ sub6 (t.dropWhile isWs) := by
  rw [sub6, if_pos h1]
  split
  · rename_i r' heq
    exact absurd heq (h2 r')
  · rfl

theorem sub6_dot {t : List Char} :
    sub6 ('.' :: t) = '.' :: ' ' :: sub6 (t.dropWhile isWs) := by
  have hws : isWs '.' = false := by decide
  rw [sub6, if_neg (by rw [hws]; exact Bool.false_ne_true), if_pos rfl]

theorem sub6_other {c : Char} {t : List Char} (h1 : isWs c = false)
    (h2 : c = '.' → False) : sub6 (c :: t) = c :: sub6 t := by
  rw [sub6, if_neg (by rw [h1]; exact Bool.false_ne_true), if_neg h2]

/-! ### Head-preservation of the substitution passes -/

theorem sub1_head {m : List Char} {c : Char} (h : m.head? = some c)
    (hc : isWs c = false) : (sub1 m).head? = some c := by
  cases m with
  | nil => cases h
  | cons a t =>
    simp only [List.head?_cons, Option.some_inj] at h
    subst h
    rw [sub1, if_neg (by rw [hc]; exact Bool.false_ne_true)]
    rfl

theorem sub2_head (x : Char) (m : List Char) : (sub2 (x :: m)).head? = some x := by
  cases m with
  | nil => rfl
  | cons b t =>
    rw [sub2]
    by_cases h : (isLow x && isUpp b) = true
    · rw [if_pos h]; rfl
    · rw [if_neg h]; rfl

theorem sub3_head (x : Char) (m : List Char) : (sub3 (x :: m)).head? = some x := by
  rw [sub3]
  by_cases h : isDig x = true
  · rw [if_pos h]
    rcases h2 : m.dropWhile isDig with _ | ⟨d, r⟩
    · rfl
    · dsimp only
      by_cases h3 : isAl d = true
      · rw [if_pos h3]; rfl
      · rw [if_neg h3]; rfl
  · rw [if_neg h]; rfl

theorem sub4_head (x : Char) (m : List Char) : (sub4 (x :: m)).head? = some x := by
  cases m with
  | nil =>
    rw [sub4.eq_def]
    dsimp only
    by_cases h : isAl x = true
    · rw [if_pos h]; rfl
    · rw [if_neg h]; rfl
  | cons d r =>
    rw [sub4.eq_def]
    dsimp only
    by_cases h : isAl x = true
    · rw [if_pos h]
      by_cases h3 : isDig d = true
      · rw [if_pos h3]; rfl
      · rw [if_neg h3]; rfl
    · rw [if_neg h]; rfl

theorem sub5_head (x : Char) (m : List Char) : (sub5 (x :: m)).head? = some x := by
  cases m with
  | nil =>
    rw [sub5.eq_def]
    dsimp only
    by_cases h : x = '.'
    · rw [if_pos h]; rw [h]; rfl
    · rw [if_neg h]; rfl
  | cons d r =>
    rw [sub5.eq_def]
    dsimp only
    by_cases h : x = '.'
    · rw [if_pos h]
      by_cases h3 : d = '.'
      · rw [if_pos h3]; rw [h]; rfl
      · rw [if_neg h3]; rw [h]; rfl
    · rw [if_neg h]; rfl

theorem sub6_head {m : List Char} {c : Char} (h : m.head? = some c)
    (hc : isWs c = false) : (sub6 m).head? = some c := by
  cases m with
  | nil => cases h
  | cons a t =>
    have ha : a = c := by simpa using h
    subst ha
    rw [sub6, if_neg (by rw [hc]; exact Bool.false_ne_true)]
    by_cases h2 : a = '.'
    · rw [if_pos h2, h2]; rfl
    · rw [if_neg h2]; rfl

/-! ### Character membership of the substitution passes -/

theorem sub1_mem : ∀ (l : List Char) (c : Char), c ∈ sub1 l → c ∈ l ∨ c = ' ' := by
  intro l
  induction l using sub1.induct with
  | case1 =>
    intro c h; rw [sub1] at h; cases h
  | case2 a t hws ih =>
    intro c h
    rw [sub1, if_pos hws] at h
    rcases List.mem_cons.mp h with h | h
    · right; exact h
    · rcases ih c h with h | h
      · left; exact List.mem_cons_of_mem _ (mem_dropWhile_sub _ _ h)
      · right; exact h
  | case3 a t hws ih =>
    intro c h
    rw [sub1, if_neg hws] at h
    rcases List.mem_cons.mp h with h | h
    · left; subst h; exact List.mem_cons_self _ _
    · rcases ih c h with h | h
      · left; exact List.mem_cons_of_mem _ h
      · right; exact h

theorem sub2_mem : ∀ (l : List Char) (c : Char), c ∈ sub2 l → c ∈ l ∨ c = ' ' := by
  intro l
  induction l using sub2.induct with
  | case1 => intro c h; cases h
  | case2 a => intro c h; left; exact h
  | case3 a b t hlu ih =>
    intro c h
    rw [sub2, if_pos hlu] at h
    rcases List.mem_cons.mp h with h | h
    · left; subst h; exact List.mem_cons_self _ _
    rcases List.mem_cons.mp h with h | h
    · right; exact h
    rcases List.mem_cons.mp h with h | h
    · left; subst h; simp
    · rcases ih c h with h | h
      · left; simp [List.mem_cons_of_mem, h]
      · right; exact h
  | case4 a b t hlu ih =>
    intro c h
    rw [sub2, if_neg hlu] at h
    rcases List.mem_cons.mp h with h | h
    · left; subst h; exact List.mem_cons_self _ _
    · rcases ih c h with h | h
      · left; exact List.mem_cons_of_mem _ h
      · right; exact h

/-! ### Character-class facts -/

theorem pairOk_cons' {p q : Char → Bool} {a : Char} {l : List Char} :
    pairOk p q (a :: l) ↔ (∀ b ∈ l.head?, (p a && q b) = false) ∧ pairOk p q l :=
  List.chain'_cons'

theorem mem_wsChars {c : Char} (h : isWs c = true) : c ∈ wsChars := by
  simpa [isWs] using h

theorem ws_not_low {c : Char} (h : isWs c = true) : isLow c = false := by
  have hm := mem_wsChars h
  fin_cases hm <;> decide

theorem ws_not_upp {c : Char} (h : isWs c = true) : isUpp c = false := by
  have hm := mem_wsChars h
  fin_cases hm <;> decide

theorem ws_not_dig {c : Char} (h : isWs c = true) : isDig c = false := by
  have hm := mem_wsChars h
  fin_cases hm <;> decide

theorem ws_not_al {c : Char} (h : isWs c = true) : isAl c = false := by
  rw [isAl, ws_not_low h, ws_not_upp h]
  rfl

theorem ws_not_dot {c : Char} (h : isWs c = true) : c = '.' → False := by
  intro hc
  subst hc
  exact absurd h (by decide)

theorem ws_not_space {c : Char} (h : isWs c = false) : c = ' ' → False := by
  intro hc; subst hc; exact absurd h (by decide)

theorem upp_not_low {c : Char} (h : isUpp c = true) : isLow c = false := by
  cases hl : isLow c
  · rfl
  · exfalso
    simp only [isUpp, Bool.and_eq_true, decide_eq_true_eq] at h
    simp only [isLow, Bool.and_eq_true, decide_eq_true_eq] at hl
    omega

theorem dig_not_low {c : Char} (h : isDig c = true) : isLow c = false := by
  cases hl : isLow c
  · rfl
  · exfalso
    simp only [isDig, Bool.and_eq_true, decide_eq_true_eq] at h
    simp only [isLow, Bool.and_eq_true, decide_eq_true_eq] at hl
    omega

theorem dig_not_upp {c : Char} (h : isDig c = true) : isUpp c = false := by
  cases hl : isUpp c
  · rfl
  · exfalso
    simp only [isDig, Bool.and_eq_true, decide_eq_true_eq] at h
    simp only [isUpp, Bool.and_eq_true, decide_eq_true_eq] at hl
    omega

theorem dig_not_al {c : Char} (h : isDig c = true) : isAl c = false := by
  rw [isAl, dig_not_low h, dig_not_upp h]
  rfl

theorem al_not_dig {c : Char} (h : isAl c = true) : isDig c = false := by
  cases hl : isDig c
  · rfl
  · exfalso
    rw [dig_not_al hl] at h
    cases h

theorem al_not_ws {c : Char} (h : isAl c = true) : isWs c = false := by
  cases hw : isWs c
  · rfl
  · rw [ws_not_al hw] at h; cases h

theorem dig_not_ws {c : Char} (h : isDig c = true) : isWs c = false := by
  cases hw : isWs c
  · rfl
  · rw [ws_not_dig hw] at h; cases h

/-! ### Establishment lemmas: what each pass guarantees of its output -/

/-- `sub1` leaves only plain spaces as whitespace. -/
theorem sub1_wsOnly : ∀ l : List Char, wsOnly (sub1 l) := by
  intro l
  induction l using sub1.induct with
  | case1 => intro c hc _; rw [sub1] at hc; cases hc
  | case2 a t hws ih =>
    intro c hc hwc
    rw [sub1_ws hws] at hc
    rcases List.mem_cons.mp hc with h | h
    · exact h
    · exact ih c h hwc
  | case3 a t hws ih =>
    intro c hc hwc
    rw [sub1_nws (Bool.not_eq_true _ ▸ hws)] at hc
    rcases List.mem_cons.mp hc with h | h
    · subst h; rw [hwc] at hws; exact absurd rfl hws
    · exact ih c h hwc

/-- `sub1` leaves no two adjacent whitespace characters. -/
theorem sub1_wsws : ∀ l : List Char, pairOk isWs isWs (sub1 l) := by
  intro l
  induction l using sub1.induct with
  | case1 => rw [sub1]; exact List.chain'_nil
  | case2 a t hws ih =>
    rw [sub1_ws hws]
    refine pairOk_cons'.mpr ⟨?_, ih⟩
    intro b hb
    rcases hd : (t.dropWhile isWs) with _ | ⟨x, m⟩
    · rw [hd, sub1] at hb; cases hb
    · have hx : isWs x = false := head?_dropWhile_not t x (by rw [hd]; rfl)
      rw [hd] at hb
      have := sub1_head (m := x :: m) (c := x) rfl hx
      rw [this] at hb
      cases hb
      rw [hx, Bool.and_false]
  | case3 a t hws ih =>
    rw [sub1_nws (Bool.not_eq_true _ ▸ hws)]
    refine pairOk_cons'.mpr ⟨?_, ih⟩
    intro b _
    rw [Bool.not_eq_true] at hws
    rw [hws, Bool.false_and]

/-- `sub2` leaves no lowercase letter directly followed by an uppercase
letter. -/
theorem sub2_lowupp : ∀ l : List Char, pairOk isLow isUpp (sub2 l) := by
  intro l
  induction l using sub2.induct with
  | case1 => rw [sub2]; exact List.chain'_nil
  | case2 c => rw [sub2]; exact List.chain'_singleton c
  | case3 a b t hlu ih =>
    rw [sub2_hit hlu]
    have hb : isUpp b = true := by
      rw [Bool.and_eq_true] at hlu
      exact hlu.2
    refine pairOk_cons_cons.mpr ⟨?_, pairOk_cons_cons.mpr ⟨?_, pairOk_cons'.mpr ⟨?_, ih⟩⟩⟩
    · rw [show isUpp ' ' = false by decide, Bool.and_false]
    · rw [show isLow ' ' = false by decide, Bool.false_and]
    · intro x _
      rw [upp_not_low hb, Bool.false_and]
  | case4 a b t hlu ih =>
    rw [sub2_miss (by simpa using hlu)]
    refine pairOk_cons'.mpr ⟨?_, ih⟩
    intro x hx
    rw [sub2_head b t] at hx
    cases hx
    simpa using hlu

/-- `sub3` leaves no digit directly followed by a letter. -/
theorem sub3_digal : ∀ l : List Char, pairOk isDig isAl (sub3 l) := by
  intro l
  induction l using sub3.induct with
  | case1 => rw [sub3]; exact List.chain'_nil
  | case2 c t hdig hdrop =>
    rw [sub3_dig_nil hdig hdrop]
    refine pairOk_of_all_q ?_
    intro x hx
    rcases List.mem_cons.mp hx with h | h
    · subst h; exact dig_not_al hdig
    · exact dig_not_al (mem_takeWhile_sat t x h)
  | case3 c t hdig d r hdrop hal ih =>
    rw [sub3_dig_al hdig hdrop hal]
    refine pairOk_append.mpr ⟨?_, ?_, ?_⟩
    · refine pairOk_of_all_q ?_
      intro x hx
      rcases List.mem_cons.mp hx with h | h
      · subst h; exact dig_not_al hdig
      · exact dig_not_al (mem_takeWhile_sat t x h)
    · refine pairOk_cons'.mpr ⟨?_, pairOk_cons'.mpr ⟨?_, ih⟩⟩
      · intro b _
        rw [show isDig ' ' = false by decide, Bool.false_and]
      · intro b _
        rw [al_not_dig hal, Bool.false_and]
    · intro a _ b hb
      cases hb
      rw [show isAl ' ' = false by decide, Bool.and_false]
  | case4 c t hdig d r hdrop hal ih =>
    rw [sub3_dig_nal hdig hdrop (by simpa using hal)]
    refine pairOk_append.mpr ⟨?_, ih, ?_⟩
    · refine pairOk_of_all_q ?_
      intro x hx
      rcases List.mem_cons.mp hx with h | h
      · subst h; exact dig_not_al hdig
      · exact dig_not_al (mem_takeWhile_sat t x h)
    · intro a _ b hb
      rw [sub3_head d r] at hb
      cases hb
      rw [(by simpa using hal : isAl d = false), Bool.and_false]
  | case5 c t hdig ih =>
    rw [sub3_ndig (by simpa using hdig)]
    refine pairOk_cons'.mpr ⟨?_, ih⟩
    intro b _
    rw [(by simpa using hdig : isDig c = false), Bool.false_and]

/-- `sub4` leaves no letter directly followed by a digit. -/
theorem sub4_aldig : ∀ l : List Char, pairOk isAl isDig (sub4 l) := by
  intro l
  induction l using sub4.induct with
  | case1 => rw [sub4_nil]; exact List.chain'_nil
  | case2 c _ => rw [sub4_single]; exact List.chain'_singleton c
  | case3 c hal d r hdig ih =>
    rw [sub4_al_dig hal hdig]
    refine pairOk_append.mpr ⟨?_, ih, ?_⟩
    · refine pairOk_cons_cons.mpr ⟨?_, pairOk_cons_cons.mpr ⟨?_, ?_⟩⟩
      · rw [show isDig ' ' = false by decide, Bool.and_false]
      · rw [show isAl ' ' = false by decide, Bool.false_and]
      · refine pairOk_of_all_p ?_
        intro x hx
        rcases List.mem_cons.mp hx with h | h
        · subst h; exact dig_not_al hdig
        · exact dig_not_al (mem_takeWhile_sat r x h)
    · intro a _ b hb
      rcases hm : r.dropWhile isDig with _ | ⟨x, m⟩
      · rw [hm, sub4_nil] at hb; cases hb
      · rw [hm, sub4_head x m] at hb
        have hbx : x = b := by simpa using hb
        subst hbx
        have hx : isDig x = false := head?_dropWhile_not r x (by rw [hm]; rfl)
        rw [hx, Bool.and_false]
  | case4 c hal d r hdig ih =>
    rw [sub4_al_ndig hal (by simpa using hdig)]
    refine pairOk_cons'.mpr ⟨?_, ih⟩
    intro b hb
    rw [sub4_head d r] at hb
    cases hb
    rw [(by simpa using hdig : isDig d = false), Bool.and_false]
  | case5 c t hal ih =>
    rw [sub4_nal (by simpa using hal)]
    refine pairOk_cons'.mpr ⟨?_, ih⟩
    intro b _
    rw [(by simpa using hal : isAl c = false), Bool.false_and]

/-- `[.]` as a character class. -/
def isDot (c : Char) : Bool := c == '.'

/-- `sub5` leaves no two adjacent periods. -/
theorem sub5_dots : ∀ l : List Char, pairOk isDot isDot (sub5 l) := by
  intro l
  induction l using sub5.induct with
  | case1 => rw [sub5]; exact List.chain'_nil
  | case2 => rw [sub5_dot_nil]; exact List.chain'_singleton _
  | case3 r ih =>
    rw [sub5_dotdot]
    refine pairOk_cons'.mpr ⟨?_, ih⟩
    intro b hb
    rcases hm : r.dropWhile (· == '.') with _ | ⟨x, m⟩
    · rw [hm, sub5] at hb; cases hb
    · rw [hm, sub5_head x m] at hb
      have hbx : x = b := by simpa using hb
      subst hbx
      have hx : (x == '.') = false := head?_dropWhile_not r x (by rw [hm]; rfl)
      rw [show isDot x = (x == '.') from rfl, hx, Bool.and_false]
  | case4 d r hd ih =>
    rw [sub5_dot_nd hd]
    refine pairOk_cons'.mpr ⟨?_, ih⟩
    intro b hb
    rw [sub5_head d r] at hb
    cases hb
    rw [show isDot d = (d == '.') from rfl, (by simpa using hd : (d == '.') = false),
      Bool.and_false]
  | case5 d r hd ih =>
    rw [sub5_ndot hd]
    refine pairOk_cons'.mpr ⟨?_, ih⟩
    intro b _
    rw [show isDot d = (d == '.') from rfl, (by simpa using hd : (d == '.') = false),
      Bool.false_and]

/-! ### dotOk facts -/

theorem dotOk_dot_cons {d : Char} {t2 : List Char} :
    dotOk ('.' :: d :: t2) = ((d == ' ') && headOkB t2 && dotOk t2) := by
  rw [dotOk.eq_def]
  dsimp only
  rw [if_pos rfl]

theorem dotOk_dot_nil : dotOk ['.'] = true := by
  rw [dotOk.eq_def]
  dsimp only
  rw [if_pos rfl]

theorem dotOk_other {c : Char} {t : List Char} (h : c = '.' → False) :
    dotOk (c :: t) = (noSpDot c t && dotOk t) := by
  rw [dotOk.eq_def]
  dsimp only
  rw [if_neg h]

theorem headOkB_of_head? {l : List Char} {e : Char} (h : l.head? = some e) :
    headOkB l = !(isWs e) := by
  cases l with
  | nil => cases h
  | cons x t =>
    have : x = e := by simpa using h
    subst this
    rfl

theorem noSpDot_of_not_space {c : Char} (h : (c == ' ') = false) :
    ∀ l : List Char, noSpDot c l = true := by
  intro l
  cases l with
  | nil => rfl
  | cons e t =>
    show (!((e == '.') && (c == ' '))) = true
    rw [h, Bool.and_false]
    rfl

theorem not_space_of_not_ws {c : Char} (h : isWs c = false) : (c == ' ') = false := by
  cases hb : (c == ' ')
  · rfl
  · have : c = ' ' := by simpa using hb
    subst this
    exact absurd h (by decide)

theorem dotOk_prepend {xs ys : List Char} (hxs : ∀ x ∈ xs, x = '.' → False)
    (hhead : ∀ e ∈ ys.head?, e = '.' → False) (hys : dotOk ys = true) :
    dotOk (xs ++ ys) = true := by
  induction xs with
  | nil => exact hys
  | cons x xs ih =>
    rw [List.cons_append, dotOk_other (hxs x (by simp))]
    rw [Bool.and_eq_true]
    refine ⟨?_, ih (fun y hy => hxs y (List.mem_cons_of_mem _ hy))⟩
    rcases hcase : (xs ++ ys) with _ | ⟨e, m⟩
    · rfl
    · show (!((e == '.') && (x == ' '))) = true
      have he : e = '.' → False := by
        cases xs with
        | nil =>
          rw [List.nil_append] at hcase
          exact hhead e (by rw [hcase]; rfl)
        | cons y ys' =>
          rw [List.cons_append] at hcase
          cases hcase
          exact hxs e (by simp)
      rw [(by simpa using he : (e == '.') = false), Bool.false_and]
      rfl

/-- `sub6` output has well-shaped periods. -/
theorem sub6_dotOk : ∀ l : List Char, dotOk (sub6 l) = true := by
  intro l
  induction l using sub6.induct with
  | case1 => rw [sub6]; rfl
  | case2 d r hws r1 hdrop ih =>
    rw [sub6_ws_dot hws hdrop, dotOk_dot_cons]
    rw [Bool.and_eq_true, Bool.and_eq_true]
    refine ⟨⟨rfl, ?_⟩, ih⟩
    rcases hm : r1.dropWhile isWs with _ | ⟨x, m⟩
    · rw [sub6]; rfl
    · have hx : isWs x = false := head?_dropWhile_not r1 x (by rw [hm]; rfl)
      rw [headOkB_of_head? (sub6_head (m := x :: m) rfl hx), hx]
      rfl
  | case3 d r hws hno ih =>
    rw [sub6_ws_other hws hno]
    refine dotOk_prepend ?_ ?_ ih
    · intro x hx
      rcases List.mem_cons.mp hx with h | h
      · subst h; exact ws_not_dot hws
      · exact ws_not_dot (mem_takeWhile_sat r x h)
    · intro e he hdot
      subst hdot
      rcases hm : r.dropWhile isWs with _ | ⟨x, m⟩
      · rw [hm, sub6] at he; cases he
      · have hx : isWs x = false := head?_dropWhile_not r x (by rw [hm]; rfl)
        rw [hm, sub6_head (m := x :: m) rfl hx] at he
        have hx2 : x = '.' := by simpa using he
        subst hx2
        exact hno m hm
  | case4 r _ ih =>
    rw [sub6_dot, dotOk_dot_cons]
    rw [Bool.and_eq_true, Bool.and_eq_true]
    refine ⟨⟨rfl, ?_⟩, ih⟩
    rcases hm : r.dropWhile isWs with _ | ⟨x, m⟩
    · rw [sub6]; rfl
    · have hx : isWs x = false := head?_dropWhile_not r x (by rw [hm]; rfl)
      rw [headOkB_of_head? (sub6_head (m := x :: m) rfl hx), hx]
      rfl
  | case5 d r hws hdot ih =>
    rw [sub6_other (by simpa using hws) hdot, dotOk_other hdot]
    rw [Bool.and_eq_true]
    exact ⟨noSpDot_of_not_space (not_space_of_not_ws (by simpa using hws)) _, ih⟩

/-! ### Preservation lemmas: each pass keeps earlier passes' invariants -/

theorem getLast?_mem_list {l : List Char} {a : Char} (h : a ∈ l.getLast?) : a ∈ l := by
  rcases List.mem_getLast?_eq_getLast h with ⟨hne, heq⟩
  rw [heq]
  exact List.getLast_mem hne

theorem takeWhile_eq_self_of_dropWhile_nil {p : Char → Bool} {l : List Char}
    (h : l.dropWhile p = []) : l.takeWhile p = l := by
  have := List.takeWhile_append_dropWhile (p := p) (l := l)
  rw [h, List.append_nil] at this
  exact this

theorem sub2_pres {p q : Char → Bool}
    (h1 : ∀ a, isLow a = true → (p a && q ' ') = false)
    (h2 : ∀ b, isUpp b = true → (p ' ' && q b) = false) :
    ∀ l : List Char, pairOk p q l → pairOk p q (sub2 l) := by
  intro l
  induction l using sub2.induct with
  | case1 => intro h; rw [sub2]; exact List.chain'_nil
  | case2 c => intro h; rw [sub2]; exact List.chain'_singleton c
  | case3 a b t hlu ih =>
    intro hin
    rw [sub2_hit hlu]
    rw [Bool.and_eq_true] at hlu
    have htb : pairOk p q (b :: t) := pairOk_tail hin
    refine pairOk_cons_cons.mpr ⟨h1 a hlu.1, pairOk_cons_cons.mpr
      ⟨h2 b hlu.2, pairOk_cons'.mpr ⟨?_, ih (pairOk_tail htb)⟩⟩⟩
    intro x hx
    cases t with
    | nil => rw [sub2] at hx; cases hx
    | cons y t' =>
      rw [sub2_head y t'] at hx
      have : y = x := by simpa using hx
      subst this
      exact (pairOk_cons'.mp htb).1 y rfl
  | case4 a b t hlu ih =>
    intro hin
    rw [sub2_miss (by simpa using hlu)]
    refine pairOk_cons'.mpr ⟨?_, ih (pairOk_tail hin)⟩
    intro x hx
    rw [sub2_head b t] at hx
    have : b = x := by simpa using hx
    subst this
    exact (pairOk_cons'.mp hin).1 b rfl

theorem sub3_pres {p q : Char → Bool}
    (h1 : ∀ a, isDig a = true → (p a && q ' ') = false)
    (h2 : ∀ b, isAl b = true → (p ' ' && q b) = false) :
    ∀ l : List Char, pairOk p q l → pairOk p q (sub3 l) := by
  intro l
  induction l using sub3.induct with
  | case1 => intro h; rw [sub3]; exact List.chain'_nil
  | case2 c t hdig hdrop =>
    intro hin
    rw [sub3_dig_nil hdig hdrop, takeWhile_eq_self_of_dropWhile_nil hdrop]
    exact hin
  | case3 c t hdig d r hdrop hal ih =>
    intro hin
    have hsplit : c :: t = (c :: t.takeWhile isDig) ++ (d :: r) := by
      rw [List.cons_append]
      congr 1
      rw [← hdrop, List.takeWhile_append_dropWhile]
    rw [hsplit] at hin
    have hparts := pairOk_append.mp hin
    have hdr : pairOk p q (d :: r) := hparts.2.1
    rw [sub3_dig_al hdig hdrop hal]
    refine pairOk_append.mpr ⟨hparts.1, ?_, ?_⟩
    · refine pairOk_cons'.mpr ⟨?_, pairOk_cons'.mpr ⟨?_, ih (pairOk_tail hdr)⟩⟩
      · intro x hx
        have : d = x := by simpa using hx
        subst this
        exact h2 d hal
      · intro x hx
        cases r with
        | nil => rw [sub3] at hx; cases hx
        | cons y r' =>
          rw [sub3_head y r'] at hx
          have : y = x := by simpa using hx
          subst this
          exact (pairOk_cons'.mp hdr).1 y rfl
    · intro a ha b hb
      have : ' ' = b := by simpa using hb
      subst this
      have hadig : isDig a = true := by
        have ham := getLast?_mem_list ha
        rcases List.mem_cons.mp ham with h | h
        · subst h; exact hdig
        · exact mem_takeWhile_sat t a h
      exact h1 a hadig
  | case4 c t hdig d r hdrop hal ih =>
    intro hin
    have hsplit : c :: t = (c :: t.takeWhile isDig) ++ (d :: r) := by
      rw [List.cons_append]
      congr 1
      rw [← hdrop, List.takeWhile_append_dropWhile]
    rw [hsplit] at hin
    have hparts := pairOk_append.mp hin
    rw [sub3_dig_nal hdig hdrop (by simpa using hal)]
    refine pairOk_append.mpr ⟨hparts.1, ih hparts.2.1, ?_⟩
    intro a ha b hb
    rw [sub3_head d r] at hb
    have : d = b := by simpa using hb
    subst this
    exact hparts.2.2 a ha d rfl
  | case5 c t hdig ih =>
    intro hin
    rw [sub3_ndig (by simpa using hdig)]
    refine pairOk_cons'.mpr ⟨?_, ih (pairOk_tail hin)⟩
    intro x hx
    cases t with
    | nil => rw [sub3] at hx; cases hx
    | cons y t' =>
      rw [sub3_head y t'] at hx
      have : y = x := by simpa using hx
      subst this
      exact (pairOk_cons'.mp hin).1 y rfl

theorem sub4_pres {p q : Char → Bool}
    (h1 : ∀ a, isAl a = true → (p a && q ' ') = false)
    (h2 : ∀ b, isDig b = true → (p ' ' && q b) = false) :
    ∀ l : List Char, pairOk p q l → pairOk p q (sub4 l) := by
  intro l
  induction l using sub4.induct with
  | case1 => intro h; rw [sub4_nil]; exact List.chain'_nil
  | case2 c hal => intro h; rw [sub4_single]; exact List.chain'_singleton c
  | case3 c hal d r hdig ih =>
    intro hin
    have hsplit : d :: r = (d :: r.takeWhile isDig) ++ r.dropWhile isDig := by
      rw [List.cons_append, List.takeWhile_append_dropWhile]
    have htl : pairOk p q ((d :: r.takeWhile isDig) ++ r.dropWhile isDig) := by
      rw [← hsplit]; exact pairOk_tail hin
    have hparts := pairOk_append.mp htl
    rw [sub4_al_dig hal hdig]
    refine pairOk_append.mpr ⟨?_, ih hparts.2.1, ?_⟩
    · refine pairOk_cons_cons.mpr ⟨h1 c hal, pairOk_cons'.mpr ⟨?_, hparts.1⟩⟩
      intro x hx
      have : d = x := by simpa using hx
      subst this
      exact h2 d hdig
    · intro a ha b hb
      have ha' : a ∈ ((c :: ' ' :: d :: r.takeWhile isDig)).getLast? := ha
      rw [List.getLast?_cons_cons, List.getLast?_cons_cons] at ha'
      refine hparts.2.2 a ha' b ?_
      rcases hm : r.dropWhile isDig with _ | ⟨x, m⟩
      · rw [hm, sub4_nil] at hb; cases hb
      · rw [hm, sub4_head x m] at hb
        exact hb
  | case4 c hal d r hdig ih =>
    intro hin
    rw [sub4_al_ndig hal (by simpa using hdig)]
    refine pairOk_cons'.mpr ⟨?_, ih (pairOk_tail hin)⟩
    intro x hx
    rw [sub4_head d r] at hx
    have : d = x := by simpa using hx
    subst this
    exact (pairOk_cons'.mp hin).1 d rfl
  | case5 c t hal ih =>
    intro hin
    rw [sub4_nal (by simpa using hal)]
    refine pairOk_cons'.mpr ⟨?_, ih (pairOk_tail hin)⟩
    intro x hx
    cases t with
    | nil => rw [sub4_nil] at hx; cases hx
    | cons y t' =>
      rw [sub4_head y t'] at hx
      have : y = x := by simpa using hx
      subst this
      exact (pairOk_cons'.mp hin).1 y rfl

theorem sub5_pres {p q : Char → Bool} :
    ∀ l : List Char, pairOk p q l → pairOk p q (sub5 l) := by
  intro l
  induction l using sub5.induct with
  | case1 => intro h; rw [sub5]; exact List.chain'_nil
  | case2 => intro h; rw [sub5_dot_nil]; exact List.chain'_singleton _
  | case3 r ih =>
    intro hin
    have hsplit : ('.' : Char) :: r =
        ('.' :: r.takeWhile (· == '.')) ++ r.dropWhile (· == '.') := by
      rw [List.cons_append, List.takeWhile_append_dropWhile]
    have htl : pairOk p q (('.' :: r.takeWhile (· == '.')) ++ r.dropWhile (· == '.')) := by
      rw [← hsplit]; exact pairOk_tail hin
    have hparts := pairOk_append.mp htl
    rw [sub5_dotdot]
    refine pairOk_cons'.mpr ⟨?_, ih hparts.2.1⟩
    intro x hx
    rcases hm : r.dropWhile (· == '.') with _ | ⟨y, m⟩
    · rw [hm, sub5] at hx; cases hx
    · rw [hm, sub5_head y m] at hx
      have : y = x := by simpa using hx
      subst this
      rcases hg : (('.' :: r.takeWhile (· == '.'))).getLast? with _ | ⟨g⟩
      · rw [List.getLast?_eq_none_iff] at hg; cases hg
      · have hgdot : g = '.' := by
          have hmem := getLast?_mem_list (l := '.' :: r.takeWhile (· == '.')) (by rw [hg]; rfl)
          rcases List.mem_cons.mp hmem with h | h
          · exact h
          · simpa using mem_takeWhile_sat r g h
        have := hparts.2.2 g (by rw [hg]; rfl) y (by rw [hm]; rfl)
        rw [hgdot] at this
        exact this
  | case4 d r hd ih =>
    intro hin
    rw [sub5_dot_nd hd]
    refine pairOk_cons'.mpr ⟨?_, ih (pairOk_tail hin)⟩
    intro x hx
    rw [sub5_head d r] at hx
    have : d = x := by simpa using hx
    subst this
    exact (pairOk_cons'.mp hin).1 d rfl
  | case5 d r hd ih =>
    intro hin
    rw [sub5_ndot hd]
    refine pairOk_cons'.mpr ⟨?_, ih (pairOk_tail hin)⟩
    intro x hx
    cases r with
    | nil => rw [sub5] at hx; cases hx
    | cons y r2 =>
      rw [sub5_head y r2] at hx
      have : y = x := by simpa using hx
      subst this
      exact (pairOk_cons'.mp hin).1 y rfl

/-- The head of `sub6 (y :: r)` is either `y` itself or a period produced
by a match. -/
theorem sub6_head_sub (y : Char) (r : List Char) :
    ∀ e ∈ (sub6 (y :: r)).head?, e = y ∨ e = '.' := by
  intro e he
  by_cases hws : isWs y = true
  · rcases hdd : r.dropWhile isWs with _ | ⟨z, zs⟩
    · rw [sub6_ws_other hws (fun r1 hh => by rw [hdd] at hh; cases hh)] at he
      left
      exact (show y = e by simpa using he).symm
    · by_cases hz : z = '.'
      · subst hz
        rw [sub6_ws_dot hws hdd] at he
        right
        exact (show ('.' : Char) = e by simpa using he).symm
      · rw [sub6_ws_other hws (fun r1 hh => by
          rw [hdd] at hh
          injection hh with hh1 hh2
          exact hz hh1)] at he
        left
        exact (show y = e by simpa using he).symm
  · by_cases hdot : y = '.'
    · subst hdot
      rw [sub6_dot] at he
      right
      exact (show ('.' : Char) = e by simpa using he).symm
    · rw [sub6_other (by simpa using hws) hdot] at he
      left
      exact (show y = e by simpa using he).symm

theorem sub6_pres {p q : Char → Bool}
    (h1 : (p '.' && q ' ') = false)
    (h2 : ∀ b, isWs b = false → (p ' ' && q b) = false)
    (h3 : ∀ c, isWs c = false → (c = '.' → False) → (p c && q '.') = false) :
    ∀ l : List Char, pairOk p q l → pairOk p q (sub6 l) := by
  intro l
  induction l using sub6.induct with
  | case1 => intro h; rw [sub6]; exact List.chain'_nil
  | case2 d r hws r1 hdrop ih =>
    intro hin
    rw [sub6_ws_dot hws hdrop]
    have hm1 : pairOk p q ('.' :: r1) := by
      rw [← hdrop]; exact pairOk_dropWhile r (pairOk_tail hin)
    refine pairOk_cons_cons.mpr ⟨h1, pairOk_cons'.mpr
      ⟨?_, ih (pairOk_dropWhile r1 (pairOk_tail hm1))⟩⟩
    intro b hb
    rcases hm : r1.dropWhile isWs with _ | ⟨x, m⟩
    · rw [hm, sub6] at hb; cases hb
    · have hx : isWs x = false := head?_dropWhile_not r1 x (by rw [hm]; rfl)
      rw [hm, sub6_head (m := x :: m) rfl hx] at hb
      have : x = b := by simpa using hb
      subst this
      exact h2 x hx
  | case3 d r hws hno ih =>
    intro hin
    rw [sub6_ws_other hws hno]
    have hsplit : d :: r = (d :: r.takeWhile isWs) ++ r.dropWhile isWs := by
      rw [List.cons_append, List.takeWhile_append_dropWhile]
    rw [hsplit] at hin
    have hparts := pairOk_append.mp hin
    refine pairOk_append.mpr ⟨hparts.1, ih hparts.2.1, ?_⟩
    intro a ha b hb
    rcases hm : r.dropWhile isWs with _ | ⟨x, m⟩
    · rw [hm, sub6] at hb; cases hb
    · have hx : isWs x = false := head?_dropWhile_not r x (by rw [hm]; rfl)
      rw [hm, sub6_head (m := x :: m) rfl hx] at hb
      refine hparts.2.2 a ha b ?_
      rw [hm]
      exact hb
  | case4 r hdotws ih =>
    intro hin
    rw [sub6_dot]
    refine pairOk_cons_cons.mpr ⟨h1, pairOk_cons'.mpr
      ⟨?_, ih (pairOk_dropWhile r (pairOk_tail hin))⟩⟩
    intro b hb
    rcases hm : r.dropWhile isWs with _ | ⟨x, m⟩
    · rw [hm, sub6] at hb; cases hb
    · have hx : isWs x = false := head?_dropWhile_not r x (by rw [hm]; rfl)
      rw [hm, sub6_head (m := x :: m) rfl hx] at hb
      have : x = b := by simpa using hb
      subst this
      exact h2 x hx
  | case5 d r hws hdot ih =>
    intro hin
    rw [sub6_other (by simpa using hws) hdot]
    refine pairOk_cons'.mpr ⟨?_, ih (pairOk_tail hin)⟩
    intro e he
    cases r with
    | nil => rw [sub6] at he; cases he
    | cons y r2 =>
      rcases sub6_head_sub y r2 e he with h | h
      · subst h
        exact (pairOk_cons'.mp hin).1 e rfl
      · subst h
        exact h3 d (by simpa using hws) hdot

/-! ### Membership lemmas and whitespace-only preservation -/

theorem sub3_mem : ∀ (l : List Char) (c : Char), c ∈ sub3 l → c ∈ l ∨ c = ' ' := by
  intro l
  induction l using sub3.induct with
  | case1 => intro c h; rw [sub3] at h; cases h
  | case2 c0 t hdig hdrop =>
    intro c h
    rw [sub3_dig_nil hdig hdrop] at h
    left
    rcases List.mem_cons.mp h with h | h
    · subst h; exact List.mem_cons_self _ _
    · exact List.mem_cons_of_mem _ (mem_takeWhile_sub t c h)
  | case3 c0 t hdig d r hdrop hal ih =>
    intro c h
    rw [sub3_dig_al hdig hdrop hal] at h
    have hdr : ∀ x, x ∈ d :: r → x ∈ c0 :: t := by
      intro x hx
      refine List.mem_cons_of_mem _ (mem_dropWhile_sub (p := isDig) t x ?_)
      rw [hdrop]; exact hx
    rcases List.mem_append.mp h with h | h
    · rcases List.mem_cons.mp h with h | h
      · left; subst h; exact List.mem_cons_self _ _
      · left; exact List.mem_cons_of_mem _ (mem_takeWhile_sub t c h)
    · rcases List.mem_cons.mp h with h | h
      · right; exact h
      rcases List.mem_cons.mp h with h | h
      · left; subst h; exact hdr c (List.mem_cons_self _ _)
      · rcases ih c h with h2 | h2
        · left; exact hdr c (List.mem_cons_of_mem _ h2)
        · right; exact h2
  | case4 c0 t hdig d r hdrop hal ih =>
    intro c h
    rw [sub3_dig_nal hdig hdrop (by simpa using hal)] at h
    have hdr : ∀ x, x ∈ d :: r → x ∈ c0 :: t := by
      intro x hx
      refine List.mem_cons_of_mem _ (mem_dropWhile_sub (p := isDig) t x ?_)
      rw [hdrop]; exact hx
    rcases List.mem_append.mp h with h | h
    · rcases List.mem_cons.mp h with h | h
      · left; subst h; exact List.mem_cons_self _ _
      · left; exact List.mem_cons_of_mem _ (mem_takeWhile_sub t c h)
    · rcases ih c h with h2 | h2
      · left; exact hdr c h2
      · right; exact h2
  | case5 c0 t hdig ih =>
    intro c h
    rw [sub3_ndig (by simpa using hdig)] at h
    rcases List.mem_cons.mp h with h | h
    · left; subst h; exact List.mem_cons_self _ _
    · rcases ih c h with h2 | h2
      · left; exact List.mem_cons_of_mem _ h2
      · right; exact h2

theorem sub4_mem : ∀ (l : List Char) (c : Char), c ∈ sub4 l → c ∈ l ∨ c = ' ' := by
  intro l
  induction l using sub4.induct with
  | case1 => intro c h; rw [sub4_nil] at h; cases h
  | case2 c0 hal => intro c h; rw [sub4_single] at h; left; exact h
  | case3 c0 hal d r hdig ih =>
    intro c h
    rw [sub4_al_dig hal hdig] at h
    rcases List.mem_append.mp h with h | h
    · rcases List.mem_cons.mp h with h | h
      · left; subst h; exact List.mem_cons_self _ _
      rcases List.mem_cons.mp h with h | h
      · right; exact h
      rcases List.mem_cons.mp h with h | h
      · left; subst h; simp
      · left
        have : c ∈ r := mem_takeWhile_sub r c h
        simp [this]
    · rcases ih c h with h2 | h2
      · left
        have : c ∈ r := mem_dropWhile_sub r c h2
        simp [this]
      · right; exact h2
  | case4 c0 hal d r hdig ih =>
    intro c h
    rw [sub4_al_ndig hal (by simpa using hdig)] at h
    rcases List.mem_cons.mp h with h | h
    · left; subst h; exact List.mem_cons_self _ _
    · rcases ih c h with h2 | h2
      · left; exact List.mem_cons_of_mem _ h2
      · right; exact h2
  | case5 c0 t hal ih =>
    intro c h
    rw [sub4_nal (by simpa using hal)] at h
    rcases List.mem_cons.mp h with h | h
    · left; subst h; exact List.mem_cons_self _ _
    · rcases ih c h with h2 | h2
      · left; exact List.mem_cons_of_mem _ h2
      · right; exact h2

theorem sub5_mem : ∀ (l : List Char) (c : Char), c ∈ sub5 l → c ∈ l ∨ c = '.' := by
  intro l
  induction l using sub5.induct with
  | case1 => intro c h; rw [sub5] at h; cases h
  | case2 => intro c h; rw [sub5_dot_nil] at h; left; exact h
  | case3 r ih =>
    intro c h
    rw [sub5_dotdot] at h
    rcases List.mem_cons.mp h with h | h
    · right; exact h
    · rcases ih c h with h2 | h2
      · left
        have : c ∈ r := mem_dropWhile_sub r c h2
        simp [this]
      · right; exact h2
  | case4 d r hd ih =>
    intro c h
    rw [sub5_dot_nd hd] at h
    rcases List.mem_cons.mp h with h | h
    · left; subst h; exact List.mem_cons_self _ _
    · rcases ih c h with h2 | h2
      · left; exact List.mem_cons_of_mem _ h2
      · right; exact h2
  | case5 d r hd ih =>
    intro c h
    rw [sub5_ndot hd] at h
    rcases List.mem_cons.mp h with h | h
    · left; subst h; exact List.mem_cons_self _ _
    · rcases ih c h with h2 | h2
      · left; exact List.mem_cons_of_mem _ h2
      · right; exact h2

theorem sub6_mem : ∀ (l : List Char) (c : Char),
    c ∈ sub6 l → c ∈ l ∨ c = ' ' ∨ c = '.' := by
  intro l
  induction l using sub6.induct with
  | case1 => intro c h; rw [sub6] at h; cases h
  | case2 d r hws r1 hdrop ih =>
    intro c h
    rw [sub6_ws_dot hws hdrop] at h
    have hr1 : ∀ x, x ∈ r1 → x ∈ d :: r := by
      intro x hx
      refine List.mem_cons_of_mem _ (mem_dropWhile_sub (p := isWs) r x ?_)
      rw [hdrop]; exact List.mem_cons_of_mem _ hx
    rcases List.mem_cons.mp h with h | h
    · right; right; exact h
    rcases List.mem_cons.mp h with h | h
    · right; left; exact h
    rcases ih c h with h2 | h2
    · left; exact hr1 c (mem_dropWhile_sub r1 c h2)
    · right; exact h2
  | case3 d r hws hno ih =>
    intro c h
    rw [sub6_ws_other hws hno] at h
    rcases List.mem_append.mp h with h | h
    · rcases List.mem_cons.mp h with h | h
      · left; subst h; exact List.mem_cons_self _ _
      · left; exact List.mem_cons_of_mem _ (mem_takeWhile_sub r c h)
    · rcases ih c h with h2 | h2
      · left; exact List.mem_cons_of_mem _ (mem_dropWhile_sub r c h2)
      · right; exact h2
  | case4 r hdws ih =>
    intro c h
    rw [sub6_dot] at h
    rcases List.mem_cons.mp h with h | h
    · right; right; exact h
    rcases List.mem_cons.mp h with h | h
    · right; left; exact h
    rcases ih c h with h2 | h2
    · left; exact List.mem_cons_of_mem _ (mem_dropWhile_sub r c h2)
    · right; exact h2
  | case5 d r hws hdot ih =>
    intro c h
    rw [sub6_other (by simpa using hws) hdot] at h
    rcases List.mem_cons.mp h with h | h
    · left; subst h; exact List.mem_cons_self _ _
    · rcases ih c h with h2 | h2
      · left; exact List.mem_cons_of_mem _ h2
      · right; exact h2

theorem dropTrail_take : ∀ l : List Char, ∃ k, dropTrail l = l.take k := by
  intro l
  induction l with
  | nil => exact ⟨0, rfl⟩
  | cons c t ih =>
    rcases ih with ⟨k, hk⟩
    rw [dropTrail]
    rcases hdt : dropTrail t with _ | ⟨d, r⟩
    · by_cases hws : isWs c = true
      · rw [if_pos hws]; exact ⟨0, rfl⟩
      · rw [if_neg hws]; exact ⟨1, rfl⟩
    · rw [hdt] at hk
      refine ⟨k + 1, ?_⟩
      rw [List.take_succ_cons, ← hk]

theorem pyStrip_mem {l : List Char} {c : Char} (h : c ∈ pyStrip l) : c ∈ l := by
  rw [pyStrip] at h
  rcases dropTrail_take (l.dropWhile isWs) with ⟨k, hk⟩
  rw [hk] at h
  exact mem_dropWhile_sub l c (List.mem_of_mem_take h)

theorem wsOnly_of_mem_imp {l m : List Char}
    (hsub : ∀ c, c ∈ m → c ∈ l ∨ c = ' ' ∨ c = '.')
    (h : wsOnly l) : wsOnly m := by
  intro c hc hwc
  rcases hsub c hc with h2 | h2 | h2
  · exact h c h2 hwc
  · exact h2
  · exact absurd hwc (by rw [h2]; decide)

/-! ### dotOk closure under the strip operations -/

theorem dotOk_tail_of_other {c : Char} {t : List Char} (hc : c = '.' → False)
    (h : dotOk (c :: t) = true) : dotOk t = true := by
  rw [dotOk_other hc, Bool.and_eq_true] at h
  exact h.2

theorem dotOk_dropWhile_ws : ∀ l : List Char, dotOk l = true →
    dotOk (l.dropWhile isWs) = true := by
  intro l
  induction l with
  | nil => intro h; exact h
  | cons c t ih =>
    intro h
    rw [List.dropWhile_cons]
    by_cases hws : isWs c = true
    · rw [if_pos hws]
      exact ih (dotOk_tail_of_other (ws_not_dot hws) h)
    · rw [if_neg hws]
      exact h

theorem dotOk_take : ∀ (l : List Char) (n : ℕ), dotOk l = true →
    dotOk (l.take n) = true := by
  intro l
  induction l using dotOk.induct with
  | case1 => intro n h; simp [List.take_nil]; rfl
  | case2 =>
    intro n h
    cases n with
    | zero => rfl
    | succ n => rw [List.take_succ_cons, List.take_nil, dotOk_dot_nil]
  | case3 d t2 ih =>
    intro n h
    rw [dotOk_dot_cons, Bool.and_eq_true, Bool.and_eq_true] at h
    cases n with
    | zero => rfl
    | succ n =>
      cases n with
      | zero => rw [List.take_succ_cons, List.take_zero, dotOk_dot_nil]
      | succ n =>
        rw [List.take_succ_cons, List.take_succ_cons, dotOk_dot_cons]
        rw [Bool.and_eq_true, Bool.and_eq_true]
        refine ⟨⟨h.1.1, ?_⟩, ih n h.2⟩
        cases t2 with
        | nil => rw [List.take_nil]; exact h.1.2
        | cons e m =>
          cases n with
          | zero => rfl
          | succ n => exact h.1.2
  | case4 c t hc ih =>
    intro n h
    rw [dotOk_other hc, Bool.and_eq_true] at h
    cases n with
    | zero => rfl
    | succ n =>
      rw [List.take_succ_cons, dotOk_other hc]
      rw [Bool.and_eq_true]
      refine ⟨?_, ih n h.2⟩
      cases t with
      | nil => rw [List.take_nil]; rfl
      | cons e m =>
        cases n with
        | zero => rfl
        | succ n => exact h.1

theorem dotOk_pyStrip {l : List Char} (h : dotOk l = true) : dotOk (pyStrip l) = true := by
  rw [pyStrip]
  rcases dropTrail_take (l.dropWhile isWs) with ⟨k, hk⟩
  rw [hk]
  exact dotOk_take _ k (dotOk_dropWhile_ws l h)

/-! ### Identity lemmas: each pass fixes strings in its normal form -/

theorem wsOnly_tail {c : Char} {t : List Char} (h : wsOnly (c :: t)) : wsOnly t :=
  fun x hx hwx => h x (List.mem_cons_of_mem _ hx) hwx

theorem dropWhile_eq_self_of_head {l : List Char}
    (h : ∀ a ∈ l.head?, isWs a = false) : l.dropWhile isWs = l := by
  cases l with
  | nil => rfl
  | cons c t =>
    rw [List.dropWhile_cons, if_neg]
    rw [h c rfl]
    exact Bool.false_ne_true

theorem sub1_id : ∀ l : List Char, wsOnly l → pairOk isWs isWs l → sub1 l = l := by
  intro l
  induction l using sub1.induct with
  | case1 => intro _ _; rw [sub1]
  | case2 a t hws ih =>
    intro hwo hpk
    have ha : a = ' ' := hwo a (List.mem_cons_self _ _) hws
    have hdw : t.dropWhile isWs = t := by
      refine dropWhile_eq_self_of_head ?_
      intro x hx
      cases t with
      | nil => cases hx
      | cons y t2 =>
        have : y = x := by simpa using hx
        subst this
        have := (pairOk_cons'.mp hpk).1 y rfl
        rw [hws, Bool.true_and] at this
        exact this
    rw [hdw] at ih
    rw [sub1_ws hws, hdw, ih (wsOnly_tail hwo) (pairOk_tail hpk), ha]
  | case3 a t hws ih =>
    intro hwo hpk
    rw [sub1_nws (by simpa using hws), ih (wsOnly_tail hwo) (pairOk_tail hpk)]

theorem sub2_id : ∀ l : List Char, pairOk isLow isUpp l → sub2 l = l := by
  intro l
  induction l using sub2.induct with
  | case1 => intro _; rw [sub2]
  | case2 c => intro _; rw [sub2]
  | case3 a b t hlu ih =>
    intro hpk
    have := (pairOk_cons_cons.mp hpk).1
    rw [hlu] at this
    cases this
  | case4 a b t hlu ih =>
    intro hpk
    rw [sub2_miss (by simpa using hlu), ih (pairOk_tail hpk)]

theorem sub3_id : ∀ l : List Char, pairOk isDig isAl l → sub3 l = l := by
  intro l
  induction l using sub3.induct with
  | case1 => intro _; rw [sub3]
  | case2 c t hdig hdrop =>
    intro hpk
    rw [sub3_dig_nil hdig hdrop, takeWhile_eq_self_of_dropWhile_nil hdrop]
  | case3 c t hdig d r hdrop hal ih =>
    intro hpk
    exfalso
    have hsplit : c :: t = (c :: t.takeWhile isDig) ++ (d :: r) := by
      rw [List.cons_append]
      congr 1
      rw [← hdrop, List.takeWhile_append_dropWhile]
    rw [hsplit] at hpk
    have hparts := pairOk_append.mp hpk
    rcases hg : ((c :: t.takeWhile isDig)).getLast? with _ | ⟨g⟩
    · rw [List.getLast?_eq_none_iff] at hg; cases hg
    · have hgdig : isDig g = true := by
        have hmem := getLast?_mem_list (l := c :: t.takeWhile isDig) (by rw [hg]; rfl)
        rcases List.mem_cons.mp hmem with h | h
        · subst h; exact hdig
        · exact mem_takeWhile_sat t g h
      have := hparts.2.2 g (by rw [hg]; rfl) d rfl
      rw [hgdig, hal] at this
      cases this
  | case4 c t hdig d r hdrop hal ih =>
    intro hpk
    have hsplit : c :: t = (c :: t.takeWhile isDig) ++ (d :: r) := by
      rw [List.cons_append]
      congr 1
      rw [← hdrop, List.takeWhile_append_dropWhile]
    rw [sub3_dig_nal hdig hdrop (by simpa using hal)]
    have hpk2 : pairOk isDig isAl ((c :: t.takeWhile isDig) ++ (d :: r)) := by
      rw [← hsplit]; exact hpk
    rw [ih (pairOk_append.mp hpk2).2.1, List.cons_append,
      show t.takeWhile isDig ++ (d :: r) = t by
        rw [← hdrop]; exact List.takeWhile_append_dropWhile isDig t]
  | case5 c t hdig ih =>
    intro hpk
    rw [sub3_ndig (by simpa using hdig), ih (pairOk_tail hpk)]

theorem sub4_id : ∀ l : List Char, pairOk isAl isDig l → sub4 l = l := by
  intro l
  induction l using sub4.induct with
  | case1 => intro _; rw [sub4_nil]
  | case2 c hal => intro _; rw [sub4_single]
  | case3 c hal d r hdig ih =>
    intro hpk
    exfalso
    have := (pairOk_cons_cons.mp hpk).1
    rw [hal, hdig] at this
    cases this
  | case4 c hal d r hdig ih =>
    intro hpk
    rw [sub4_al_ndig hal (by simpa using hdig), ih (pairOk_tail hpk)]
  | case5 c t hal ih =>
    intro hpk
    rw [sub4_nal (by simpa using hal), ih (pairOk_tail hpk)]

theorem sub5_id : ∀ l : List Char, pairOk isDot isDot l → sub5 l = l := by
  intro l
  induction l using sub5.induct with
  | case1 => intro _; rw [sub5]
  | case2 => intro _; rw [sub5_dot_nil]
  | case3 r ih =>
    intro hpk
    exfalso
    have := (pairOk_cons_cons.mp hpk).1
    rw [show isDot '.' = true by decide] at this
    cases this
  | case4 d r hd ih =>
    intro hpk
    rw [sub5_dot_nd hd, ih (pairOk_tail hpk)]
  | case5 d r hd ih =>
    intro hpk
    rw [sub5_ndot hd, ih (pairOk_tail hpk)]

theorem dropTrail_id : ∀ l : List Char,
    (∀ a ∈ l.getLast?, isWs a = false) → dropTrail l = l := by
  intro l
  induction l with
  | nil => intro _; rfl
  | cons c t ih =>
    intro hlast
    cases t with
    | nil =>
      have hc : isWs c = false := hlast c rfl
      rw [dropTrail]
      show (if isWs c then [] else [c]) = [c]
      rw [if_neg (by rw [hc]; exact Bool.false_ne_true)]
    | cons d r =>
      have hIH : dropTrail (d :: r) = d :: r := by
        refine ih ?_
        intro a ha
        refine hlast a ?_
        rw [List.getLast?_cons_cons]
        exact ha
      rw [dropTrail, hIH]

theorem dropTrail_snoc_ws {x : Char} (hx : isWs x = true) :
    ∀ l : List Char, dropTrail (l ++ [x]) = dropTrail l := by
  intro l
  induction l with
  | nil =>
    show dropTrail [x] = dropTrail []
    rw [dropTrail]
    show (if isWs x then [] else [x]) = dropTrail []
    rw [if_pos hx]
    rfl
  | cons c t ih =>
    rw [List.cons_append, dropTrail, ih]
    conv_rhs => rw [dropTrail]

theorem pyStrip_id {l : List Char} (hh : ∀ a ∈ l.head?, isWs a = false)
    (hl : ∀ a ∈ l.getLast?, isWs a = false) : pyStrip l = l := by
  rw [pyStrip, dropWhile_eq_self_of_head hh, dropTrail_id l hl]

theorem pyStrip_snoc_sp {l : List Char} (hh : ∀ a ∈ l.head?, isWs a = false)
    (hl : ∀ a ∈ l.getLast?, isWs a = false) : pyStrip (l ++ [' ']) = l := by
  cases l with
  | nil => rfl
  | cons c t =>
    rw [pyStrip, List.cons_append, List.dropWhile_cons,
      if_neg (by rw [hh c rfl]; exact Bool.false_ne_true), ← List.cons_append,
      dropTrail_snoc_ws (by decide), dropTrail_id _ hl]

/-- On a string in normal form, `sub6` is the identity except that a
trailing period gains a trailing space (removed again by the final
`strip`). -/
theorem sub6_id : ∀ l : List Char, wsOnly l → pairOk isWs isWs l → dotOk l = true →
    (∀ a ∈ l.getLast?, isWs a = false) →
    sub6 l = l ∨ (l.getLast? = some '.' ∧ sub6 l = l ++ [' ']) := by
  intro l
  induction l using sub6.induct with
  | case1 => intro _ _ _ _; left; rw [sub6]
  | case2 d r hws r1 hdrop ih =>
    intro hwo hpk hdot hlast
    exfalso
    have hd : d = ' ' := hwo d (List.mem_cons_self _ _) hws
    cases r with
    | nil => rw [List.dropWhile_nil] at hdrop; cases hdrop
    | cons y r2 =>
      have hy : isWs y = false := by
        have := (pairOk_cons'.mp hpk).1 y rfl
        rw [hws, Bool.true_and] at this
        exact this
      rw [List.dropWhile_cons, if_neg (by rw [hy]; exact Bool.false_ne_true)] at hdrop
      injection hdrop with hy2 hr2
      rw [dotOk_other (ws_not_dot hws)] at hdot
      have hns : noSpDot d (y :: r2) = false := by
        show (!((y == '.') && (d == ' '))) = false
        rw [hy2, hd]
        rfl
      rw [hns, Bool.false_and] at hdot
      cases hdot
  | case3 d r hws hno ih =>
    intro hwo hpk hdot hlast
    have hd : d = ' ' := hwo d (List.mem_cons_self _ _) hws
    cases r with
    | nil =>
      exfalso
      have := hlast d rfl
      rw [hws] at this
      cases this
    | cons y r2 =>
      have hy : isWs y = false := by
        have := (pairOk_cons'.mp hpk).1 y rfl
        rw [hws, Bool.true_and] at this
        exact this
      have hdw : (y :: r2).dropWhile isWs = y :: r2 := by
        rw [List.dropWhile_cons, if_neg (by rw [hy]; exact Bool.false_ne_true)]
      have htw : (y :: r2).takeWhile isWs = [] := by
        rw [List.takeWhile_cons, if_neg (by rw [hy]; exact Bool.false_ne_true)]
      rw [hdw] at ih
      rw [sub6_ws_other hws hno, htw, hdw]
      have hdot2 : dotOk (y :: r2) = true :=
        dotOk_tail_of_other (ws_not_dot hws) hdot
      have hlast2 : ∀ a ∈ (y :: r2).getLast?, isWs a = false := by
        intro a ha
        refine hlast a ?_
        rw [List.getLast?_cons_cons]
        exact ha
      rcases ih (wsOnly_tail hwo) (pairOk_tail hpk) hdot2 hlast2 with h | ⟨h1, h2⟩
      · left
        rw [h, List.singleton_append]
      · right
        constructor
        · rw [List.getLast?_cons_cons]
          exact h1
        · rw [h2]
          simp
  | case4 r hdws ih =>
    intro hwo hpk hdot hlast
    cases r with
    | nil =>
      right
      refine ⟨rfl, ?_⟩
      rw [sub6_dot, List.dropWhile_nil, sub6]
      rfl
    | cons x t2 =>
      rw [dotOk_dot_cons, Bool.and_eq_true, Bool.and_eq_true] at hdot
      have hx : x = ' ' := by simpa using hdot.1.1
      subst hx
      cases t2 with
      | nil =>
        exfalso
        have := hlast ' ' (by rfl)
        rw [show isWs ' ' = true by decide] at this
        cases this
      | cons e m =>
        have he : isWs e = false := by
          have := hdot.1.2
          rw [headOkB] at this
          simpa using this
        have hdw : (' ' :: e :: m).dropWhile isWs = e :: m := by
          rw [List.dropWhile_cons, if_pos (by decide), List.dropWhile_cons,
            if_neg (by rw [he]; exact Bool.false_ne_true)]
        rw [hdw] at ih
        rw [sub6_dot, hdw]
        have hlast2 : ∀ a ∈ (e :: m).getLast?, isWs a = false := by
          intro a ha
          refine hlast a ?_
          rw [List.getLast?_cons_cons, List.getLast?_cons_cons]
          exact ha
        have hwo2 : wsOnly (e :: m) := wsOnly_tail (wsOnly_tail hwo)
        have hpk2 : pairOk isWs isWs (e :: m) := pairOk_tail (pairOk_tail hpk)
        rcases ih hwo2 hpk2 hdot.2 hlast2 with h | ⟨h1, h2⟩
        · left
          rw [h]
        · right
          constructor
          · rw [List.getLast?_cons_cons, List.getLast?_cons_cons]
            exact h1
          · rw [h2]
            simp
  | case5 d r hws hdotF ih =>
    intro hwo hpk hdot hlast
    rw [sub6_other (by simpa using hws) hdotF]
    cases r with
    | nil =>
      left
      rw [sub6]
    | cons y r2 =>
      have hdot2 : dotOk (y :: r2) = true := dotOk_tail_of_other hdotF hdot
      have hlast2 : ∀ a ∈ (y :: r2).getLast?, isWs a = false := by
        intro a ha
        refine hlast a ?_
        rw [List.getLast?_cons_cons]
        exact ha
      rcases ih (wsOnly_tail hwo) (pairOk_tail hpk) hdot2 hlast2 with h | ⟨h1, h2⟩
      · left
        rw [h]
      · right
        constructor
        · rw [List.getLast?_cons_cons]
          exact h1
        · rw [h2]
          simp

/-! ### The normal form of `normalize_text` output -/

theorem low_not_ws {c : Char} (h : isLow c = true) : isWs c = false :=
  al_not_ws (by rw [isAl, h, Bool.true_or])

theorem upp_not_ws {c : Char} (h : isUpp c = true) : isWs c = false :=
  al_not_ws (by rw [isAl, h, Bool.or_true])

theorem isDot_false_of_ne {c : Char} (h : c = '.' → False) : isDot c = false := by
  cases hb : (c == '.')
  · rw [isDot, hb]
  · exact absurd (by simpa using hb) h

theorem pairOk_pyStrip {p q : Char → Bool} {l : List Char}
    (h : pairOk p q l) : pairOk p q (pyStrip l) := by
  rw [pyStrip]
  rcases dropTrail_take (l.dropWhile isWs) with ⟨k, hk⟩
  rw [hk]
  exact pairOk_take k _ (pairOk_dropWhile l h)

theorem dropTrail_head? : ∀ (l : List Char) (a : Char),
    (dropTrail l).head? = some a → l.head? = some a := by
  intro l
  induction l with
  | nil => intro a h; cases h
  | cons c t ih =>
    intro a h
    rw [dropTrail] at h
    rcases hdt : dropTrail t with _ | ⟨d, r⟩
    · rw [hdt] at h
      by_cases hws : isWs c = true
      · rw [if_pos hws] at h; cases h
      · rw [if_neg hws] at h; exact h
    · rw [hdt] at h
      exact h

theorem dropTrail_last_nonws : ∀ (l : List Char) (a : Char),
    (dropTrail l).getLast? = some a → isWs a = false := by
  intro l
  induction l with
  | nil => intro a h; cases h
  | cons c t ih =>
    intro a h
    rw [dropTrail] at h
    rcases hdt : dropTrail t with _ | ⟨d, r⟩
    · rw [hdt] at h
      by_cases hws : isWs c = true
      · rw [if_pos hws] at h; cases h
      · rw [if_neg hws] at h
        have : c = a := by simpa using h
        subst this
        simpa using hws
    · rw [hdt] at h
      rw [List.getLast?_cons_cons] at h
      refine ih a ?_
      rw [hdt]
      exact h

theorem pyStrip_head_nonws {l : List Char} :
    ∀ a ∈ (pyStrip l).head?, isWs a = false := by
  intro a ha
  rw [pyStrip] at ha
  exact head?_dropWhile_not l a (dropTrail_head? _ a ha)

theorem pyStrip_last_nonws {l : List Char} :
    ∀ a ∈ (pyStrip l).getLast?, isWs a = false := by
  intro a ha
  rw [pyStrip] at ha
  exact dropTrail_last_nonws _ a ha

/-- The normal form reached by `normalize_text`: only single spaces as
whitespace, none of the boundary patterns of the four insertion
substitutions, no period runs, well-shaped periods, and no leading or
trailing whitespace. -/
def NF (l : List Char) : Prop :=
  wsOnly l ∧ pairOk isWs isWs l ∧ pairOk isLow isUpp l ∧ pairOk isDig isAl l ∧
  pairOk isAl isDig l ∧ pairOk isDot isDot l ∧ dotOk l = true ∧
  (∀ a ∈ l.head?, isWs a = false) ∧ (∀ a ∈ l.getLast?, isWs a = false)

/-- Every `normalize_text` output is in normal form. -/
theorem NF_normalize (x : List Char) : NF (normalize_text x) := by
  have h1a : wsOnly (sub1 x) := sub1_wsOnly x
  have h1b : pairOk isWs isWs (sub1 x) := sub1_wsws x
  set s1 := sub1 x
  have h2a : wsOnly (sub2 s1) :=
    wsOnly_of_mem_imp (fun c hc => (sub2_mem s1 c hc).elim Or.inl
      (fun h => Or.inr (Or.inl h))) h1a
  have h2b : pairOk isWs isWs (sub2 s1) :=
    sub2_pres (fun a ha => by rw [low_not_ws ha, Bool.false_and])
      (fun b hb => by rw [upp_not_ws hb, Bool.and_false]) s1 h1b
  have h2c : pairOk isLow isUpp (sub2 s1) := sub2_lowupp s1
  set s2 := sub2 s1
  have h3a : wsOnly (sub3 s2) :=
    wsOnly_of_mem_imp (fun c hc => (sub3_mem s2 c hc).elim Or.inl
      (fun h => Or.inr (Or.inl h))) h2a
  have h3b : pairOk isWs isWs (sub3 s2) :=
    sub3_pres (fun a ha => by rw [dig_not_ws ha, Bool.false_and])
      (fun b hb => by rw [al_not_ws hb, Bool.and_false]) s2 h2b
  have h3c : pairOk isLow isUpp (sub3 s2) :=
    sub3_pres (fun a _ => by rw [show isUpp ' ' = false by decide, Bool.and_false])
      (fun b _ => by rw [show isLow ' ' = false by decide, Bool.false_and]) s2 h2c
  have h3d : pairOk isDig isAl (sub3 s2) := sub3_digal s2
  set s3 := sub3 s2
  have h4a : wsOnly (sub4 s3) :=
    wsOnly_of_mem_imp (fun c hc => (sub4_mem s3 c hc).elim Or.inl
      (fun h => Or.inr (Or.inl h))) h3a
  have h4b : pairOk isWs isWs (sub4 s3) :=
    sub4_pres (fun a ha => by rw [al_not_ws ha, Bool.false_and])
      (fun b hb => by rw [dig_not_ws hb, Bool.and_false]) s3 h3b
  have h4c : pairOk isLow isUpp (sub4 s3) :=
    sub4_pres (fun a _ => by rw [show isUpp ' ' = false by decide, Bool.and_false])
      (fun b _ => by rw [show isLow ' ' = false by decide, Bool.false_and]) s3 h3c
  have h4d : pairOk isDig isAl (sub4 s3) :=
    sub4_pres (fun a _ => by rw [show isAl ' ' = false by decide, Bool.and_false])
      (fun b _ => by rw [show isDig ' ' = false by decide, Bool.false_and]) s3 h3d
  have h4e : pairOk isAl isDig (sub4 s3) := sub4_aldig s3
  set s4 := sub4 s3
  have h5a : wsOnly (sub5 s4) :=
    wsOnly_of_mem_imp (fun c hc => (sub5_mem s4 c hc).elim Or.inl
      (fun h => Or.inr (Or.inr h))) h4a
  have h5b : pairOk isWs isWs (sub5 s4) := sub5_pres s4 h4b
  have h5c : pairOk isLow isUpp (sub5 s4) := sub5_pres s4 h4c
  have h5d : pairOk isDig isAl (sub5 s4) := sub5_pres s4 h4d
  have h5e : pairOk isAl isDig (sub5 s4) := sub5_pres s4 h4e
  have h5f : pairOk isDot isDot (sub5 s4) := sub5_dots s4
  set s5 := sub5 s4
  have h6a : wsOnly (sub6 s5) := wsOnly_of_mem_imp (fun c hc => sub6_mem s5 c hc) h5a
  have h6b : pairOk isWs isWs (sub6 s5) :=
    sub6_pres (by decide)
      (fun b hb => by rw [hb, Bool.and_false])
      (fun c hc _ => by rw [show isWs '.' = false by decide, Bool.and_false]) s5 h5b
  have h6c : pairOk isLow isUpp (sub6 s5) :=
    sub6_pres (by decide)
      (fun b _ => by rw [show isLow ' ' = false by decide, Bool.false_and])
      (fun c _ _ => by rw [show isUpp '.' = false by decide, Bool.and_false]) s5 h5c
  have h6d : pairOk isDig isAl (sub6 s5) :=
    sub6_pres (by decide)
      (fun b _ => by rw [show isDig ' ' = false by decide, Bool.false_and])
      (fun c _ _ => by rw [show isAl '.' = false by decide, Bool.and_false]) s5 h5d
  have h6e : pairOk isAl isDig (sub6 s5) :=
    sub6_pres (by decide)
      (fun b _ => by rw [show isAl ' ' = false by decide, Bool.false_and])
      (fun c _ _ => by rw [show isDig '.' = false by decide, Bool.and_false]) s5 h5e
  have h6f : pairOk isDot isDot (sub6 s5) :=
    sub6_pres (by decide)
      (fun b _ => by rw [show isDot ' ' = false by decide, Bool.false_and])
      (fun c _ hc => by rw [isDot_false_of_ne hc, Bool.false_and]) s5 h5f
  have h6g : dotOk (sub6 s5) = true := sub6_dotOk s5
  set s6 := sub6 s5
  refine ⟨?_, ?_, ?_, ?_, ?_, ?_, ?_, ?_, ?_⟩
  · exact fun c hc hwc => h6a c (pyStrip_mem hc) hwc
  · exact pairOk_pyStrip h6b
  · exact pairOk_pyStrip h6c
  · exact pairOk_pyStrip h6d
  · exact pairOk_pyStrip h6e
  · exact pairOk_pyStrip h6f
  · exact dotOk_pyStrip h6g
  · exact pyStrip_head_nonws
  · exact pyStrip_last_nonws

/-- `normalize_text` fixes every string in normal form. -/
theorem normalize_eq_of_NF {y : List Char} (h : NF y) : normalize_text y = y := by
  obtain ⟨hwo, hww, hlu, hda, had, hdd, hdot, hhead, hlast⟩ := h
  rw [normalize_text, sub1_id y hwo hww, sub2_id y hlu, sub3_id y hda,
    sub4_id y had, sub5_id y hdd]
  rcases sub6_id y hwo hww hdot hlast with h6 | ⟨_, h6⟩
  · rw [h6, pyStrip_id hhead hlast]
  · rw [h6, pyStrip_snoc_sp hhead hlast]

/-- Idempotence of the text normalizer. -/
theorem normalize_text_idem (x : List Char) :
    normalize_text (normalize_text x) = normalize_text x :=
  normalize_eq_of_NF (NF_normalize x)

/-! ## Section extraction (extractor.py)

`Section` models the dictionaries built by the detection strategies. -/

structure Section where
  document : List Char
  section_title : List Char
  section_text : List Char
  page_number : Nat
  section_type : List Char
deriving DecidableEq, Repr

/-- `Path(pdf_path).name`: the final path component. -/
def pathName (p : List Char) : List Char :=
  (p.reverse.takeWhile (fun c => !(c == '/'))).reverse

/-- Python `'sep'.join` with a one-character separator `' '`. -/
def joinSp : List (List Char) → List Char
  | [] => []
  | [x] => x
  | x :: xs => x ++ ' ' :: joinSp xs

/-- Python `text.split('\n')`. -/
def splitNl : List Char → List (List Char)
  | [] => [[]]
  | c :: t =>
    if c = '\n' then [] :: splitNl t
    else
      match splitNl t with
      | [] => [[c]]
      | h :: r => (c :: h) :: r

/-- Case-sensitive literal prefix matcher; returns the rest on success. -/
def litPre : List Char → List Char → Option (List Char)
  | [], l => some l
  | p :: ps, c :: cs => if c = p then litPre ps cs else none
  | _ :: _, [] => none

/-- Case-insensitive literal prefix matcher (pattern given in lowercase);
returns the consumed original-case prefix and the rest. -/
def ciPre : List Char → List Char → Option (List Char × List Char)
  | [], l => some ([], l)
  | p :: ps, c :: cs =>
    if asciiLower c = p then
      match ciPre ps cs with
      | some (m, r) => some (c :: m, r)
      | none => none
    else none
  | _ :: _, [] => none

/-! ### detect_heading_sections (extractor.py lines 92-153)

The five `re.match` heading patterns, each translated with the greedy
quantifier semantics of `re` (matches are anchored at the start of an
already-stripped line, so `$` means end of line). -/

/-- Character class `[A-Z\s&]` of heading pattern 1. -/
def h1Class (c : Char) : Bool := isUpp c || isWs c || (c == '&')

/-- Character class `[A-Za-z\s]`. -/
def alWsClass (c : Char) : Bool := isAl c || isWs c

/-- `^([A-Z][A-Z\s&]{3,}):?\s*$`. -/
def matchH1 (l : List Char) : Option (List Char) :=
  match l with
  | [] => none
  | c :: t =>
    if isUpp c then
      let run := t.takeWhile h1Class
      let rest := t.dropWhile h1Class
      if 3 ≤ run.length then
        match rest with
        | [] => some (c :: run)
        | ':' :: r2 => if r2.all isWs then some (c :: run) else none
        | _ => none
      else none
    else none

/-- `^(\d+\.?\d*\s+[A-Z][A-Za-z\s]{3,}):?\s*$`. -/
def matchH2 (l : List Char) : Option (List Char) :=
  let d1 := l.takeWhile isDig
  let r1 := l.dropWhile isDig
  if d1.isEmpty then none
  else
    let dotPart : List Char := match r1 with
      | '.' :: _ => ['.']
      | _ => []
    let r2 : List Char := match r1 with
      | '.' :: rr => rr
      | _ => r1
    let d2 := r2.takeWhile isDig
    let r3 := r2.dropWhile isDig
    let ws1 := r3.takeWhile isWs
    let r4 := r3.dropWhile isWs
    if ws1.isEmpty then none
    else
      match r4 with
      | [] => none
      | c :: t =>
        if isUpp c then
          let run := t.takeWhile alWsClass
          let rest := t.dropWhile alWsClass
          if 3 ≤ run.length then
            match rest with
            | [] => some (d1 ++ dotPart ++ d2 ++ ws1 ++ c :: run)
            | ':' :: rr => if rr.all isWs then some (d1 ++ dotPart ++ d2 ++ ws1 ++ c :: run)
                           else none
            | _ => none
          else none
        else none

/-- One Title-Case word `[A-Z][a-z]+`; returns the word and the rest. -/
def matchWord (l : List Char) : Option (List Char × List Char) :=
  match l with
  | [] => none
  | c :: t =>
    if isUpp c then
      let low := t.takeWhile isLow
      if low.isEmpty then none else some (c :: low, t.dropWhile isLow)
    else none

/-- Greedy `(?:\s+[A-Z][a-z]+)*`; returns the consumed text and the rest. -/
def h3Star : Nat → List Char → (List Char × List Char)
  | 0, l => ([], l)
  | fuel + 1, l =>
    let ws := l.takeWhile isWs
    let r := l.dropWhile isWs
    if ws.isEmpty then ([], l)
    else
      match matchWord r with
      | some (w, rest) =>
        let pr := h3Star fuel rest
        (ws ++ w ++ pr.1, pr.2)
      | none => ([], l)

/-- `^([A-Z][a-z]+(?:\s+[A-Z][a-z]+)*):?\s*$`. -/
def matchH3 (l : List Char) : Option (List Char) :=
  match matchWord l with
  | none => none
  | some (w, rest) =>
    let pr := h3Star rest.length rest
    let g := w ++ pr.1
    match pr.2 with
    | [] => some g
    | ':' :: r2 => if r2.all isWs then some g else none
    | fin => if fin.all isWs then some g else none

/-- `^(Step\s+\d+[:\-]?\s*[A-Z][A-Za-z\s]+)$` (case-sensitive); the group
is the whole line, so the line itself is returned on success. -/
def matchH4 (l : List Char) : Option (List Char) :=
  match litPre (str "Step") l with
  | none => none
  | some r1 =>
    let ws1 := r1.takeWhile isWs
    let r2 := r1.dropWhile isWs
    if ws1.isEmpty then none
    else
      let d := r2.takeWhile isDig
      let r3 := r2.dropWhile isDig
      if d.isEmpty then none
      else
        let r4 : List Char := match r3 with
          | ':' :: rr => rr
          | '-' :: rr => rr
          | _ => r3
        let r5 := r4.dropWhile isWs
        match r5 with
        | [] => none
        | c :: t =>
          if isUpp c then
            let rest := t.dropWhile alWsClass
            if (t.takeWhile alWsClass).isEmpty then none
            else if rest.isEmpty then some l else none
          else none

/-- `^(Recipe[:\-]?\s*[A-Z][A-Za-z\s]+)$` (case-sensitive). -/
def matchH5 (l : List Char) : Option (List Char) :=
  match litPre (str "Recipe") l with
  | none => none
  | some r1 =>
    let r2 : List Char := match r1 with
      | ':' :: rr => rr
      | '-' :: rr => rr
      | _ => r1
    let r3 := r2.dropWhile isWs
    match r3 with
    | [] => none
    | c :: t =>
      if isUpp c then
        let rest := t.dropWhile alWsClass
        if (t.takeWhile alWsClass).isEmpty then none
        else if rest.isEmpty then some l else none
      else none

/-- First matching heading pattern, in source order. -/
def lineHeading (line : List Char) : Option (List Char) :=
  (matchH1 line).orElse fun _ =>
  (matchH2 line).orElse fun _ =>
  (matchH3 line).orElse fun _ =>
  (matchH4 line).orElse fun _ =>
  matchH5 line

/-- A heading-based Section record. -/
def mkHeading (doc : List Char) (page : Nat) (title : List Char)
    (buf : List (List Char)) : Section :=
  { document := doc, section_title := title, section_text := joinSp buf,
    page_number := page, section_type := str "heading_based" }

/-- The line loop of `detect_heading_sections`: `cur` is the current
heading (`current_section`), `buf` the accumulated body lines
(`content_buffer`); sections are flushed when a new heading starts and at
the end.  The Python truthiness tests on `current_section` and
`content_buffer` are modelled by the emptiness checks. -/
def headLoop (doc : List Char) (page : Nat) :
    List (List Char) → Option (List Char) → List (List Char) → List Section
  | [], cur, buf =>
    (match cur with
     | some h => if !h.isEmpty && !buf.isEmpty then [mkHeading doc page h buf] else []
     | none => [])
  | line0 :: rest, cur, buf =>
    let line := pyStrip line0
    if line.isEmpty then headLoop doc page rest cur buf
    else
      match lineHeading line with
      | some g =>
        let hm := pyStrip g
        (match cur with
         | some h => if !h.isEmpty && !buf.isEmpty then [mkHeading doc page h buf] else []
         | none => []) ++ headLoop doc page rest (some hm) []
      | none =>
        match cur with
        | some h =>
          if !h.isEmpty then headLoop doc page rest cur (buf ++ [line])
          else headLoop doc page rest cur buf
        | none => headLoop doc page rest cur buf

/-- `detect_heading_sections` (extractor.py lines 92-153). -/
def detect_heading_sections (text pdf_path : List Char) (page_num : Nat) : List Section :=
  headLoop (pathName pdf_path) page_num (splitNl text) none []

/-! ### Newline-freedom of normalized text and its consequence for
`detect_heading_sections` -/

theorem newline_not_mem_normalize (x : List Char) :
    '\n' ∈ normalize_text x → False := by
  intro h
  have hwo : wsOnly (normalize_text x) := (NF_normalize x).1
  have := hwo '\n' h (by decide)
  cases this

theorem contains_eq_false_of_not_mem {l : List Char} {c : Char}
    (h : c ∈ l → False) : l.contains c = false := by
  cases hb : l.contains c
  · rfl
  · exact absurd (by simpa using hb) h

theorem splitNl_of_no_nl : ∀ l : List Char, ('\n' ∈ l → False) → splitNl l = [l] := by
  intro l
  induction l with
  | nil => intro _; rfl
  | cons c t ih =>
    intro h
    rw [splitNl]
    rw [if_neg (fun hc => h (by rw [hc]; exact List.mem_cons_self _ _))]
    rw [ih (fun hm => h (List.mem_cons_of_mem _ hm))]

theorem headLoop_single (doc : List Char) (page : Nat) (line : List Char) :
    headLoop doc page [line] none [] = [] := by
  rw [headLoop]
  by_cases hempty : (pyStrip line).isEmpty = true
  · rw [if_pos hempty, headLoop]
  · rw [if_neg hempty]
    rcases hlh : lineHeading (pyStrip line) with _ | ⟨g⟩
    · rw [headLoop]
    · show [] ++ headLoop doc page [] (some (pyStrip g)) [] = []
      rw [List.nil_append, headLoop]
      show (if !(pyStrip g).isEmpty && !(List.isEmpty []) then _ else []) = []
      rw [show List.isEmpty ([] : List (List Char)) = true from rfl]
      rw [Bool.not_true, Bool.and_false, if_neg (by exact Bool.false_ne_true)]

/-- On normalized text `detect_heading_sections` always returns `[]`: the
normalized page is a single line, which can contribute at most a pending
heading with an empty body buffer. -/
theorem detect_heading_sections_normalize_nil (t pdf_path : List Char) (p : Nat) :
    detect_heading_sections (normalize_text t) pdf_path p = [] := by
  rw [detect_heading_sections, splitNl_of_no_nl _ (newline_not_mem_normalize t)]
  exact headLoop_single _ p _

/-! ### detect_recipe_sections (extractor.py lines 155-202)

The four component patterns and the recipe-block pattern, with `re`'s
search order: alternations in written order, `s?` greedy, `\s*` greedy
with give-back, `[^\n]+` greedy with the lazy `(?:\n[^\n]+)*?`
continuation preferring zero iterations, and lookaheads evaluated at the
candidate end positions.  `re.MULTILINE` makes `$` match before any
newline. -/

/-- Python `str.title()` on ASCII text: uppercase an alphabetic character
that follows a non-alphabetic one, lowercase the rest. -/
def pyTitle (l : List Char) : List Char :=
  (l.foldl (fun (acc : List Char × Bool) c =>
    (acc.1 ++ [if acc.2 then asciiLower c else asciiUpper c], isAl c)) ([], false)).1

/-- Candidate suffixes for a greedy `\s*`, most-consumed first. -/
def wsCands (l : List Char) : List (List Char) :=
  let n := (l.takeWhile isWs).length
  (List.range (n + 1)).map (fun i => l.drop (n - i))

/-- `[n, n-1, ..., 1]`. -/
def descRange (n : Nat) : List Nat := (List.range n).map (fun i => n - i)

/-- Case-insensitive keyword test (pattern given lowercase). -/
def ciHas (pat : String) (cs : List Char) : Bool := (ciPre (str pat) cs).isSome

/-- `\n\s*\n` as a lookahead condition. -/
def nlwsnl (cs : List Char) : Bool :=
  match cs with
  | '\n' :: r => (r.takeWhile isWs).contains '\n'
  | _ => false

/-- `$` with `re.MULTILINE`: end of string or before a newline. -/
def lineEndM (cs : List Char) : Bool :=
  match cs with
  | [] => true
  | '\n' :: _ => true
  | _ => false

/-- The lazy `(?:\n[^\n]+)*?` before a lookahead `look`: prefer stopping,
then add lines one by one, each line's `[^\n]+` greedy with give-back.
Returns the number of extra characters consumed. -/
def lazyStar (look : List Char → Bool) : Nat → List Char → Option Nat
  | 0, cs => if look cs then some 0 else none
  | fuel + 1, cs =>
    if look cs then some 0
    else
      match cs with
      | '\n' :: r =>
        let line := r.takeWhile (fun c => !(c == '\n'))
        if line.isEmpty then none
        else (descRange line.length).findSome?
          (fun j => (lazyStar look fuel (r.drop j)).map (fun k => 1 + j + k))
      | _ => none

/-- `([^\n]+(?:\n[^\n]+)*?)(?=look)`: the initial `[^\n]+` is greedy with
give-back.  Returns the captured length. -/
def g2At (look : List Char → Bool) (cs : List Char) : Option Nat :=
  let line := cs.takeWhile (fun c => !(c == '\n'))
  if line.isEmpty then none
  else (descRange line.length).findSome?
    (fun i => (lazyStar look cs.length (cs.drop i)).map (fun k => i + k))

/-- `([^\n]+)` greedy, no lookahead: the rest of the current line. -/
def g2Line (cs : List Char) : Option Nat :=
  let line := cs.takeWhile (fun c => !(c == '\n'))
  if line.isEmpty then none else some line.length

/-- `\s*:?\s*(G2)`: enumerate the first `\s*` most-consumed-first, prefer
consuming an optional `:`, then the second `\s*`, then capture group 2
with `g2f`.  Returns the captured text and the rest after the match. -/
def tailColonG2 (g2f : List Char → Option Nat) (cs : List Char) :
    Option (List Char × List Char) :=
  (wsCands cs).findSome? (fun p1 =>
    let colonBranch : Option (List Char × List Char) :=
      match p1 with
      | ':' :: r =>
        (wsCands r).findSome? (fun p2 => (g2f p2).map (fun n => (p2.take n, p2.drop n)))
      | _ => none
    colonBranch.orElse (fun _ =>
      (wsCands p1).findSome? (fun p2 => (g2f p2).map (fun n => (p2.take n, p2.drop n)))))

/-- Group-1 candidates for `pat` + optional greedy `s?` (case-insensitive),
with-plural first. -/
def plurCands (pat : String) (cs : List Char) : List (List Char × List Char) :=
  match ciPre (str pat) cs with
  | none => []
  | some (m, r) =>
    match r with
    | c :: r2 => if asciiLower c = 's' then [(m ++ [c], r2), (m, r)] else [(m, r)]
    | [] => [(m, r)]

/-- Group-1 candidate for a plain keyword (case-insensitive). -/
def oneCand (pat : String) (cs : List Char) : List (List Char × List Char) :=
  match ciPre (str pat) cs with
  | none => []
  | some x => [x]

/-- Lookahead of pattern 1: `instructions?|directions?|method|preparation|\n\s*\n|$`. -/
def lookR1 (cs : List Char) : Bool :=
  ciHas "instruction" cs || ciHas "direction" cs || ciHas "method" cs ||
  ciHas "preparation" cs || nlwsnl cs || lineEndM cs

/-- Lookahead of pattern 2: `ingredients?|notes?|\n\s*\n|$`. -/
def lookR2 (cs : List Char) : Bool :=
  ciHas "ingredient" cs || ciHas "note" cs || nlwsnl cs || lineEndM cs

/-- `(?i)(ingredients?)\s*:?\s*([^\n]+(?:\n[^\n]+)*?)(?=instructions?|directions?|method|preparation|\n\s*\n|$)` at one position. -/
def matchR1At (cs : List Char) : Option ((List Char × List Char) × List Char) :=
  (plurCands "ingredient" cs).findSome? (fun g1 =>
    (tailColonG2 (g2At lookR1) g1.2).map (fun g2 => ((g1.1, g2.1), g2.2)))

/-- `(?i)(instructions?|directions?|method|preparation)\s*:?\s*([^\n]+(?:\n[^\n]+)*?)(?=ingredients?|notes?|\n\s*\n|$)` at one position. -/
def matchR2At (cs : List Char) : Option ((List Char × List Char) × List Char) :=
  (plurCands "instruction" cs ++ plurCands "direction" cs ++
    oneCand "method" cs ++ oneCand "preparation" cs).findSome? (fun g1 =>
    (tailColonG2 (g2At lookR2) g1.2).map (fun g2 => ((g1.1, g2.1), g2.2)))

/-- `(?i)(serves?|serving|portions?)\s*:?\s*([^\n]+)` at one position. -/
def matchR3At (cs : List Char) : Option ((List Char × List Char) × List Char) :=
  (plurCands "serve" cs ++ oneCand "serving" cs ++ plurCands "portion" cs).findSome?
    (fun g1 => (tailColonG2 g2Line g1.2).map (fun g2 => ((g1.1, g2.1), g2.2)))

/-- `kwa\s+kwb` (case-insensitive), e.g. `cooking\s+time`. -/
def kwWsKw (a b : String) (cs : List Char) : List (List Char × List Char) :=
  match ciPre (str a) cs with
  | none => []
  | some (m1, r1) =>
    let ws := r1.takeWhile isWs
    let r2 := r1.dropWhile isWs
    if ws.isEmpty then []
    else
      match ciPre (str b) r2 with
      | none => []
      | some (m2, r3) => [(m1 ++ ws ++ m2, r3)]

/-- `(?i)(cooking\s+time|prep\s+time|total\s+time)\s*:?\s*([^\n]+)` at one position. -/
def matchR4At (cs : List Char) : Option ((List Char × List Char) × List Char) :=
  (kwWsKw "cooking" "time" cs ++ kwWsKw "prep" "time" cs ++
    kwWsKw "total" "time" cs).findSome?
    (fun g1 => (tailColonG2 g2Line g1.2).map (fun g2 => ((g1.1, g2.1), g2.2)))

/-- `(?:recipe|dish|meal)` (case-insensitive), in alternation order. -/
def rbKwAt (cs : List Char) : Option (List Char × List Char) :=
  match ciPre (str "recipe") cs with
  | some x => some x
  | none =>
    match ciPre (str "dish") cs with
    | some x => some x
    | none => ciPre (str "meal") cs

/-- Group 1 of the recipe-block pattern: `[A-Z][A-Za-z\s]+(?:recipe|dish|meal)`
with `(?i)`, so the leading class matches any letter; the middle run is
greedy with give-back to leave room for the keyword. -/
def matchRBg1 (cs : List Char) : Option (List Char × List Char) :=
  match cs with
  | [] => none
  | c :: t =>
    if isAl c then
      let run := t.takeWhile alWsClass
      (descRange run.length).findSome? (fun k =>
        match rbKwAt (t.drop k) with
        | some (kw, rest) => some (c :: (t.take k ++ kw), rest)
        | none => none)
    else none

/-- Existence test for the recipe-block group-1 shape, used as lookahead. -/
def rbShapeAux : List Char → Bool
  | [] => false
  | c :: r => if alWsClass c then (rbKwAt r).isSome || rbShapeAux r else false

/-- Lookahead of the recipe-block pattern:
`(?:[A-Z][A-Za-z\s]+(?:recipe|dish|meal))|$`; this pattern is compiled
without `re.MULTILINE`, so `$` is end of string or before a final
newline. -/
def lookRB (cs : List Char) : Bool :=
  (match cs with
   | c :: r => isAl c && rbShapeAux r
   | [] => false) ||
  cs.isEmpty || (cs == ['\n'])

/-- The lazy `([\s\S]+?)` before the lookahead: at least one character,
extend one character at a time. -/
def lazyAny (look : List Char → Bool) : List Char → Option Nat
  | [] => none
  | _ :: r => if look r then some 1 else (lazyAny look r).map (· + 1)

/-- `(?i)([A-Z][A-Za-z\s]+(?:recipe|dish|meal))\s*:?\s*([\s\S]+?)(?=...|$)` at one position. -/
def matchRBAt (cs : List Char) : Option ((List Char × List Char) × List Char) :=
  match matchRBg1 cs with
  | none => none
  | some (g1, rest) =>
    (tailColonG2 (lazyAny lookRB) rest).map (fun g2 => ((g1, g2.1), g2.2))

/-- `re.finditer`: leftmost matches, non-overlapping, scanning resumes
after each match (all the patterns here consume at least one character). -/
def findIter (f : List Char → Option ((List Char × List Char) × List Char)) :
    Nat → List Char → List (List Char × List Char)
  | 0, _ => []
  | fuel + 1, cs =>
    match f cs with
    | some (a, rest) => a :: findIter f fuel rest
    | none =>
      match cs with
      | [] => []
      | _ :: t => findIter f fuel t

/-- Build a `recipe_component` Section from a pattern-1..4 match, applying
the `len(content) > 20` guard. -/
def recipeSecOf (doc : List Char) (page : Nat) (pr : List Char × List Char) :
    Option Section :=
  let title := pyTitle (pyStrip pr.1)
  let content := pyStrip pr.2
  if 20 < content.length then
    some { document := doc, section_title := title, section_text := content,
           page_number := page, section_type := str "recipe_component" }
  else none

/-- Build a `complete_recipe` Section from a recipe-block match, applying
the `len(content) > 100` guard and the 500-character truncation. -/
def blockSecOf (doc : List Char) (page : Nat) (pr : List Char × List Char) :
    Option Section :=
  let title := pyStrip pr.1
  let content := pyStrip pr.2
  if 100 < content.length then
    some { document := doc, section_title := title, section_text := content.take 500,
           page_number := page, section_type := str "complete_recipe" }
  else none

/-- `detect_recipe_sections` (extractor.py lines 155-202): the four
component patterns in order, then the recipe-block pattern. -/
def detect_recipe_sections (text pdf_path : List Char) (page_num : Nat) : List Section :=
  let doc := pathName pdf_path
  let fuel := text.length + 1
  ((findIter matchR1At fuel text ++ findIter matchR2At fuel text ++
    findIter matchR3At fuel text ++ findIter matchR4At fuel text).filterMap
      (recipeSecOf doc page_num)) ++
  ((findIter matchRBAt fuel text).filterMap (blockSecOf doc page_num))

/-! ### detect_procedural_sections (extractor.py lines 204-232) -/

/-- Negative-lookahead body of pattern 1: `\s*step\s+\d+`. -/
def negP1 (cs : List Char) : Bool :=
  let r := cs.dropWhile isWs
  match ciPre (str "step") r with
  | none => false
  | some (_, r2) =>
    let ws := r2.takeWhile isWs
    let r3 := r2.dropWhile isWs
    if ws.isEmpty then false
    else
      match r3 with
      | c :: _ => isDig c
      | [] => false

/-- Negative-lookahead body of pattern 2: `\s*\d+\.`. -/
def negP2 (cs : List Char) : Bool :=
  let r := cs.dropWhile isWs
  let d := r.takeWhile isDig
  if d.isEmpty then false
  else
    match r.dropWhile isDig with
    | '.' :: _ => true
    | _ => false

/-- Greedy `(?:\n(?!neg)[^\n]+)*`: keep consuming following lines while the
negative lookahead fails and the line is non-empty. -/
def starLines (negP : List Char → Bool) : Nat → List Char → Nat
  | 0, _ => 0
  | fuel + 1, cs =>
    match cs with
    | '\n' :: r =>
      if negP r then 0
      else
        let line := r.takeWhile (fun c => !(c == '\n'))
        if line.isEmpty then 0
        else 1 + line.length + starLines negP fuel (r.drop line.length)
    | _ => 0

/-- `([^\n]+(?:\n(?!neg)[^\n]+)*)` greedy; nothing follows the group, so
no give-back occurs.  Returns the captured length. -/
def g2Greedy (negP : List Char → Bool) (cs : List Char) : Option Nat :=
  let line := cs.takeWhile (fun c => !(c == '\n'))
  if line.isEmpty then none
  else some (line.length + starLines negP cs.length (cs.drop line.length))

/-- `(?i)(step\s+\d+[:\-]?\s*)([^\n]+(?:\n(?!\s*step\s+\d+)[^\n]+)*)` at one
position; the trailing `\s*` belongs to group 1 and gives back characters
to the `[^\n]+` when needed. -/
def matchP1At (cs : List Char) : Option ((List Char × List Char) × List Char) :=
  match ciPre (str "step") cs with
  | none => none
  | some (m1, r1) =>
    let ws1 := r1.takeWhile isWs
    let r2 := r1.dropWhile isWs
    if ws1.isEmpty then none
    else
      let d := r2.takeWhile isDig
      let r3 := r2.dropWhile isDig
      if d.isEmpty then none
      else
        let base := m1 ++ ws1 ++ d
        let branches : List (List Char × List Char) :=
          match r3 with
          | ':' :: rr => [(base ++ [':'], rr), (base, r3)]
          | '-' :: rr => [(base ++ ['-'], rr), (base, r3)]
          | _ => [(base, r3)]
        branches.findSome? (fun br =>
          (wsCands br.2).findSome? (fun p2 =>
            (g2Greedy negP1 p2).map (fun n =>
              ((br.1 ++ br.2.take (br.2.length - p2.length), p2.take n), p2.drop n))))

/-- `(?i)(\d+\.\s*)([^\n]+(?:\n(?!\s*\d+\.)[^\n]+)*)` at one position. -/
def matchP2At (cs : List Char) : Option ((List Char × List Char) × List Char) :=
  let d := cs.takeWhile isDig
  let r1 := cs.dropWhile isDig
  if d.isEmpty then none
  else
    match r1 with
    | '.' :: r2 =>
      (wsCands r2).findSome? (fun p2 =>
        (g2Greedy negP2 p2).map (fun n =>
          ((d ++ '.' :: r2.take (r2.length - p2.length), p2.take n), p2.drop n)))
    | _ => none

/-- Lookahead of pattern 3: `(?:first|second|third|finally|next|then)|\n\s*\n|$`. -/
def lookP3 (cs : List Char) : Bool :=
  ciHas "first" cs || ciHas "second" cs || ciHas "third" cs || ciHas "finally" cs ||
  ciHas "next" cs || ciHas "then" cs || nlwsnl cs || lineEndM cs

/-- `(?i)(first|second|third|finally|next|then)[:\-]?\s*([^\n]+(?:\n[^\n]+)*?)(?=...)`
at one position; the `[:\-]?\s*` here is outside group 1. -/
def matchP3At (cs : List Char) : Option ((List Char × List Char) × List Char) :=
  (oneCand "first" cs ++ oneCand "second" cs ++ oneCand "third" cs ++
    oneCand "finally" cs ++ oneCand "next" cs ++ oneCand "then" cs).findSome?
    (fun g1 =>
      let branches : List (List Char) :=
        match g1.2 with
        | ':' :: rr => [rr, g1.2]
        | '-' :: rr => [rr, g1.2]
        | _ => [g1.2]
      branches.findSome? (fun br =>
        (wsCands br).findSome? (fun p2 =>
          (g2At lookP3 p2).map (fun n => ((g1.1, p2.take n), p2.drop n)))))

/-- Build a `procedural` Section, applying the `len(content) > 30` guard
and the `"Procedure: "` title prefix. -/
def procSecOf (doc : List Char) (page : Nat) (pr : List Char × List Char) :
    Option Section :=
  let title := str "Procedure: " ++ pyStrip pr.1
  let content := pyStrip pr.2
  if 30 < content.length then
    some { document := doc, section_title := title, section_text := content,
           page_number := page, section_type := str "procedural" }
  else none

/-- `detect_procedural_sections` (extractor.py lines 204-232). -/
def detect_procedural_sections (text pdf_path : List Char) (page_num : Nat) :
    List Section :=
  let doc := pathName pdf_path
  let fuel := text.length + 1
  (findIter matchP1At fuel text ++ findIter matchP2At fuel text ++
    findIter matchP3At fuel text).filterMap (procSecOf doc page_num)

/-! ### create_content_blocks (extractor.py lines 234-284) -/

/-- `[.!?]`. -/
def sentP (c : Char) : Bool := c == '.' || c == '!' || c == '?'

/-- `re.split(r'[.!?]+', text)`: pieces between runs of sentence-ending
punctuation (empty pieces included at boundaries, as `re.split` does). -/
def splitSent : List Char → List (List Char)
  | [] => [[]]
  | c :: t =>
    if sentP c then [] :: splitSent (t.dropWhile sentP)
    else
      match splitSent t with
      | [] => [[c]]
      | h :: r => (c :: h) :: r
termination_by l => l.length
decreasing_by
  · have := dropWhile_length_le sentP r
    simp only [List.length_cons]
    omega
  · simp

/-- `str.split()` with no arguments: maximal non-whitespace runs. -/
def splitWsGo : Nat → List Char → List (List Char)
  | 0, _ => []
  | fuel + 1, l =>
    let l2 := l.dropWhile isWs
    match l2 with
    | [] => []
    | _ :: _ =>
      l2.takeWhile (fun c => !(isWs c)) :: splitWsGo fuel (l2.dropWhile (fun c => !(isWs c)))

def pySplitWs (l : List Char) : List (List Char) := splitWsGo (l.length + 1) l

/-- `'. '.join`. -/
def joinDotSp : List (List Char) → List Char
  | [] => []
  | [x] => x
  | x :: xs => x ++ '.' :: ' ' :: joinDotSp xs

/-- Decimal print of a page/block counter, for the f-string titles. -/
def natStr (n : Nat) : List Char := Nat.toDigits 10 n

/-- One emitted content block: `'. '.join(block) + '.'` as the text and a
`≤ 50`-character first-sentence prefix in the title. -/
def mkBlock (doc : List Char) (page : Nat) (cnt : Nat)
    (block : List (List Char)) : Section :=
  let btext := joinDotSp block ++ ['.']
  let first := block.headD []
  let title := if 50 < first.length then first.take 50 ++ str "..." else first
  { document := doc, section_title := str "Content Block " ++ natStr cnt ++ str ": " ++ title,
    section_text := btext, page_number := page, section_type := str "content_block" }

/-- The sentence-accumulation loop of `create_content_blocks`. -/
def blocksLoop (doc : List Char) (page : Nat) :
    List (List Char) → List (List Char) → Nat → List Section
  | [], block, cnt => if block.isEmpty then [] else [mkBlock doc page cnt block]
  | s0 :: rest, block, cnt =>
    let s := pyStrip s0
    if s.isEmpty then blocksLoop doc page rest block cnt
    else
      let block2 := block ++ [s]
      if 150 ≤ (pySplitWs (joinSp block2)).length then
        mkBlock doc page cnt block2 :: blocksLoop doc page rest [] (cnt + 1)
      else blocksLoop doc page rest block2 cnt

/-- `create_content_blocks` (extractor.py lines 234-284). -/
def create_content_blocks (text pdf_path : List Char) (page_num : Nat) : List Section :=
  blocksLoop (pathName pdf_path) page_num (splitSent text) [] 1

/-! ### detect_individual_recipes (extractor.py lines 317-380) -/

/-- The keyword alternation of title pattern 1, in order. -/
def t1KwAt (cs : List Char) : Option (List Char × List Char) :=
  (oneCand "recipe" cs ++ oneCand "dish" cs ++ oneCand "meal" cs ++
    oneCand "soup" cs ++ oneCand "salad" cs ++ oneCand "pasta" cs ++
    oneCand "curry" cs ++ oneCand "chicken" cs ++ oneCand "beef" cs ++
    oneCand "vegetarian" cs ++ oneCand "vegan" cs).head?

/-- `(?i)^([A-Z][A-Za-z\s]+(?:recipe|dish|...|vegan))\s*$`: anchored at the
start of the line; the run is greedy with give-back to land a keyword
followed only by whitespace. -/
def matchT1 (l : List Char) : Option (List Char) :=
  match l with
  | [] => none
  | c :: t =>
    if isAl c then
      let run := t.takeWhile alWsClass
      (descRange run.length).findSome? (fun k =>
        match t1KwAt (t.drop k) with
        | some (kw, rest) => if rest.all isWs then some (c :: (t.take k ++ kw)) else none
        | none => none)
    else none

/-- `(?i)([A-Z][A-Za-z\s]+)\s*-\s*(?:serves|cooking time|prep time)` at one
position: internal whitespace before the `-` is absorbed by the greedy
run, so the `-` must be the character that stops the run. -/
def matchT2At (cs : List Char) : Option (List Char) :=
  match cs with
  | [] => none
  | c :: t =>
    if isAl c then
      let run := t.takeWhile alWsClass
      if run.isEmpty then none
      else
        match t.drop run.length with
        | '-' :: r =>
          let r2 := r.dropWhile isWs
          if (ciPre (str "serves") r2).isSome || (ciPre (str "cooking time") r2).isSome ||
             (ciPre (str "prep time") r2).isSome then
            some (c :: run)
          else none
        | _ => none
    else none

/-- `(?i)(recipe\s+\d+[:\-]?\s*[A-Z][A-Za-z\s]+)` at one position. -/
def matchT3At (cs : List Char) : Option (List Char) :=
  match ciPre (str "recipe") cs with
  | none => none
  | some (m1, r1) =>
    let ws1 := r1.takeWhile isWs
    let r2 := r1.dropWhile isWs
    if ws1.isEmpty then none
    else
      let d := r2.takeWhile isDig
      let r3 := r2.dropWhile isDig
      if d.isEmpty then none
      else
        let base := m1 ++ ws1 ++ d
        let branches : List (List Char × List Char) :=
          match r3 with
          | ':' :: rr => [(base ++ [':'], rr), (base, r3)]
          | '-' :: rr => [(base ++ ['-'], rr), (base, r3)]
          | _ => [(base, r3)]
        branches.findSome? (fun br =>
          let ws2 := br.2.takeWhile isWs
          let r4 := br.2.dropWhile isWs
          match r4 with
          | [] => none
          | c :: t =>
            if isAl c then
              let run := t.takeWhile alWsClass
              if run.isEmpty then none
              else some (br.1 ++ ws2 ++ c :: run)
            else none)

/-- `re.search` for a group-1-only pattern: try each start position left to
right. -/
def searchG1 (f : List Char → Option (List Char)) : Nat → List Char → Option (List Char)
  | 0, _ => none
  | fuel + 1, cs =>
    match f cs with
    | some g => some g
    | none =>
      match cs with
      | [] => none
      | _ :: t => searchG1 f fuel t

/-- The first matching title pattern of `detect_individual_recipes`. -/
def titleIndiv (line : List Char) : Option (List Char) :=
  (matchT1 line).orElse fun _ =>
  (searchG1 matchT2At (line.length + 1) line).orElse fun _ =>
  searchG1 matchT3At (line.length + 1) line

/-- An `individual_recipe` Section. -/
def mkIndiv (doc : List Char) (page : Nat) (title : List Char)
    (buf : List (List Char)) : Section :=
  { document := doc, section_title := title, section_text := joinSp buf,
    page_number := page, section_type := str "individual_recipe" }

/-- Flush of `detect_individual_recipes`: requires a pending title, a
non-empty content buffer, and joined content longer than 50 characters. -/
def indivFlush (doc : List Char) (page : Nat) (cur : Option (List Char))
    (buf : List (List Char)) : List Section :=
  match cur with
  | some h =>
    if !h.isEmpty && !buf.isEmpty then
      if 50 < (joinSp buf).length then [mkIndiv doc page h buf] else []
    else []
  | none => []

/-- The line loop of `detect_individual_recipes`. -/
def indivLoop (doc : List Char) (page : Nat) :
    List (List Char) → Option (List Char) → List (List Char) → List Section
  | [], cur, buf => indivFlush doc page cur buf
  | line0 :: rest, cur, buf =>
    let line := pyStrip line0
    if line.isEmpty then indivLoop doc page rest cur buf
    else
      match titleIndiv line with
      | some g =>
        indivFlush doc page cur buf ++ indivLoop doc page rest (some (pyStrip g)) []
      | none =>
        match cur with
        | some h =>
          if !h.isEmpty then indivLoop doc page rest cur (buf ++ [line])
          else indivLoop doc page rest cur buf
        | none => indivLoop doc page rest cur buf

/-- `detect_individual_recipes` (extractor.py lines 317-380). -/
def detect_individual_recipes (text pdf_path : List Char) (page_num : Nat) :
    List Section :=
  indivLoop (pathName pdf_path) page_num (splitNl text) none []

/-- `parse_page_content` (extractor.py lines 46-72): normalize, run the
three strategies, fall back to content blocks when nothing was found. -/
def parse_page_content (text pdf_path : List Char) (page_num : Nat) : List Section :=
  let cleaned_text := normalize_text text
  let sections :=
    detect_heading_sections cleaned_text pdf_path page_num ++
    detect_recipe_sections cleaned_text pdf_path page_num ++
    detect_procedural_sections cleaned_text pdf_path page_num
  if sections.isEmpty then create_content_blocks cleaned_text pdf_path page_num
  else sections

/-! ## ranker.py -/

/-! ### extract_dynamic_persona_keywords (ranker.py lines 62-96) -/

/-- Word characters `[a-zA-Z0-9_]` of `re`'s `\b`. -/
def wordChar (c : Char) : Bool := isAl c || isDig c || c == '_'

/-- Maximal runs of characters satisfying `p` (fuel-based). -/
def tokGo (p : Char → Bool) : Nat → List Char → List (List Char)
  | 0, _ => []
  | fuel + 1, l =>
    let l2 := l.dropWhile (fun c => !(p c))
    match l2 with
    | [] => []
    | _ :: _ => l2.takeWhile p :: tokGo p fuel (l2.dropWhile p)

/-- The maximal word-character runs of a string.  `re.findall(r'\b[a-zA-Z]{3,}\b', s)`
returns exactly the runs that consist of letters only and have length at
least 3: a run containing a digit or underscore can never satisfy both
word boundaries with a letters-only body. -/
def wordRuns (l : List Char) : List (List Char) := tokGo wordChar (l.length + 1) l

/-- The stop-word set of `extract_dynamic_persona_keywords` (ranker.py
lines 74-82), in source order. -/
def stop_words : List (List Char) :=
  [str "the", str "and", str "for", str "are", str "but", str "not", str "you",
   str "all", str "can", str "had", str "her", str "was", str "one", str "our",
   str "out", str "day", str "get", str "has", str "him", str "how", str "man",
   str "new", str "now", str "old", str "see", str "two", str "way", str "who",
   str "with", str "that", str "this", str "will", str "any", str "may",
   str "say", str "she", str "use", str "each", str "which", str "their",
   str "time", str "work", str "first", str "been", str "call", str "find",
   str "long", str "down", str "right", str "look", str "only", str "come",
   str "over", str "think", str "also", str "back", str "after", str "very",
   str "good", str "well", str "where", str "much", str "before"]

/-- Duplicate removal preserving first occurrences (the `seen`-set loop of
lines 88-93). -/
def dedupKeepGo (seen : List (List Char)) : List (List Char) → List (List Char)
  | [] => []
  | x :: xs => if seen.contains x then dedupKeepGo seen xs
               else x :: dedupKeepGo (x :: seen) xs

/-- `extract_dynamic_persona_keywords` (ranker.py lines 62-96). -/
def extract_dynamic_persona_keywords (persona job : List Char) : List (List Char) :=
  let combined := pyLower (persona ++ [' '] ++ job)
  let words := (wordRuns combined).filter (fun w => w.all isAl && decide (3 ≤ w.length))
  let keywords := words.filter (fun w => !(stop_words.contains w) && decide (2 < w.length))
  (dedupKeepGo [] keywords).take 12

/-! ### expand_query_semantically (ranker.py lines 98-148) -/

/-- The synonym map (ranker.py lines 103-138), in source order. -/
def synonym_map : List (List Char × List (List Char)) :=
  [(str "food", [str "recipe", str "dish", str "meal", str "cuisine", str "cooking", str "culinary"]),
   (str "recipe", [str "dish", str "meal", str "food", str "cooking", str "preparation"]),
   (str "vegetarian", [str "plant-based", str "vegan", str "meatless", str "veggie"]),
   (str "cooking", [str "preparation", str "culinary", str "recipe", str "kitchen"]),
   (str "menu", [str "dishes", str "options", str "selection", str "offerings"]),
   (str "buffet", [str "self-service", str "spread", str "selection"]),
   (str "travel", [str "trip", str "journey", str "vacation", str "tourism", str "visit"]),
   (str "trip", [str "journey", str "travel", str "vacation", str "excursion"]),
   (str "vacation", [str "holiday", str "trip", str "travel", str "getaway"]),
   (str "itinerary", [str "schedule", str "plan", str "agenda", str "program"]),
   (str "tourist", [str "visitor", str "traveler", str "sightseer"]),
   (str "cultural", [str "heritage", str "historical", str "traditional"]),
   (str "corporate", [str "business", str "company", str "office", str "professional"]),
   (str "business", [str "corporate", str "company", str "commercial", str "professional"]),
   (str "gathering", [str "meeting", str "event", str "function", str "assembly"]),
   (str "professional", [str "business", str "corporate", str "work"]),
   (str "document", [str "file", str "pdf", str "form", str "paper", str "report"]),
   (str "management", [str "administration", str "organization", str "coordination"]),
   (str "plan", [str "organize", str "schedule", str "arrange", str "design", str "prepare"]),
   (str "create", [str "make", str "build", str "generate", str "produce", str "develop"]),
   (str "prepare", [str "make", str "create", str "organize", str "arrange"]),
   (str "organize", [str "arrange", str "plan", str "coordinate", str "manage"]),
   (str "arrange", [str "organize", str "plan", str "set up", str "coordinate"]),
   (str "schedule", [str "plan", str "organize", str "arrange", str "time"]),
   (str "coordinate", [str "organize", str "manage", str "arrange"])]

/-- Dictionary lookup. -/
def assocFind (k : List Char) : List (List Char × List (List Char)) → Option (List (List Char))
  | [] => none
  | (a, v) :: rest => if a = k then some v else assocFind k rest

/-- Add an element to a duplicate-free list if not already present. -/
def addNew (acc : List (List Char)) (x : List Char) : List (List Char) :=
  if acc.contains x then acc else acc ++ [x]

/-- `expand_query_semantically` (ranker.py lines 98-148).  The Python
function builds a `set` and returns `list(expanded_terms)`, whose order is
unspecified; this embedding produces the same set of terms in a fixed
first-seen order, so only membership facts about the result are
source-faithful. -/
def expand_query_semantically (keywords : List (List Char)) : List (List Char) :=
  keywords.foldl (fun acc kw =>
    match assocFind kw synonym_map with
    | some syns => (syns.take 3).foldl addNew acc
    | none => acc) (dedupKeepGo [] keywords)

/-! ### is_low_quality_section and filter_sections_for_bert (ranker.py
lines 241-287) -/

/-- Python substring prefix test: `pat` is an initial segment of `l`. -/
def leadEq : List Char → List Char → Bool
  | [], _ => true
  | _ :: _, [] => false
  | a :: as, b :: bs => a == b && leadEq as bs

/-- Python `pat in s` (substring containment). -/
def hasSub (pat : List Char) : List Char → Bool
  | [] => leadEq pat []
  | c :: rest => leadEq pat (c :: rest) || hasSub pat rest

/-- `is_low_quality_section` (ranker.py lines 270-287); the `title`
parameter is unused, as in the source.  The float literals 0.6, 0.3, 0.5
are modelled as the rationals 3/5, 3/10, 1/2. -/
def is_low_quality_section (title text : List Char) : Bool :=
  let _ := title
  let words := pySplitWs (pyLower text)
  decide (((text.filter (fun c => isAl c || isWs c)).length : ℚ) < (text.length : ℚ) * (3/5)) ||
  decide (((dedupKeepGo [] words).length : ℚ) < (words.length : ℚ) * (3/10)) ||
  decide (((words.filter (fun w => decide (w.length ≤ 2))).length : ℚ) > (words.length : ℚ) * (1/2))

/-- The strict quality test of the primary pass (ranker.py lines 247-256). -/
def strictKeep (s : Section) : Bool :=
  let title := pyStrip s.section_title
  let text := pyStrip s.section_text
  decide (3 ≤ title.length) && decide (20 ≤ text.length) && decide (text.length ≤ 1000) &&
    !(is_low_quality_section title text)

/-- The relaxed test (ranker.py lines 259-265). -/
def relaxedKeep (s : Section) : Bool :=
  decide (2 ≤ (pyStrip s.section_title).length) &&
  decide (15 ≤ (pyStrip s.section_text).length)

/-- `filter_sections_for_bert` (ranker.py lines 241-268). -/
def filter_sections_for_bert (sections : List Section) : List Section :=
  let filtered := sections.filter strictKeep
  let filtered2 := if filtered.length < 5 then sections.filter relaxedKeep else filtered
  filtered2.take 20

/-! ### apply_persona_boosting (ranker.py lines 337-372).  The float
literals 0.25, 0.1, 0.05, 0.2, 0.15 are modelled as exact rationals. -/

/-- `sum(1 for keyword in expanded_keywords if keyword in title_lower)`. -/
def titleMatches (expanded : List (List Char)) (s : Section) : Nat :=
  (expanded.filter (fun k => hasSub k (pyLower s.section_title))).length

/-- `sum(1 for keyword in expanded_keywords if keyword in text_lower)`. -/
def textMatches (expanded : List (List Char)) (s : Section) : Nat :=
  (expanded.filter (fun k => hasSub k (pyLower s.section_text))).length

/-- The condition of the food-domain boost (ranker.py lines 362-364): the
section type is one of the three recipe types and one of the four food
words occurs as a substring of `' '.join(expanded_keywords)`. -/
def foodHit (expanded : List (List Char)) (ty : List Char) : Bool :=
  (ty == str "recipe_component" || ty == str "complete_recipe" ||
    ty == str "individual_recipe") &&
  (hasSub (str "food") (joinSp expanded) || hasSub (str "recipe") (joinSp expanded) ||
    hasSub (str "vegetarian") (joinSp expanded) || hasSub (str "menu") (joinSp expanded))

/-- The condition of the procedural boost (ranker.py lines 366-368). -/
def procHit (expanded : List (List Char)) (ty : List Char) : Bool :=
  (ty == str "heading_based" || ty == str "procedural") &&
  (hasSub (str "plan") (joinSp expanded) || hasSub (str "organize") (joinSp expanded) ||
    hasSub (str "prepare") (joinSp expanded) || hasSub (str "create") (joinSp expanded))

/-- The `boost_factor` accumulation (ranker.py lines 347-368) as a function
of the two match counts and the two domain-boost flags. -/
def gradFactor (tm xm : Nat) (fd pc : Bool) : ℚ :=
  1 + (if 0 < tm then 1/4 + (tm : ℚ) * (1/10) else 0) +
      (if 0 < xm then 1/10 + (xm : ℚ) * (1/20) else 0) +
      (if fd then 1/5 else 0) + (if pc then 3/20 else 0)

/-- The boost factor applied to one section. -/
def boostFactor (expanded : List (List Char)) (s : Section) : ℚ :=
  gradFactor (titleMatches expanded s) (textMatches expanded s)
    (foodHit expanded s.section_type) (procHit expanded s.section_type)

/-- `apply_persona_boosting` (ranker.py lines 337-372): entry `i` of the
similarity vector is multiplied by the boost factor of section `i`;
entries beyond the section list are left unchanged. -/
def apply_persona_boosting (similarities : List ℚ) (sections : List Section)
    (expanded_keywords : List (List Char)) : List ℚ :=
  List.zipWith (fun q s => q * boostFactor expanded_keywords s) similarities sections ++
    similarities.drop sections.length

/-- The food-boost condition as the specification states it: set
membership of one of the four food words in the expanded-term collection
(to be compared with `foodHit`, which tests substring containment in the
space-joined terms). -/
def foodHitSpec (expanded : List (List Char)) (ty : List Char) : Bool :=
  (ty == str "recipe_component" || ty == str "complete_recipe" ||
    ty == str "individual_recipe") &&
  (expanded.contains (str "food") || expanded.contains (str "recipe") ||
    expanded.contains (str "vegetarian") || expanded.contains (str "menu"))

/-! ### create_ranked_results (ranker.py lines 374-412) -/

/-- One entry of the ranked-sections output. -/
structure RankedEntry where
  document : List Char
  section_title : List Char
  page_number : Nat
  importance_rank : Nat
  similarity_score : ℚ
  section_type : List Char
deriving DecidableEq, Repr

/-- One entry of the subsection-analysis output. -/
structure AnalysisEntry where
  document : List Char
  section_title : List Char
  refined_text : List Char
  page_number : Nat
  section_type : List Char
deriving DecidableEq, Repr

/-- Stable descending insertion: `x` is placed before the first element
whose score is at most `x`'s, so equal scores keep their original order —
the behaviour of Python's stable `list.sort(reverse=True, key=lambda x: x[0])`. -/
def insDesc (x : ℚ × Section) : List (ℚ × Section) → List (ℚ × Section)
  | [] => [x]
  | y :: ys => if x.1 < y.1 then y :: insDesc x ys else x :: y :: ys

/-- Stable descending sort by score. -/
def sortDesc (l : List (ℚ × Section)) : List (ℚ × Section) := l.foldr insDesc []

/-- The ranked-section record of one scored section (ranker.py lines
391-398). -/
def mkRanked (rank : Nat) (p : ℚ × Section) : RankedEntry :=
  { document := p.2.document, section_title := p.2.section_title,
    page_number := p.2.page_number, importance_rank := rank,
    similarity_score := p.1, section_type := p.2.section_type }

/-- The subsection-analysis record of one scored section (ranker.py lines
400-410). -/
def mkAnalysis (p : ℚ × Section) : AnalysisEntry :=
  let text := p.2.section_text
  let refined := if 300 < text.length then text.take 300 ++ str "..." else text
  { document := p.2.document, section_title := p.2.section_title,
    refined_text := pyStrip refined, page_number := p.2.page_number,
    section_type := p.2.section_type }

/-- `enumerate(section_scores, start=1)` over the ranked pairs. -/
def rankLoop : Nat → List (ℚ × Section) → List RankedEntry
  | _, [] => []
  | n, p :: ps => mkRanked n p :: rankLoop (n + 1) ps

/-- `create_ranked_results` (ranker.py lines 374-412); the
`original_section_count` parameter is unused, as in the source. -/
def create_ranked_results (similarities : List ℚ) (sections : List Section)
    (original_section_count : Nat) : List RankedEntry × List AnalysisEntry :=
  let _ := original_section_count
  let section_scores := sortDesc (similarities.zip sections)
  let max_results := min 15 section_scores.length
  let top := section_scores.take max_results
  (rankLoop 1 top, top.map mkAnalysis)

/-! ### prepare_texts_for_bert and rank_sections (ranker.py lines 170-239,
289-310) -/

/-- `prepare_texts_for_bert` (ranker.py lines 289-310). -/
def prepare_texts_for_bert (sections : List Section) (query : List Char) :
    List (List Char) :=
  query :: sections.map (fun s =>
    let enhanced := pyLower (s.section_title ++ [' '] ++ s.section_title ++ [' '] ++
      s.section_text)
    let words := pySplitWs enhanced
    if 350 < words.length then joinSp (words.take 350) ++ str "..." else enhanced)

/-- `' '.join([persona, job_description] + expanded_keywords[:8]).lower()`
(ranker.py lines 206-207). -/
def enhancedQuery (persona job : List Char) (expanded : List (List Char)) : List Char :=
  pyLower (joinSp (persona :: job :: expanded.take 8))

/-- The body of `rank_sections`'s `try` block (ranker.py lines 185-236).
An encoder returning `Except.error` models an exception raised inside the
block, which the `except` clause (lines 237-239) turns into `([], [])`. -/
def rank_try (encode : List (List Char) → Except (List Char) (List (List ℚ)))
    (cos : List ℚ → List ℚ → ℚ) (sections : List Section)
    (persona job_description : List Char) : List RankedEntry × List AnalysisEntry :=
  let filtered := filter_sections_for_bert sections
  if filtered.isEmpty then ([], [])
  else
    let keywords := extract_dynamic_persona_keywords persona job_description
    let expanded := expand_query_semantically keywords
    let query := enhancedQuery persona job_description expanded
    match encode (prepare_texts_for_bert filtered query) with
    | Except.error _ => ([], [])
    | Except.ok [] => ([], [])
    | Except.ok (qe :: se) =>
      let sims := se.map (cos qe)
      let boosted := apply_persona_boosting sims filtered expanded
      create_ranked_results boosted filtered sections.length

/-- `rank_sections` (ranker.py lines 170-239).  The BERT encoder and the
cosine similarity are abstracted: `enc` is `none` when
`initialize_bert_model` returns `(None, None)`. -/
def rank_sections (enc : Option (List (List Char) → Except (List Char) (List (List ℚ))))
    (cos : List ℚ → List ℚ → ℚ) (sections : List Section)
    (persona job_description : List Char) : List RankedEntry × List AnalysisEntry :=
  match enc with
  | none => ([], [])
  | some encode =>
    if sections.isEmpty then ([], [])
    else rank_try encode cos sections persona job_description


/-! ### Fuel-based evaluators

The substitution passes recurse through `dropWhile` and are defined by
well-founded recursion, which the kernel does not unfold; the following
fuel-based twins compute the same functions by structural recursion and
make closed instances of `normalize_text` reducible. -/

def sub1F : Nat → List Char → List Char
  | _, [] => []
  | 0, l => l
  | f + 1, c :: t =>
    if isWs c then ' ' :: sub1F f (t.dropWhile isWs) else c :: sub1F f t

theorem sub1F_eq : ∀ (fuel : Nat) (l : List Char), l.length ≤ fuel →
    sub1F fuel l = sub1 l := by
  intro fuel
  induction fuel with
  | zero =>
    intro l h
    cases l with
    | nil =>
      rw [show sub1 [] = [] from by rw [sub1]]
      rfl
    | cons c t => simp at h
  | succ f ih =>
    intro l h
    cases l with
    | nil =>
      rw [show sub1 [] = [] from by rw [sub1]]
      rfl
    | cons c t =>
      show (if isWs c then ' ' :: sub1F f (t.dropWhile isWs) else c :: sub1F f t) = _
      simp only [List.length_cons] at h
      by_cases hws : isWs c = true
      · rw [if_pos hws, sub1_ws hws,
          ih (t.dropWhile isWs) (le_trans (dropWhile_length_le _ _) (by omega))]
      · have hws' : isWs c = false := by revert hws; cases isWs c <;> simp
        rw [if_neg hws, sub1_nws hws', ih t (by omega)]

def sub3F : Nat → List Char → List Char
  | _, [] => []
  | 0, l => l
  | f + 1, c :: t =>
    if isDig c then
      match t.dropWhile isDig with
      | [] => c :: t.takeWhile isDig
      | d :: r =>
        if isAl d then (c :: t.takeWhile isDig) ++ ' ' :: d :: sub3F f r
        else (c :: t.takeWhile isDig) ++ sub3F f (d :: r)
    else c :: sub3F f t

theorem sub3F_eq : ∀ (fuel : Nat) (l : List Char), l.length ≤ fuel →
    sub3F fuel l = sub3 l := by
  intro fuel
  induction fuel with
  | zero =>
    intro l h
    cases l with
    | nil =>
      rw [show sub3 [] = [] from by rw [sub3]]
      rfl
    | cons c t => simp at h
  | succ f ih =>
    intro l h
    cases l with
    | nil =>
      rw [show sub3 [] = [] from by rw [sub3]]
      rfl
    | cons c t =>
      simp only [List.length_cons] at h
      rw [sub3F.eq_def]
      dsimp only
      by_cases hd : isDig c = true
      · rw [if_pos hd]
        split
        · rename_i heq
          rw [sub3_dig_nil hd heq]
        · rename_i d r heq
          have hlen : r.length + 1 ≤ t.length := by
            have := dropWhile_length_le isDig t
            rw [heq] at this
            simpa using this
          by_cases hal : isAl d = true
          · rw [if_pos hal, sub3_dig_al hd heq hal, ih r (by omega)]
          · have hal' : isAl d = false := by revert hal; cases isAl d <;> simp
            rw [if_neg hal, sub3_dig_nal hd heq hal',
              ih (d :: r) (by simp only [List.length_cons]; omega)]
      · have hd' : isDig c = false := by revert hd; cases isDig c <;> simp
        rw [if_neg hd, sub3_ndig hd', ih t (by omega)]

def sub4F : Nat → List Char → List Char
  | _, [] => []
  | 0, l => l
  | f + 1, c :: t =>
    if isAl c then
      match t with
      | [] => [c]
      | d :: r =>
        if isDig d then (c :: ' ' :: d :: r.takeWhile isDig) ++ sub4F f (r.dropWhile isDig)
        else c :: sub4F f (d :: r)
    else c :: sub4F f t

theorem sub4F_eq : ∀ (fuel : Nat) (l : List Char), l.length ≤ fuel →
    sub4F fuel l = sub4 l := by
  intro fuel
  induction fuel with
  | zero =>
    intro l h
    cases l with
    | nil =>
      rw [sub4_nil]
      rfl
    | cons c t => simp at h
  | succ f ih =>
    intro l h
    cases l with
    | nil =>
      rw [sub4_nil]
      rfl
    | cons c t =>
      simp only [List.length_cons] at h
      rw [sub4F.eq_def]
      dsimp only
      by_cases hal : isAl c = true
      · rw [if_pos hal]
        cases t with
        | nil =>
          dsimp only
          rw [sub4_single]
        | cons d r =>
          dsimp only
          simp only [List.length_cons] at h
          by_cases hdg : isDig d = true
          · rw [if_pos hdg, sub4_al_dig hal hdg,
              ih (r.dropWhile isDig) (le_trans (dropWhile_length_le _ _) (by omega))]
          · have hdg' : isDig d = false := by revert hdg; cases isDig d <;> simp
            rw [if_neg hdg, sub4_al_ndig hal hdg',
              ih (d :: r) (by simp only [List.length_cons]; omega)]
      · have hal' : isAl c = false := by revert hal; cases isAl c <;> simp
        rw [if_neg hal, sub4_nal hal']
        cases t with
        | nil => rw [ih [] (by simp)]
        | cons d r =>
          simp only [List.length_cons] at h
          rw [ih (d :: r) (by simp only [List.length_cons]; omega)]

def sub5F : Nat → List Char → List Char
  | _, [] => []
  | 0, l => l
  | f + 1, c :: t =>
    if c = '.' then
      match t with
      | [] => ['.']
      | d :: r =>
        if d = '.' then '.' :: sub5F f (r.dropWhile (· == '.'))
        else '.' :: sub5F f (d :: r)
    else c :: sub5F f t

theorem sub5F_eq : ∀ (fuel : Nat) (l : List Char), l.length ≤ fuel →
    sub5F fuel l = sub5 l := by
  intro fuel
  induction fuel with
  | zero =>
    intro l h
    cases l with
    | nil =>
      rw [show sub5 [] = [] from by rw [sub5.eq_def]]
      rfl
    | cons c t => simp at h
  | succ f ih =>
    intro l h
    cases l with
    | nil =>
      rw [show sub5 [] = [] from by rw [sub5.eq_def]]
      rfl
    | cons c t =>
      simp only [List.length_cons] at h
      rw [sub5F.eq_def]
      dsimp only
      by_cases hc : c = '.'
      · rw [if_pos hc]
        subst hc
        cases t with
        | nil =>
          dsimp only
          rw [sub5_dot_nil]
        | cons d r =>
          dsimp only
          simp only [List.length_cons] at h
          by_cases hdc : d = '.'
          · rw [if_pos hdc]
            subst hdc
            rw [sub5_dotdot,
              ih (r.dropWhile (· == '.')) (le_trans (dropWhile_length_le _ _) (by omega))]
          · rw [if_neg hdc, sub5_dot_nd hdc,
              ih (d :: r) (by simp only [List.length_cons]; omega)]
      · rw [if_neg hc, sub5_ndot hc, ih t (by omega)]

def sub6F : Nat → List Char → List Char
  | _, [] => []
  | 0, l => l
  | f + 1, c :: t =>
    if isWs c then
      if (t.dropWhile isWs).head? = some '.' then
        '.' :: ' ' :: sub6F f (((t.dropWhile isWs).tail).dropWhile isWs)
      else (c :: t.takeWhile isWs) ++ sub6F f (t.dropWhile isWs)
    else if c = '.' then '.' :: ' ' :: sub6F f (t.dropWhile isWs)
    else c :: sub6F f t

theorem sub6F_eq : ∀ (fuel : Nat) (l : List Char), l.length ≤ fuel →
    sub6F fuel l = sub6 l := by
  intro fuel
  induction fuel with
  | zero =>
    intro l h
    cases l with
    | nil =>
      rw [show sub6 [] = [] from by rw [sub6.eq_def]]
      rfl
    | cons c t => simp at h
  | succ f ih =>
    intro l h
    cases l with
    | nil =>
      rw [show sub6 [] = [] from by rw [sub6.eq_def]]
      rfl
    | cons c t =>
      simp only [List.length_cons] at h
      rw [sub6F.eq_def]
      dsimp only
      by_cases hws : isWs c = true
      · rw [if_pos hws]
        rcases hdr : t.dropWhile isWs with _ | ⟨d, r⟩
        · dsimp only [List.head?, List.tail]
          rw [if_neg (by intro hx; cases hx)]
          rw [sub6_ws_other hws (by intro r hr; rw [hdr] at hr; cases hr), hdr,
            ih [] (by simp)]
        · have hlen : r.length + 1 ≤ t.length := by
            have := dropWhile_length_le isWs t
            rw [hdr] at this
            simpa using this
          by_cases hd : d = '.'
          · subst hd
            dsimp only [List.head?, List.tail]
            rw [if_pos rfl, sub6_ws_dot hws hdr,
              ih (r.dropWhile isWs) (le_trans (dropWhile_length_le _ _) (by omega))]
          · dsimp only [List.head?, List.tail]
            rw [if_neg (by intro hx; exact hd (by injection hx))]
            rw [sub6_ws_other hws
                (by intro r2 hr2; rw [hdr] at hr2; exact hd (by injection hr2)),
              hdr, ih (d :: r) (by simp only [List.length_cons]; omega)]
      · have hws' : isWs c = false := by revert hws; cases isWs c <;> simp
        rw [if_neg hws]
        by_cases hc : c = '.'
        · rw [if_pos hc]
          subst hc
          rw [sub6_dot, ih (t.dropWhile isWs) (le_trans (dropWhile_length_le _ _) (by omega))]
        · rw [if_neg hc, sub6_other hws' hc, ih t (by omega)]

/-- Fuel-based evaluator for `normalize_text`. -/
def normalizeF (l : List Char) : List Char :=
  let a1 := sub1F l.length l
  let a2 := sub2 a1
  let a3 := sub3F a2.length a2
  let a4 := sub4F a3.length a3
  let a5 := sub5F a4.length a4
  pyStrip (sub6F a5.length a5)

theorem normalizeF_eq (l : List Char) : normalizeF l = normalize_text l := by
  simp only [normalizeF, normalize_text]
  rw [sub1F_eq _ _ le_rfl, sub3F_eq _ _ le_rfl, sub4F_eq _ _ le_rfl, sub5F_eq _ _ le_rfl,
    sub6F_eq _ _ le_rfl]

/-! ## The claims -/

/-- C7: `normalize_text` is idempotent: for every input string `x`,
`normalize_text (normalize_text x)` equals `normalize_text x`. -/
theorem C7_normalize_text_idempotent (x : List Char) :
    normalize_text (normalize_text x) = normalize_text x :=
  normalize_text_idem x

/-- C2: for every input string the output of `normalize_text` contains no
newline character, and consequently `detect_heading_sections` applied to
`normalize_text`'s output returns the empty list for every document path
and page number. -/
theorem C2_normalized_text_has_no_headings (t d : List Char) (p : Nat) :
    (normalize_text t).contains '\n' = false ∧
    detect_heading_sections (normalize_text t) d p = [] :=
  ⟨contains_eq_false_of_not_mem (newline_not_mem_normalize t),
   detect_heading_sections_normalize_nil t d p⟩

/-- C5: `filter_sections_for_bert` returns the primary (strict) pass's
output exactly when that pass keeps at least 5 sections and the relaxed
pass's output otherwise, truncated to 20; the result is always an
order-preserving subsequence of the input of length at most 20. -/
theorem C5_filter_sections_for_bert_spec (sections : List Section) :
    filter_sections_for_bert sections =
      (if 5 ≤ (sections.filter strictKeep).length then sections.filter strictKeep
       else sections.filter relaxedKeep).take 20 ∧
    (filter_sections_for_bert sections).Sublist sections ∧
    (filter_sections_for_bert sections).length ≤ 20 := by
  have he : filter_sections_for_bert sections =
      (if 5 ≤ (sections.filter strictKeep).length then sections.filter strictKeep
       else sections.filter relaxedKeep).take 20 := by
    rw [filter_sections_for_bert]
    by_cases h5 : (sections.filter strictKeep).length < 5
    · rw [if_pos h5, if_neg (by omega)]
    · rw [if_neg h5, if_pos (by omega)]
  refine ⟨he, ?_, ?_⟩
  · rw [he]
    by_cases h5 : 5 ≤ (sections.filter strictKeep).length
    · rw [if_pos h5]
      exact (List.take_sublist _ _).trans (List.filter_sublist _)
    · rw [if_neg h5]
      exact (List.take_sublist _ _).trans (List.filter_sublist _)
  · rw [he]
    by_cases h5 : 5 ≤ (sections.filter strictKeep).length
    · rw [if_pos h5]
      exact le_trans (List.length_take_le _ _) le_rfl
    · rw [if_neg h5]
      exact le_trans (List.length_take_le _ _) le_rfl

/-- C1 counterexample: on the scenario page, after normalization,
`detect_recipe_sections` emits exactly one section, titled
"Ingredients"; no section titled "Instructions" is emitted (its content
"mix and bake" fails the `> 20` length guard), so the claimed "at least
two sections" is false. -/
theorem C1_counterexample :
    (detect_recipe_sections
        (normalize_text (str "INGREDIENTS: flour, sugar\nINSTRUCTIONS: mix and bake"))
        (str "menu.pdf") 1).map Section.section_title = [str "Ingredients"] := by
  rw [← normalizeF_eq]
  decide

/-- C1 (amended): on the scenario page, after normalization,
`detect_recipe_sections` emits exactly one section: an "Ingredients"
recipe component whose text is the whole remainder of the normalized
line (non-empty); the "Instructions" match is dropped by the `> 20`
content-length guard. -/
theorem C1_recipe_scenario :
    detect_recipe_sections
        (normalize_text (str "INGREDIENTS: flour, sugar\nINSTRUCTIONS: mix and bake"))
        (str "menu.pdf") 1 =
      [{ document := str "menu.pdf", section_title := str "Ingredients",
         section_text := str "flour, sugar INSTRUCTIONS: mix and bake",
         page_number := 1, section_type := str "recipe_component" }] := by
  rw [← normalizeF_eq]
  decide

/-- Monotonicity of one graduated-boost summand. -/
theorem ifBoost_mono (a r : ℚ) (ha : 0 ≤ a) (hr : 0 ≤ r) {n n2 : Nat} (h : n ≤ n2) :
    (if 0 < n then a + (n : ℚ) * r else 0) ≤ (if 0 < n2 then a + (n2 : ℚ) * r else 0) := by
  by_cases hz : 0 < n
  · rw [if_pos hz, if_pos (Nat.lt_of_lt_of_le hz h)]
    have : (n : ℚ) ≤ (n2 : ℚ) := Nat.cast_le.mpr h
    nlinarith
  · rw [if_neg hz]
    by_cases hz2 : 0 < n2
    · rw [if_pos hz2]
      positivity
    · rw [if_neg hz2]

/-- The two concrete sections of the C3 counterexample. -/
def secBread : Section := ⟨str "d.pdf", str "bread loaf", str "zzzz", 1, str "unknown"⟩

def secPasta : Section := ⟨str "d.pdf", str "pasta dish", str "zzzz", 1, str "unknown"⟩

/-- C3 counterexample: with the baseline similarity `-1 ∈ [-1, 1]`, one
extra title keyword match lowers the boosted score from `-1` to `-27/20`,
so boosting is not monotone in the match counts for every baseline in
`[-1, 1]`. -/
theorem C3_counterexample :
    titleMatches [str "pasta"] secBread = 0 ∧
    titleMatches [str "pasta"] secPasta = 1 ∧
    apply_persona_boosting [-1] [secBread] [str "pasta"] = [-1] ∧
    apply_persona_boosting [-1] [secPasta] [str "pasta"] = [-27/20] ∧
    (-27/20 : ℚ) < -1 := by
  refine ⟨by decide, by decide, ?_, ?_, by norm_num⟩
  · show [(-1 : ℚ) * boostFactor [str "pasta"] secBread] ++ [] = [-1]
    rw [List.append_nil]
    have hb : boostFactor [str "pasta"] secBread = 1 := by
      rw [boostFactor, show titleMatches [str "pasta"] secBread = 0 from by decide,
        show textMatches [str "pasta"] secBread = 0 from by decide,
        show foodHit [str "pasta"] secBread.section_type = false from by decide,
        show procHit [str "pasta"] secBread.section_type = false from by decide,
        gradFactor]
      norm_num
    rw [hb]
    norm_num
  · show [(-1 : ℚ) * boostFactor [str "pasta"] secPasta] ++ [] = [-27/20]
    rw [List.append_nil]
    have hb : boostFactor [str "pasta"] secPasta = 27/20 := by
      rw [boostFactor, show titleMatches [str "pasta"] secPasta = 1 from by decide,
        show textMatches [str "pasta"] secPasta = 0 from by decide,
        show foodHit [str "pasta"] secPasta.section_type = false from by decide,
        show procHit [str "pasta"] secPasta.section_type = false from by decide,
        gradFactor]
      norm_num
    rw [hb]
    norm_num

/-- C3 (amended): for a fixed nonnegative baseline similarity `b` (the
original claim fails for negative baselines), increasing the number of
title or text keyword matches never decreases the boosted score
`b * boostFactor`; on a singleton input `apply_persona_boosting` computes
exactly that product. -/
theorem C3_boosting_monotone_for_nonneg_baseline (b : ℚ) (exp : List (List Char))
    (s s2 : Section) (hb : 0 ≤ b) (hty : s2.section_type = s.section_type)
    (h1 : titleMatches exp s ≤ titleMatches exp s2)
    (h2 : textMatches exp s ≤ textMatches exp s2) :
    apply_persona_boosting [b] [s] exp = [b * boostFactor exp s] ∧
    b * boostFactor exp s ≤ b * boostFactor exp s2 := by
  constructor
  · show [b * boostFactor exp s] ++ [] = [b * boostFactor exp s]
    rw [List.append_nil]
  · apply mul_le_mul_of_nonneg_left _ hb
    rw [boostFactor, boostFactor, hty, gradFactor, gradFactor]
    have m1 := ifBoost_mono (1/4) (1/10) (by norm_num) (by norm_num) h1
    have m2 := ifBoost_mono (1/10) (1/20) (by norm_num) (by norm_num) h2
    linarith

/-- Witness for C3: the monotonicity theorem applied at baseline `1/2`,
comparing zero matches with one title match. -/
theorem C3_boosting_monotone_witness :
    apply_persona_boosting [(1/2 : ℚ)] [secBread] [str "pasta"] =
      [(1/2 : ℚ) * boostFactor [str "pasta"] secBread] ∧
    (1/2 : ℚ) * boostFactor [str "pasta"] secBread ≤
      (1/2 : ℚ) * boostFactor [str "pasta"] secPasta :=
  C3_boosting_monotone_for_nonneg_baseline (1/2) [str "pasta"] secBread secPasta
    (by norm_num) rfl (by decide) (by decide)

/-! ### Substring containment in a space-joined list -/

theorem leadEq_long : ∀ (pat u : List Char), u.length < pat.length → leadEq pat u = false := by
  intro pat
  induction pat with
  | nil => intro u h; simp at h
  | cons a as ih =>
    intro u h
    cases u with
    | nil => rfl
    | cons b bs =>
      rw [leadEq, ih bs (by simpa using Nat.lt_of_succ_lt_succ (by simpa using h)),
        Bool.and_false]

theorem leadEq_append_left : ∀ (pat u v : List Char), pat.length ≤ u.length →
    leadEq pat (u ++ v) = leadEq pat u := by
  intro pat
  induction pat with
  | nil => intro u v _; rfl
  | cons a as ih =>
    intro u v h
    cases u with
    | nil => simp at h
    | cons b bs =>
      rw [List.cons_append, leadEq, leadEq, ih bs v (by simpa using h)]

theorem leadEq_sep_false : ∀ (pat u w : List Char), (∀ c ∈ pat, c ≠ ' ') →
    u.length < pat.length → leadEq pat (u ++ ' ' :: w) = false := by
  intro pat
  induction pat with
  | nil => intro u w _ h; simp at h
  | cons a as ih =>
    intro u w hns h
    cases u with
    | nil =>
      rw [List.nil_append, leadEq,
        show (a == ' ') = false from by
          have := hns a (List.mem_cons_self _ _)
          simpa using this,
        Bool.false_and]
    | cons b bs =>
      rw [List.cons_append, leadEq,
        ih bs w (fun c hc => hns c (List.mem_cons_of_mem _ hc))
          (by simpa using Nat.lt_of_succ_lt_succ (by simpa using h)),
        Bool.and_false]

theorem hasSub_nil_false (pat : List Char) (hne : pat ≠ []) : hasSub pat [] = false := by
  cases pat with
  | nil => exact absurd rfl hne
  | cons a as => rfl

theorem hasSub_append_sep (pat : List Char) (hne : pat ≠ []) (hns : ∀ c ∈ pat, c ≠ ' ') :
    ∀ a b : List Char, hasSub pat (a ++ ' ' :: b) = (hasSub pat a || hasSub pat b) := by
  intro a
  induction a with
  | nil =>
    intro b
    rw [List.nil_append]
    show (leadEq pat (' ' :: b) || hasSub pat b) = (hasSub pat [] || hasSub pat b)
    rw [show leadEq pat (' ' :: b) = false from by
        have := leadEq_sep_false pat [] b hns
          (by cases pat with
              | nil => exact absurd rfl hne
              | cons x xs => simp)
        simpa using this,
      hasSub_nil_false pat hne, Bool.false_or]
  | cons c cs ih =>
    intro b
    rw [List.cons_append]
    show (leadEq pat (c :: (cs ++ ' ' :: b)) || hasSub pat (cs ++ ' ' :: b)) =
      ((leadEq pat (c :: cs) || hasSub pat cs) || hasSub pat b)
    rw [ih b]
    by_cases hl : pat.length ≤ (c :: cs).length
    · rw [show leadEq pat (c :: (cs ++ ' ' :: b)) = leadEq pat (c :: cs) from by
        have := leadEq_append_left pat (c :: cs) (' ' :: b) hl
        rwa [List.cons_append] at this]
      rw [Bool.or_assoc]
    · have h1 : leadEq pat (c :: (cs ++ ' ' :: b)) = false := by
        have := leadEq_sep_false pat (c :: cs) b hns (by omega)
        rwa [List.cons_append] at this
      have h2 : leadEq pat (c :: cs) = false := leadEq_long pat (c :: cs) (by omega)
      rw [h1, h2, Bool.false_or, Bool.false_or]

theorem hasSub_joinSp (pat : List Char) (hne : pat ≠ []) (hns : ∀ c ∈ pat, c ≠ ' ') :
    ∀ l : List (List Char), hasSub pat (joinSp l) = l.any (fun e => hasSub pat e) := by
  intro l
  induction l with
  | nil =>
    rw [show joinSp [] = [] from rfl, hasSub_nil_false pat hne]
    rfl
  | cons x xs ih =>
    cases xs with
    | nil =>
      rw [show joinSp [x] = x from rfl, List.any_cons]
      simp
    | cons y ys =>
      rw [show joinSp (x :: y :: ys) = x ++ ' ' :: joinSp (y :: ys) from rfl,
        hasSub_append_sep pat hne hns, ih]
      simp [List.any_cons, Bool.or_assoc]

/-- The concrete section of the C4 counterexample. -/
def secFoodType : Section := ⟨str "d.pdf", str "zzz", str "qqq", 1, str "recipe_component"⟩

/-- C4 counterexample: with the expanded-term list `["seafood"]`, which
contains none of the four food words as an element, a `recipe_component`
section still receives the `+0.20` boost (factor `1.2`), because the code
tests substring containment in `' '.join(expanded_keywords)` and `"food"`
is a substring of `"seafood"`; `foodHitSpec` is the set-membership
condition stated by the specification. -/
theorem C4_counterexample :
    apply_persona_boosting [1] [secFoodType] [str "seafood"] = [6/5] ∧
    foodHit [str "seafood"] (str "recipe_component") = true ∧
    foodHitSpec [str "seafood"] (str "recipe_component") = false := by
  refine ⟨?_, by decide, by decide⟩
  show [(1 : ℚ) * boostFactor [str "seafood"] secFoodType] ++ [] = [6/5]
  rw [List.append_nil]
  have hb : boostFactor [str "seafood"] secFoodType = 6/5 := by
    rw [boostFactor, show titleMatches [str "seafood"] secFoodType = 0 from by decide,
      show textMatches [str "seafood"] secFoodType = 0 from by decide,
      show foodHit [str "seafood"] secFoodType.section_type = true from by decide,
      show procHit [str "seafood"] secFoodType.section_type = false from by decide,
      gradFactor]
    norm_num
  rw [hb]
  norm_num

/-- C4 (amended): the `+0.20` food boost fires exactly when the section
type is one of the three recipe types and one of `"food"`, `"recipe"`,
`"vegetarian"`, `"menu"` occurs as a substring of some expanded term —
substring containment, not set membership. -/
theorem C4_food_boost_characterization (exp : List (List Char)) (ty : List Char) :
    foodHit exp ty = true ↔
      ((ty = str "recipe_component" ∨ ty = str "complete_recipe" ∨
        ty = str "individual_recipe") ∧
       ∃ w ∈ exp, (hasSub (str "food") w = true ∨ hasSub (str "recipe") w = true ∨
         hasSub (str "vegetarian") w = true ∨ hasSub (str "menu") w = true)) := by
  rw [foodHit,
    hasSub_joinSp (str "food") (by decide) (by decide) exp,
    hasSub_joinSp (str "recipe") (by decide) (by decide) exp,
    hasSub_joinSp (str "vegetarian") (by decide) (by decide) exp,
    hasSub_joinSp (str "menu") (by decide) (by decide) exp]
  simp only [Bool.or_assoc, Bool.and_eq_true, Bool.or_eq_true, beq_iff_eq,
    List.any_eq_true]
  constructor
  · rintro ⟨hty, h⟩
    refine ⟨hty, ?_⟩
    rcases h with ⟨w, hw, hh⟩ | ⟨w, hw, hh⟩ | ⟨w, hw, hh⟩ | ⟨w, hw, hh⟩
    exacts [⟨w, hw, Or.inl hh⟩, ⟨w, hw, Or.inr (Or.inl hh)⟩,
      ⟨w, hw, Or.inr (Or.inr (Or.inl hh))⟩, ⟨w, hw, Or.inr (Or.inr (Or.inr hh))⟩]
  · rintro ⟨hty, w, hw, hh⟩
    refine ⟨hty, ?_⟩
    rcases hh with hh | hh | hh | hh
    exacts [Or.inl ⟨w, hw, hh⟩, Or.inr (Or.inl ⟨w, hw, hh⟩),
      Or.inr (Or.inr (Or.inl ⟨w, hw, hh⟩)), Or.inr (Or.inr (Or.inr ⟨w, hw, hh⟩))]

/-- The keyword list of the C8 scenario. -/
def kwFC : List (List Char) :=
  extract_dynamic_persona_keywords (str "Food Contractor")
    (str "Prepare a vegetarian buffet for a corporate gathering")

/-- C8: for persona "Food Contractor" and job "Prepare a vegetarian buffet
for a corporate gathering", the extracted keywords contain "vegetarian",
"corporate", "gathering" and "prepare", and the expanded terms form a
strict superset of the keywords. -/
theorem C8_persona_keywords_and_expansion :
    str "vegetarian" ∈ kwFC ∧ str "corporate" ∈ kwFC ∧ str "gathering" ∈ kwFC ∧
    str "prepare" ∈ kwFC ∧
    (∀ k ∈ kwFC, k ∈ expand_query_semantically kwFC) ∧
    (∃ t ∈ expand_query_semantically kwFC, t ∉ kwFC) := by
  refine ⟨by decide, by decide, by decide, by decide, by decide, ?_⟩
  exact ⟨str "vegan", by decide, by decide⟩

/-- C9: `rank_sections` returns the pair of empty lists — rather than
raising — when the encoder is unavailable, when the input section list is
empty, when no sections survive filtering, and when the encoder (standing
for any exception inside the `try` block) fails. -/
theorem C9_rank_sections_soft_failure (cos : List ℚ → List ℚ → ℚ)
    (persona job : List Char) :
    (∀ enc sections, sections = [] →
      rank_sections enc cos sections persona job = ([], [])) ∧
    (∀ sections, rank_sections none cos sections persona job = ([], [])) ∧
    (∀ enc sections, filter_sections_for_bert sections = [] →
      rank_sections enc cos sections persona job = ([], [])) ∧
    (∀ f sections err,
      f (prepare_texts_for_bert (filter_sections_for_bert sections)
          (enhancedQuery persona job
            (expand_query_semantically
              (extract_dynamic_persona_keywords persona job)))) = Except.error err →
      rank_sections (some f) cos sections persona job = ([], [])) := by
  have htry : ∀ f sections, filter_sections_for_bert sections = [] →
      rank_try f cos sections persona job = ([], []) := by
    intro f sections hf
    rw [rank_try]
    simp only [hf]
    rfl
  refine ⟨?_, ?_, ?_, ?_⟩
  · intro enc sections hs
    subst hs
    cases enc with
    | none => rfl
    | some f => rfl
  · intro sections
    rfl
  · intro enc sections hf
    cases enc with
    | none => rfl
    | some f =>
      show (if sections.isEmpty then (([], []) : List RankedEntry × List AnalysisEntry)
            else rank_try f cos sections persona job) = ([], [])
      by_cases hs : sections.isEmpty
      · rw [if_pos hs]
      · rw [if_neg hs, htry f sections hf]
  · intro f sections err herr
    show (if sections.isEmpty then (([], []) : List RankedEntry × List AnalysisEntry)
          else rank_try f cos sections persona job) = ([], [])
    by_cases hs : sections.isEmpty
    · rw [if_pos hs]
    · rw [if_neg hs, rank_try]
      simp only
      by_cases hf : (filter_sections_for_bert sections).isEmpty
      · rw [if_pos hf]
      · rw [if_neg hf, herr]

/-- Witness for C9: with no encoder and an empty section list, ranking
returns empty lists. -/
theorem C9_rank_sections_soft_failure_witness :
    rank_sections none (fun a b => (fun _ _ => (0 : ℚ)) a b) [] [] [] = ([], []) :=
  (C9_rank_sections_soft_failure (fun a b => (fun _ _ => (0 : ℚ)) a b) [] []).1 none [] rfl

/-! ### Stable descending sort: order and stability -/

theorem insDesc_head (x : ℚ × Section) (l : List (ℚ × Section)) :
    (insDesc x l).head? = some x ∨
    ((insDesc x l).head? = l.head? ∧ ∀ y ∈ l.head?, x.1 < y.1) := by
  cases l with
  | nil => left; rfl
  | cons y ys =>
    by_cases h : x.1 < y.1
    · right
      constructor
      · show (if x.1 < y.1 then y :: insDesc x ys else x :: y :: ys).head? = _
        rw [if_pos h]
        rfl
      · intro z hz
        have hzy : y = z := by simpa [Option.mem_def] using hz
        rw [← hzy]
        exact h
    · left
      show (if x.1 < y.1 then y :: insDesc x ys else x :: y :: ys).head? = some x
      rw [if_neg h]
      rfl

theorem insDesc_chain (x : ℚ × Section) (l : List (ℚ × Section))
    (h : List.Chain' (fun a b => b.1 ≤ a.1) l) :
    List.Chain' (fun a b => b.1 ≤ a.1) (insDesc x l) := by
  induction l with
  | nil => exact List.chain'_singleton x
  | cons y ys ih =>
    have hdecomp := List.chain'_cons'.mp h
    obtain ⟨hhd, hch⟩ := hdecomp
    show List.Chain' _ (if x.1 < y.1 then y :: insDesc x ys else x :: y :: ys)
    by_cases hc : x.1 < y.1
    · rw [if_pos hc, List.chain'_cons']
      refine ⟨?_, ih hch⟩
      intro z hz
      rcases insDesc_head x ys with hh | ⟨hh, _⟩
      · rw [hh] at hz
        have hzx : x = z := by simpa [Option.mem_def] using hz
        rw [← hzx]
        exact le_of_lt hc
      · rw [hh] at hz
        exact hhd z hz
    · rw [if_neg hc, List.chain'_cons']
      refine ⟨?_, h⟩
      intro z hz
      have hzy : y = z := by simpa [Option.mem_def] using hz
      rw [← hzy]
      exact le_of_not_lt hc

theorem sortDesc_chain (l : List (ℚ × Section)) :
    List.Chain' (fun a b => b.1 ≤ a.1) (sortDesc l) := by
  induction l with
  | nil => exact List.chain'_nil
  | cons x xs ih => exact insDesc_chain x (sortDesc xs) ih

theorem insDesc_filter_eq (x : ℚ × Section) (q : ℚ) :
    ∀ l : List (ℚ × Section),
    (insDesc x l).filter (fun p => decide (p.1 = q)) =
      (if x.1 = q then [x] else []) ++ l.filter (fun p => decide (p.1 = q)) := by
  intro l
  induction l with
  | nil =>
    by_cases hxq : x.1 = q
    · simp [insDesc, List.filter, hxq]
    · simp [insDesc, List.filter, hxq]
  | cons y ys ih =>
    show List.filter _ (if x.1 < y.1 then y :: insDesc x ys else x :: y :: ys) = _
    by_cases hc : x.1 < y.1
    · rw [if_pos hc]
      simp only [List.filter_cons, decide_eq_true_eq]
      rw [ih]
      by_cases hxq : x.1 = q
      · have hyq : ¬ (y.1 = q) := fun hy =>
          absurd hc (by rw [hxq, ← hy]; exact lt_irrefl _)
        simp [hxq, hyq]
      · by_cases hyq : y.1 = q
        · simp [hxq, hyq]
        · simp [hxq, hyq]
    · rw [if_neg hc]
      simp only [List.filter_cons, decide_eq_true_eq]
      by_cases hxq : x.1 = q
      · simp [hxq]
      · simp [hxq]

theorem sortDesc_filter (q : ℚ) : ∀ l : List (ℚ × Section),
    (sortDesc l).filter (fun p => decide (p.1 = q)) =
      l.filter (fun p => decide (p.1 = q)) := by
  intro l
  induction l with
  | nil => rfl
  | cons x xs ih =>
    show (insDesc x (sortDesc xs)).filter _ = _
    rw [insDesc_filter_eq, ih]
    simp only [List.filter_cons, decide_eq_true_eq]
    by_cases hxq : x.1 = q
    · simp [hxq]
    · simp [hxq]

theorem rankLoop_length : ∀ (n : Nat) (ps : List (ℚ × Section)),
    (rankLoop n ps).length = ps.length := by
  intro n ps
  induction ps generalizing n with
  | nil => rfl
  | cons p ps ih => simp [rankLoop, ih]

theorem rankLoop_ranks : ∀ (n : Nat) (ps : List (ℚ × Section)),
    (rankLoop n ps).map RankedEntry.importance_rank = List.range' n ps.length := by
  intro n ps
  induction ps generalizing n with
  | nil => rfl
  | cons p ps ih =>
    rw [rankLoop, List.map_cons, ih (n + 1), List.length_cons, List.range'_succ]
    rfl

theorem rankLoop_head (n : Nat) (ps : List (ℚ × Section)) :
    (rankLoop n ps).head? = ps.head?.map (mkRanked n) := by
  cases ps with
  | nil => rfl
  | cons p ps => rfl

theorem rankLoop_chain : ∀ (n : Nat) (ps : List (ℚ × Section)),
    List.Chain' (fun a b => b.1 ≤ a.1) ps →
    List.Chain' (fun a b : RankedEntry => b.similarity_score ≤ a.similarity_score)
      (rankLoop n ps) := by
  intro n ps
  induction ps generalizing n with
  | nil => intro _; exact List.chain'_nil
  | cons p ps ih =>
    intro h
    obtain ⟨hhd, hch⟩ := List.chain'_cons'.mp h
    rw [rankLoop, List.chain'_cons']
    refine ⟨?_, ih (n + 1) hch⟩
    intro e he
    rw [rankLoop_head] at he
    rcases hr : ps.head? with _ | ⟨z⟩
    · rw [hr] at he
      cases he
    · rw [hr] at he
      have hez : mkRanked (n + 1) z = e := by simpa [Option.mem_def] using he
      rw [← hez]
      exact hhd z (by rw [hr]; rfl)

/-- C6: `create_ranked_results` returns at most 15 ranked entries, their
`importance_rank` values are the contiguous sequence `1, 2, ..., n`, the
entries are in descending score order, and the underlying sort is stable:
for every score value, the entries holding it keep their original input
order. -/
theorem C6_create_ranked_results_spec (sims : List ℚ) (sections : List Section) (n : Nat) :
    (create_ranked_results sims sections n).1.length ≤ 15 ∧
    (create_ranked_results sims sections n).1.map RankedEntry.importance_rank =
      List.range' 1 (create_ranked_results sims sections n).1.length ∧
    List.Chain' (fun a b : RankedEntry => b.similarity_score ≤ a.similarity_score)
      (create_ranked_results sims sections n).1 ∧
    ∀ q : ℚ, (sortDesc (sims.zip sections)).filter (fun p => decide (p.1 = q)) =
      (sims.zip sections).filter (fun p => decide (p.1 = q)) := by
  have hfst : (create_ranked_results sims sections n).1 =
      rankLoop 1 ((sortDesc (sims.zip sections)).take
        (min 15 (sortDesc (sims.zip sections)).length)) := rfl
  refine ⟨?_, ?_, ?_, fun q => sortDesc_filter q (sims.zip sections)⟩
  · rw [hfst, rankLoop_length, List.length_take]
    omega
  · rw [hfst, rankLoop_ranks, rankLoop_length]
  · rw [hfst]
    exact rankLoop_chain 1 _ ((sortDesc_chain _).take _)

/-! ### C10 infrastructure: non-emptiness of emitted titles and texts -/

theorem exists_mem_of_findSome {α β : Type} {f : α → Option β} {l : List α} {b : β}
    (h : l.findSome? f = some b) : ∃ a ∈ l, f a = some b := by
  obtain ⟨l1, a, l2, hl, hfa, _⟩ := List.findSome?_eq_some_iff.mp h
  exact ⟨a, by rw [hl]; exact List.mem_append_right _ (List.mem_cons_self _ _), hfa⟩

theorem joinSp_ne_nil {buf : List (List Char)} (hb : buf ≠ [])
    (hall : ∀ b ∈ buf, b ≠ []) : joinSp buf ≠ [] := by
  cases buf with
  | nil => exact absurd rfl hb
  | cons x xs =>
    cases xs with
    | nil => exact hall x (List.mem_cons_self _ _)
    | cons y ys =>
      show x ++ ' ' :: joinSp (y :: ys) ≠ []
      simp

theorem dropTrail_ne_nil : ∀ {m : List Char} {c : Char}, c ∈ m → isWs c = false →
    dropTrail m ≠ [] := by
  intro m
  induction m with
  | nil => intro c hc _; cases hc
  | cons x t ih =>
    intro c hc hw
    rw [dropTrail]
    rcases hdt : dropTrail t with _ | ⟨d, r⟩
    · rcases List.mem_cons.mp hc with hcx | hct
      · subst hcx
        show (if isWs c then [] else [c]) ≠ []
        rw [if_neg (by rw [hw]; exact Bool.false_ne_true)]
        simp
      · exact absurd hdt (ih hct hw)
    · show (x :: d :: r) ≠ []
      simp

theorem mem_dropWhile_of_nonws {l : List Char} {c : Char} (hc : c ∈ l)
    (hw : isWs c = false) : c ∈ l.dropWhile isWs := by
  have hsplit : l.takeWhile isWs ++ l.dropWhile isWs = l :=
    List.takeWhile_append_dropWhile isWs l
  rcases List.mem_append.mp (by rw [hsplit]; exact hc) with h1 | h2
  · exact absurd (mem_takeWhile_sat _ _ h1) (by rw [hw]; exact Bool.false_ne_true)
  · exact h2

theorem pyStrip_ne_nil {l : List Char} {c : Char} (hc : c ∈ l) (hw : isWs c = false) :
    pyStrip l ≠ [] := by
  rw [pyStrip]
  exact dropTrail_ne_nil (mem_dropWhile_of_nonws hc hw) hw

theorem pyTitle_foldl_length : ∀ (l : List Char) (acc : List Char) (b : Bool),
    ((l.foldl (fun (acc : List Char × Bool) c =>
      (acc.1 ++ [if acc.2 then asciiLower c else asciiUpper c], isAl c)) (acc, b)).1).length =
      acc.length + l.length := by
  intro l
  induction l with
  | nil => intro acc b; simp
  | cons c t ih =>
    intro acc b
    rw [List.foldl_cons, ih]
    simp only [List.length_append, List.length_cons, List.length_nil]
    omega

theorem pyTitle_length (l : List Char) : (pyTitle l).length = l.length := by
  rw [pyTitle, pyTitle_foldl_length l [] false]
  simp

theorem pyTitle_ne_nil {l : List Char} (h : l ≠ []) : pyTitle l ≠ [] := by
  intro hn
  have hlen := pyTitle_length l
  rw [hn] at hlen
  exact h (List.eq_nil_of_length_eq_zero hlen.symm)

theorem asciiLower_nonws {c p : Char} (hp : isWs p = false) (h : asciiLower c = p) :
    isWs c = false := by
  by_cases hu : isUpp c = true
  · exact upp_not_ws hu
  · rw [asciiLower, if_neg hu] at h
    rw [h]
    exact hp

theorem ciPre_nonws {p : Char} {ps cs m r : List Char} (hp : isWs p = false)
    (h : ciPre (p :: ps) cs = some (m, r)) : ∃ c ∈ m, isWs c = false := by
  cases cs with
  | nil => simp [ciPre] at h
  | cons c cs2 =>
    rw [ciPre] at h
    by_cases hac : asciiLower c = p
    · rw [if_pos hac] at h
      rcases hm : ciPre ps cs2 with _ | ⟨m2, r2⟩
      · rw [hm] at h
        exact Option.noConfusion h
      · rw [hm] at h
        injection h with h1
        have hm1 : m = c :: m2 := (congrArg Prod.fst h1).symm
        exact ⟨c, by rw [hm1]; exact List.mem_cons_self _ _, asciiLower_nonws hp hac⟩
    · rw [if_neg hac] at h
      exact Option.noConfusion h

theorem findIter_mem {f : List Char → Option ((List Char × List Char) × List Char)} :
    ∀ (fuel : Nat) (cs : List Char) (pr : List Char × List Char),
    pr ∈ findIter f fuel cs → ∃ cs2 rest, f cs2 = some (pr, rest) := by
  intro fuel
  induction fuel with
  | zero => intro cs pr h; exact absurd h (List.not_mem_nil pr)
  | succ n ih =>
    intro cs pr h
    rcases hf : f cs with _ | ⟨a, rest⟩
    · cases cs with
      | nil =>
        have h2 : pr ∈ (match f ([] : List Char) with
          | some (a, rest) => a :: findIter f n rest
          | none => ([] : List (List Char × List Char))) := h
        rw [hf] at h2
        exact absurd h2 (List.not_mem_nil pr)
      | cons c t =>
        have h2 : pr ∈ (match f (c :: t) with
          | some (a, rest) => a :: findIter f n rest
          | none => findIter f n t) := h
        rw [hf] at h2
        exact ih t pr h2
    · cases cs with
      | nil =>
        have h2 : pr ∈ (match f ([] : List Char) with
          | some (a, rest) => a :: findIter f n rest
          | none => ([] : List (List Char × List Char))) := h
        rw [hf] at h2
        rcases List.mem_cons.mp h2 with h1 | hrec
        · exact ⟨[], rest, by rw [hf, h1]⟩
        · exact ih rest pr hrec
      | cons c t =>
        have h2 : pr ∈ (match f (c :: t) with
          | some (a, rest) => a :: findIter f n rest
          | none => findIter f n t) := h
        rw [hf] at h2
        rcases List.mem_cons.mp h2 with h1 | hrec
        · exact ⟨c :: t, rest, by rw [hf, h1]⟩
        · exact ih rest pr hrec

theorem append_left_ne_nil {a b : List Char} (ha : a ≠ []) : a ++ b ≠ [] := by
  simp [List.append_eq_nil, ha]

theorem plurCands_nonws {pat : String} {cs : List Char} {x : List Char × List Char}
    (hpat : ∃ p ps, str pat = p :: ps ∧ isWs p = false)
    (hx : x ∈ plurCands pat cs) : ∃ c ∈ x.1, isWs c = false := by
  obtain ⟨p, ps, hps, hp⟩ := hpat
  have hx2 : x ∈ (match ciPre (str pat) cs with
    | none => ([] : List (List Char × List Char))
    | some (m, r) =>
      match r with
      | c :: r2 => if asciiLower c = 's' then [(m ++ [c], r2), (m, r)] else [(m, r)]
      | [] => [(m, r)]) := hx
  rcases hm : ciPre (str pat) cs with _ | ⟨m, r⟩
  · rw [hm] at hx2
    exact absurd hx2 (List.not_mem_nil x)
  · rw [hm] at hx2
    rw [hps] at hm
    obtain ⟨c0, hc0, hw0⟩ := ciPre_nonws hp hm
    cases r with
    | nil =>
      have hxe : x = (m, ([] : List Char)) := by simpa using hx2
      rw [hxe]
      exact ⟨c0, hc0, hw0⟩
    | cons c r2 =>
      have hx3 : x ∈ (if asciiLower c = 's' then [(m ++ [c], r2), (m, c :: r2)]
        else [(m, c :: r2)]) := hx2
      by_cases hcs : asciiLower c = 's'
      · rw [if_pos hcs] at hx3
        rcases List.mem_cons.mp hx3 with hx4 | hx4
        · rw [hx4]
          exact ⟨c0, List.mem_append_left _ hc0, hw0⟩
        · have hxe : x = (m, c :: r2) := by simpa using hx4
          rw [hxe]
          exact ⟨c0, hc0, hw0⟩
      · rw [if_neg hcs] at hx3
        have hxe : x = (m, c :: r2) := by simpa using hx3
        rw [hxe]
        exact ⟨c0, hc0, hw0⟩

theorem oneCand_nonws {pat : String} {cs : List Char} {x : List Char × List Char}
    (hpat : ∃ p ps, str pat = p :: ps ∧ isWs p = false)
    (hx : x ∈ oneCand pat cs) : ∃ c ∈ x.1, isWs c = false := by
  obtain ⟨p, ps, hps, hp⟩ := hpat
  have hx2 : x ∈ (match ciPre (str pat) cs with
    | none => ([] : List (List Char × List Char))
    | some y => [y]) := hx
  rcases hm : ciPre (str pat) cs with _ | ⟨m, r⟩
  · rw [hm] at hx2
    exact absurd hx2 (List.not_mem_nil x)
  · rw [hm] at hx2
    have hxe : x = (m, r) := by simpa using hx2
    rw [hxe]
    rw [hps] at hm
    exact ciPre_nonws hp hm

theorem kwWsKw_nonws {a b : String} {cs : List Char} {x : List Char × List Char}
    (hpat : ∃ p ps, str a = p :: ps ∧ isWs p = false)
    (hx : x ∈ kwWsKw a b cs) : ∃ c ∈ x.1, isWs c = false := by
  obtain ⟨p, ps, hps, hp⟩ := hpat
  have hx2 : x ∈ (match ciPre (str a) cs with
    | none => ([] : List (List Char × List Char))
    | some (m1, r1) =>
      if (r1.takeWhile isWs).isEmpty then []
      else
        match ciPre (str b) (r1.dropWhile isWs) with
        | none => []
        | some (m2, r3) => [(m1 ++ r1.takeWhile isWs ++ m2, r3)]) := hx
  rcases hm : ciPre (str a) cs with _ | ⟨m1, r1⟩
  · rw [hm] at hx2
    exact absurd hx2 (List.not_mem_nil x)
  · rw [hm] at hx2
    rw [hps] at hm
    obtain ⟨c0, hc0, hw0⟩ := ciPre_nonws hp hm
    have hx3 : x ∈ (if (r1.takeWhile isWs).isEmpty then ([] : List (List Char × List Char))
      else
        match ciPre (str b) (r1.dropWhile isWs) with
        | none => []
        | some (m2, r3) => [(m1 ++ r1.takeWhile isWs ++ m2, r3)]) := hx2
    by_cases hws : (r1.takeWhile isWs).isEmpty
    · rw [if_pos hws] at hx3
      exact absurd hx3 (List.not_mem_nil x)
    · rw [if_neg hws] at hx3
      rcases hm2 : ciPre (str b) (r1.dropWhile isWs) with _ | ⟨m2, r3⟩
      · rw [hm2] at hx3
        exact absurd hx3 (List.not_mem_nil x)
      · rw [hm2] at hx3
        have hxe : x = (m1 ++ r1.takeWhile isWs ++ m2, r3) := by simpa using hx3
        rw [hxe]
        exact ⟨c0, List.mem_append_left _ (List.mem_append_left _ hc0), hw0⟩

theorem matchR1At_nonws {cs : List Char} {pr : List Char × List Char} {rest : List Char}
    (h : matchR1At cs = some (pr, rest)) : ∃ c ∈ pr.1, isWs c = false := by
  obtain ⟨g1, hg1, hmap⟩ := exists_mem_of_findSome h
  obtain ⟨g2, _, hpr⟩ := Option.map_eq_some'.mp hmap
  cases pr with
  | mk pr1 pr2 =>
    have hpr1 : g1.1 = pr1 := congrArg (fun z => z.1.1) hpr
    show ∃ c ∈ pr1, isWs c = false
    rw [← hpr1]
    exact plurCands_nonws ⟨'i', str "ngredient", by decide, by decide⟩ hg1

theorem matchR2At_nonws {cs : List Char} {pr : List Char × List Char} {rest : List Char}
    (h : matchR2At cs = some (pr, rest)) : ∃ c ∈ pr.1, isWs c = false := by
  obtain ⟨g1, hg1, hmap⟩ := exists_mem_of_findSome h
  obtain ⟨g2, _, hpr⟩ := Option.map_eq_some'.mp hmap
  cases pr with
  | mk pr1 pr2 =>
    have hpr1 : g1.1 = pr1 := congrArg (fun z => z.1.1) hpr
    show ∃ c ∈ pr1, isWs c = false
    rw [← hpr1]
    rcases List.mem_append.mp hg1 with h123 | h4
    · rcases List.mem_append.mp h123 with h12 | h3
      · rcases List.mem_append.mp h12 with h1 | h2
        · exact plurCands_nonws ⟨'i', str "nstruction", by decide, by decide⟩ h1
        · exact plurCands_nonws ⟨'d', str "irection", by decide, by decide⟩ h2
      · exact oneCand_nonws ⟨'m', str "ethod", by decide, by decide⟩ h3
    · exact oneCand_nonws ⟨'p', str "reparation", by decide, by decide⟩ h4

theorem matchR3At_nonws {cs : List Char} {pr : List Char × List Char} {rest : List Char}
    (h : matchR3At cs = some (pr, rest)) : ∃ c ∈ pr.1, isWs c = false := by
  obtain ⟨g1, hg1, hmap⟩ := exists_mem_of_findSome h
  obtain ⟨g2, _, hpr⟩ := Option.map_eq_some'.mp hmap
  cases pr with
  | mk pr1 pr2 =>
    have hpr1 : g1.1 = pr1 := congrArg (fun z => z.1.1) hpr
    show ∃ c ∈ pr1, isWs c = false
    rw [← hpr1]
    rcases List.mem_append.mp hg1 with h12 | h3
    · rcases List.mem_append.mp h12 with h1 | h2
      · exact plurCands_nonws ⟨'s', str "erve", by decide, by decide⟩ h1
      · exact oneCand_nonws ⟨'s', str "erving", by decide, by decide⟩ h2
    · exact plurCands_nonws ⟨'p', str "ortion", by decide, by decide⟩ h3

theorem matchR4At_nonws {cs : List Char} {pr : List Char × List Char} {rest : List Char}
    (h : matchR4At cs = some (pr, rest)) : ∃ c ∈ pr.1, isWs c = false := by
  obtain ⟨g1, hg1, hmap⟩ := exists_mem_of_findSome h
  obtain ⟨g2, _, hpr⟩ := Option.map_eq_some'.mp hmap
  cases pr with
  | mk pr1 pr2 =>
    have hpr1 : g1.1 = pr1 := congrArg (fun z => z.1.1) hpr
    show ∃ c ∈ pr1, isWs c = false
    rw [← hpr1]
    rcases List.mem_append.mp hg1 with h12 | h3
    · rcases List.mem_append.mp h12 with h1 | h2
      · exact kwWsKw_nonws ⟨'c', str "ooking", by decide, by decide⟩ h1
      · exact kwWsKw_nonws ⟨'p', str "rep", by decide, by decide⟩ h2
    · exact kwWsKw_nonws ⟨'t', str "otal", by decide, by decide⟩ h3

theorem matchRBg1_nonws {cs : List Char} {g1 rest : List Char}
    (h : matchRBg1 cs = some (g1, rest)) : ∃ c ∈ g1, isWs c = false := by
  cases cs with
  | nil => exact Option.noConfusion h
  | cons c t =>
    have h2 : (if isAl c then
        (descRange (t.takeWhile alWsClass).length).findSome? (fun k =>
          match rbKwAt (t.drop k) with
          | some (kw, r2) => some (c :: (t.take k ++ kw), r2)
          | none => none)
      else none) = some (g1, rest) := h
    by_cases hal : isAl c = true
    · rw [if_pos hal] at h2
      obtain ⟨k, _, hfk⟩ := exists_mem_of_findSome h2
      rcases hkw : rbKwAt (t.drop k) with _ | ⟨kw, r2⟩
      · rw [hkw] at hfk
        exact Option.noConfusion hfk
      · rw [hkw] at hfk
        injection hfk with hfk1
        have hg : g1 = c :: (t.take k ++ kw) := (congrArg Prod.fst hfk1).symm
        rw [hg]
        exact ⟨c, List.mem_cons_self _ _, al_not_ws hal⟩
    · rw [if_neg hal] at h2
      exact Option.noConfusion h2

theorem matchRBAt_nonws {cs : List Char} {pr : List Char × List Char} {rest : List Char}
    (h : matchRBAt cs = some (pr, rest)) : ∃ c ∈ pr.1, isWs c = false := by
  have h2 : (match matchRBg1 cs with
    | none => none
    | some (g1, r) =>
      (tailColonG2 (lazyAny lookRB) r).map (fun g2 => ((g1, g2.1), g2.2))) =
      some (pr, rest) := h
  rcases hg : matchRBg1 cs with _ | ⟨g1, r⟩
  · rw [hg] at h2
    exact Option.noConfusion h2
  · rw [hg] at h2
    obtain ⟨g2, _, hpr⟩ := Option.map_eq_some'.mp h2
    cases pr with
    | mk pr1 pr2 =>
      have hpr1 : g1 = pr1 := congrArg (fun z => z.1.1) hpr
      show ∃ c ∈ pr1, isWs c = false
      rw [← hpr1]
      exact matchRBg1_nonws hg

theorem recipeSecOf_nonempty {doc : List Char} {page : Nat} {pr : List Char × List Char}
    {s : Section} (hg : ∃ c ∈ pr.1, isWs c = false)
    (h : recipeSecOf doc page pr = some s) :
    s.section_title ≠ [] ∧ s.section_text ≠ [] := by
  have h2 : (if 20 < (pyStrip pr.2).length then
      some { document := doc, section_title := pyTitle (pyStrip pr.1),
             section_text := pyStrip pr.2, page_number := page,
             section_type := str "recipe_component" } else none) = some s := h
  by_cases hl : 20 < (pyStrip pr.2).length
  · rw [if_pos hl] at h2
    injection h2 with h3
    rw [← h3]
    obtain ⟨c, hc, hw⟩ := hg
    refine ⟨pyTitle_ne_nil (pyStrip_ne_nil hc hw), ?_⟩
    intro hn
    have hn2 : pyStrip pr.2 = [] := hn
    rw [hn2] at hl
    simp at hl
  · rw [if_neg hl] at h2
    exact Option.noConfusion h2

theorem blockSecOf_nonempty {doc : List Char} {page : Nat} {pr : List Char × List Char}
    {s : Section} (hg : ∃ c ∈ pr.1, isWs c = false)
    (h : blockSecOf doc page pr = some s) :
    s.section_title ≠ [] ∧ s.section_text ≠ [] := by
  have h2 : (if 100 < (pyStrip pr.2).length then
      some { document := doc, section_title := pyStrip pr.1,
             section_text := (pyStrip pr.2).take 500, page_number := page,
             section_type := str "complete_recipe" } else none) = some s := h
  by_cases hl : 100 < (pyStrip pr.2).length
  · rw [if_pos hl] at h2
    injection h2 with h3
    rw [← h3]
    obtain ⟨c, hc, hw⟩ := hg
    refine ⟨pyStrip_ne_nil hc hw, ?_⟩
    intro hn
    have hn2 : (pyStrip pr.2).take 500 = [] := hn
    have hlen := congrArg List.length hn2
    rw [List.length_take] at hlen
    simp only [List.length_nil] at hlen
    omega
  · rw [if_neg hl] at h2
    exact Option.noConfusion h2

theorem procSecOf_nonempty {doc : List Char} {page : Nat} {pr : List Char × List Char}
    {s : Section} (h : procSecOf doc page pr = some s) :
    s.section_title ≠ [] ∧ s.section_text ≠ [] := by
  have h2 : (if 30 < (pyStrip pr.2).length then
      some { document := doc, section_title := str "Procedure: " ++ pyStrip pr.1,
             section_text := pyStrip pr.2, page_number := page,
             section_type := str "procedural" } else none) = some s := h
  by_cases hl : 30 < (pyStrip pr.2).length
  · rw [if_pos hl] at h2
    injection h2 with h3
    rw [← h3]
    refine ⟨append_left_ne_nil (by decide), ?_⟩
    intro hn
    have hn2 : pyStrip pr.2 = [] := hn
    rw [hn2] at hl
    simp at hl
  · rw [if_neg hl] at h2
    exact Option.noConfusion h2

theorem headFlush_nonempty {doc : List Char} {page : Nat} {h0 : List Char}
    {buf : List (List Char)} {s : Section} (hbuf : ∀ b ∈ buf, b ≠ [])
    (hs : s ∈ (if !h0.isEmpty && !buf.isEmpty then [mkHeading doc page h0 buf] else [])) :
    s.section_title ≠ [] ∧ s.section_text ≠ [] := by
  by_cases hcond : (!h0.isEmpty && !buf.isEmpty) = true
  · rw [if_pos hcond] at hs
    have hse : s = mkHeading doc page h0 buf := by simpa using hs
    rw [hse]
    constructor
    · show h0 ≠ []
      intro hn
      subst hn
      simp at hcond
    · show joinSp buf ≠ []
      refine joinSp_ne_nil ?_ hbuf
      intro hn
      subst hn
      simp at hcond
  · rw [if_neg hcond] at hs
    exact absurd hs (List.not_mem_nil s)

theorem headLoop_nonempty (doc : List Char) (page : Nat) :
    ∀ (lines : List (List Char)) (cur : Option (List Char)) (buf : List (List Char)),
    (∀ b ∈ buf, b ≠ []) →
    ∀ s ∈ headLoop doc page lines cur buf,
    s.section_title ≠ [] ∧ s.section_text ≠ [] := by
  intro lines
  induction lines with
  | nil =>
    intro cur buf hbuf s hs
    rcases cur with _ | ⟨h0⟩
    · exact absurd hs (List.not_mem_nil s)
    · exact headFlush_nonempty hbuf hs
  | cons line0 rest ih =>
    intro cur buf hbuf s hs
    rcases cur with _ | ⟨h0⟩
    · have hs2 : s ∈ (if (pyStrip line0).isEmpty then headLoop doc page rest none buf
        else match lineHeading (pyStrip line0) with
        | some g => ([] : List Section) ++ headLoop doc page rest (some (pyStrip g)) []
        | none => headLoop doc page rest none buf) := hs
      by_cases hempty : (pyStrip line0).isEmpty
      · rw [if_pos hempty] at hs2
        exact ih none buf hbuf s hs2
      · rw [if_neg hempty] at hs2
        rcases hlh : lineHeading (pyStrip line0) with _ | ⟨g⟩
        · rw [hlh] at hs2
          exact ih none buf hbuf s hs2
        · rw [hlh] at hs2
          have hs3 : s ∈ ([] : List Section) ++
            headLoop doc page rest (some (pyStrip g)) [] := hs2
          rw [List.nil_append] at hs3
          exact ih (some (pyStrip g)) [] (by intro b hb; cases hb) s hs3
    · have hs2 : s ∈ (if (pyStrip line0).isEmpty then headLoop doc page rest (some h0) buf
        else match lineHeading (pyStrip line0) with
        | some g =>
          (if !h0.isEmpty && !buf.isEmpty then [mkHeading doc page h0 buf] else []) ++
            headLoop doc page rest (some (pyStrip g)) []
        | none =>
          if !h0.isEmpty then headLoop doc page rest (some h0) (buf ++ [pyStrip line0])
          else headLoop doc page rest (some h0) buf) := hs
      by_cases hempty : (pyStrip line0).isEmpty
      · rw [if_pos hempty] at hs2
        exact ih (some h0) buf hbuf s hs2
      · rw [if_neg hempty] at hs2
        rcases hlh : lineHeading (pyStrip line0) with _ | ⟨g⟩
        · rw [hlh] at hs2
          by_cases hh : (!h0.isEmpty) = true
          · rw [if_pos hh] at hs2
            refine ih (some h0) (buf ++ [pyStrip line0]) ?_ s hs2
            intro b hbm
            rcases List.mem_append.mp hbm with hb1 | hb2
            · exact hbuf b hb1
            · have hbe : b = pyStrip line0 := by simpa using hb2
              rw [hbe]
              intro hn
              exact hempty (by rw [hn]; rfl)
          · rw [if_neg hh] at hs2
            exact ih (some h0) buf hbuf s hs2
        · rw [hlh] at hs2
          rcases List.mem_append.mp hs2 with hflush | hrec
          · exact headFlush_nonempty hbuf hflush
          · exact ih (some (pyStrip g)) [] (by intro b hb; cases hb) s hrec

theorem indivFlush_nonempty {doc : List Char} {page : Nat} {cur : Option (List Char)}
    {buf : List (List Char)} {s : Section} (hs : s ∈ indivFlush doc page cur buf) :
    s.section_title ≠ [] ∧ s.section_text ≠ [] := by
  rcases cur with _ | ⟨h0⟩
  · exact absurd hs (List.not_mem_nil s)
  · have hs2 : s ∈ (if !h0.isEmpty && !buf.isEmpty then
        (if 50 < (joinSp buf).length then [mkIndiv doc page h0 buf] else [])
      else []) := hs
    by_cases hcond : (!h0.isEmpty && !buf.isEmpty) = true
    · rw [if_pos hcond] at hs2
      by_cases h50 : 50 < (joinSp buf).length
      · rw [if_pos h50] at hs2
        have hse : s = mkIndiv doc page h0 buf := by simpa using hs2
        rw [hse]
        constructor
        · show h0 ≠ []
          intro hn
          subst hn
          simp at hcond
        · show joinSp buf ≠ []
          intro hn
          rw [hn] at h50
          simp at h50
      · rw [if_neg h50] at hs2
        exact absurd hs2 (List.not_mem_nil s)
    · rw [if_neg hcond] at hs2
      exact absurd hs2 (List.not_mem_nil s)

theorem indivLoop_nonempty (doc : List Char) (page : Nat) :
    ∀ (lines : List (List Char)) (cur : Option (List Char)) (buf : List (List Char)),
    ∀ s ∈ indivLoop doc page lines cur buf,
    s.section_title ≠ [] ∧ s.section_text ≠ [] := by
  intro lines
  induction lines with
  | nil =>
    intro cur buf s hs
    exact indivFlush_nonempty hs
  | cons line0 rest ih =>
    intro cur buf s hs
    rcases cur with _ | ⟨h0⟩
    · have hs2 : s ∈ (if (pyStrip line0).isEmpty then indivLoop doc page rest none buf
        else match titleIndiv (pyStrip line0) with
        | some g => indivFlush doc page none buf ++ indivLoop doc page rest (some (pyStrip g)) []
        | none => indivLoop doc page rest none buf) := hs
      by_cases hempty : (pyStrip line0).isEmpty
      · rw [if_pos hempty] at hs2
        exact ih none buf s hs2
      · rw [if_neg hempty] at hs2
        rcases hlh : titleIndiv (pyStrip line0) with _ | ⟨g⟩
        · rw [hlh] at hs2
          exact ih none buf s hs2
        · rw [hlh] at hs2
          rcases List.mem_append.mp hs2 with hflush | hrec
          · exact indivFlush_nonempty hflush
          · exact ih (some (pyStrip g)) [] s hrec
    · have hs2 : s ∈ (if (pyStrip line0).isEmpty then indivLoop doc page rest (some h0) buf
        else match titleIndiv (pyStrip line0) with
        | some g =>
          indivFlush doc page (some h0) buf ++ indivLoop doc page rest (some (pyStrip g)) []
        | none =>
          if !h0.isEmpty then indivLoop doc page rest (some h0) (buf ++ [pyStrip line0])
          else indivLoop doc page rest (some h0) buf) := hs
      by_cases hempty : (pyStrip line0).isEmpty
      · rw [if_pos hempty] at hs2
        exact ih (some h0) buf s hs2
      · rw [if_neg hempty] at hs2
        rcases hlh : titleIndiv (pyStrip line0) with _ | ⟨g⟩
        · rw [hlh] at hs2
          by_cases hh : (!h0.isEmpty) = true
          · rw [if_pos hh] at hs2
            exact ih (some h0) (buf ++ [pyStrip line0]) s hs2
          · rw [if_neg hh] at hs2
            exact ih (some h0) buf s hs2
        · rw [hlh] at hs2
          rcases List.mem_append.mp hs2 with hflush | hrec
          · exact indivFlush_nonempty hflush
          · exact ih (some (pyStrip g)) [] s hrec

theorem mkBlock_nonempty (doc : List Char) (page cnt : Nat) (block : List (List Char)) :
    (mkBlock doc page cnt block).section_title ≠ [] ∧
    (mkBlock doc page cnt block).section_text ≠ [] := by
  constructor
  · show str "Content Block " ++ natStr cnt ++ str ": " ++ _ ≠ []
    exact append_left_ne_nil (append_left_ne_nil (append_left_ne_nil (by decide)))
  · show joinDotSp block ++ ['.'] ≠ []
    simp [List.append_eq_nil]

theorem blocksLoop_nonempty (doc : List Char) (page : Nat) :
    ∀ (sent : List (List Char)) (block : List (List Char)) (cnt : Nat),
    ∀ s ∈ blocksLoop doc page sent block cnt,
    s.section_title ≠ [] ∧ s.section_text ≠ [] := by
  intro sent
  induction sent with
  | nil =>
    intro block cnt s hs
    have hs2 : s ∈ (if block.isEmpty then ([] : List Section)
      else [mkBlock doc page cnt block]) := hs
    by_cases hb : block.isEmpty
    · rw [if_pos hb] at hs2
      exact absurd hs2 (List.not_mem_nil s)
    · rw [if_neg hb] at hs2
      have hse : s = mkBlock doc page cnt block := by simpa using hs2
      rw [hse]
      exact mkBlock_nonempty doc page cnt block
  | cons s0 rest ih =>
    intro block cnt s hs
    have hs2 : s ∈ (if (pyStrip s0).isEmpty then blocksLoop doc page rest block cnt
      else if 150 ≤ (pySplitWs (joinSp (block ++ [pyStrip s0]))).length then
        mkBlock doc page cnt (block ++ [pyStrip s0]) :: blocksLoop doc page rest [] (cnt + 1)
      else blocksLoop doc page rest (block ++ [pyStrip s0]) cnt) := hs
    by_cases h0 : (pyStrip s0).isEmpty
    · rw [if_pos h0] at hs2
      exact ih block cnt s hs2
    · rw [if_neg h0] at hs2
      by_cases h150 : 150 ≤ (pySplitWs (joinSp (block ++ [pyStrip s0]))).length
      · rw [if_pos h150] at hs2
        rcases List.mem_cons.mp hs2 with h1 | h2
        · rw [h1]
          exact mkBlock_nonempty doc page cnt (block ++ [pyStrip s0])
        · exact ih [] (cnt + 1) s h2
      · rw [if_neg h150] at hs2
        exact ih (block ++ [pyStrip s0]) cnt s hs2

theorem detect_heading_sections_nonempty {text d : List Char} {p : Nat} {s : Section}
    (h : s ∈ detect_heading_sections text d p) :
    s.section_title ≠ [] ∧ s.section_text ≠ [] :=
  headLoop_nonempty (pathName d) p (splitNl text) none [] (by intro b hb; cases hb) s h

theorem detect_recipe_sections_nonempty {text d : List Char} {p : Nat} {s : Section}
    (h : s ∈ detect_recipe_sections text d p) :
    s.section_title ≠ [] ∧ s.section_text ≠ [] := by
  have h2 : s ∈ ((findIter matchR1At (text.length + 1) text ++
      findIter matchR2At (text.length + 1) text ++
      findIter matchR3At (text.length + 1) text ++
      findIter matchR4At (text.length + 1) text).filterMap
        (recipeSecOf (pathName d) p)) ++
      ((findIter matchRBAt (text.length + 1) text).filterMap (blockSecOf (pathName d) p)) := h
  rcases List.mem_append.mp h2 with hA | hB
  · obtain ⟨pr, hpr, hsec⟩ := List.mem_filterMap.mp hA
    refine recipeSecOf_nonempty ?_ hsec
    rcases List.mem_append.mp hpr with h123 | h4
    · rcases List.mem_append.mp h123 with h12 | h3
      · rcases List.mem_append.mp h12 with h1 | h2x
        · obtain ⟨cs2, rest, hf⟩ := findIter_mem _ _ pr h1
          exact matchR1At_nonws hf
        · obtain ⟨cs2, rest, hf⟩ := findIter_mem _ _ pr h2x
          exact matchR2At_nonws hf
      · obtain ⟨cs2, rest, hf⟩ := findIter_mem _ _ pr h3
        exact matchR3At_nonws hf
    · obtain ⟨cs2, rest, hf⟩ := findIter_mem _ _ pr h4
      exact matchR4At_nonws hf
  · obtain ⟨pr, hpr, hsec⟩ := List.mem_filterMap.mp hB
    obtain ⟨cs2, rest, hf⟩ := findIter_mem _ _ pr hpr
    exact blockSecOf_nonempty (matchRBAt_nonws hf) hsec

theorem detect_procedural_sections_nonempty {text d : List Char} {p : Nat} {s : Section}
    (h : s ∈ detect_procedural_sections text d p) :
    s.section_title ≠ [] ∧ s.section_text ≠ [] := by
  have h2 : s ∈ (findIter matchP1At (text.length + 1) text ++
      findIter matchP2At (text.length + 1) text ++
      findIter matchP3At (text.length + 1) text).filterMap (procSecOf (pathName d) p) := h
  obtain ⟨pr, _, hsec⟩ := List.mem_filterMap.mp h2
  exact procSecOf_nonempty hsec

theorem create_content_blocks_nonempty {text d : List Char} {p : Nat} {s : Section}
    (h : s ∈ create_content_blocks text d p) :
    s.section_title ≠ [] ∧ s.section_text ≠ [] :=
  blocksLoop_nonempty (pathName d) p (splitSent text) [] 1 s h

theorem detect_individual_recipes_nonempty {text d : List Char} {p : Nat} {s : Section}
    (h : s ∈ detect_individual_recipes text d p) :
    s.section_title ≠ [] ∧ s.section_text ≠ [] :=
  indivLoop_nonempty (pathName d) p (splitNl text) none [] s h

/-- C10: every Section emitted by any of the five detection strategies
(heading-based, recipe-component / complete-recipe, procedural,
content-block fallback, individual-recipe) has a non-empty
`section_title` and a non-empty `section_text` at the moment of
construction. -/
theorem C10_emitted_sections_nonempty (text d : List Char) (p : Nat) (s : Section)
    (h : s ∈ detect_heading_sections text d p ∨ s ∈ detect_recipe_sections text d p ∨
         s ∈ detect_procedural_sections text d p ∨ s ∈ create_content_blocks text d p ∨
         s ∈ detect_individual_recipes text d p) :
    s.section_title ≠ [] ∧ s.section_text ≠ [] := by
  rcases h with h | h | h | h | h
  · exact detect_heading_sections_nonempty h
  · exact detect_recipe_sections_nonempty h
  · exact detect_procedural_sections_nonempty h
  · exact create_content_blocks_nonempty h
  · exact detect_individual_recipes_nonempty h

/-- Witness for C10: a concrete procedural section emitted on a concrete
page. -/
theorem C10_emitted_sections_nonempty_witness :
    (⟨str "doc.pdf", str "Procedure: step 1:",
      str "mix the flour well and bake for thirty minutes", 1,
      str "procedural"⟩ : Section).section_title ≠ [] ∧
    (⟨str "doc.pdf", str "Procedure: step 1:",
      str "mix the flour well and bake for thirty minutes", 1,
      str "procedural"⟩ : Section).section_text ≠ [] :=
  C10_emitted_sections_nonempty
    (str "step 1: mix the flour well and bake for thirty minutes") (str "doc.pdf") 1
    ⟨str "doc.pdf", str "Procedure: step 1:",
      str "mix the flour well and bake for thirty minutes", 1, str "procedural"⟩
    (Or.inr (Or.inr (Or.inl (by decide))))

/-- Witness for C8: the keyword-containment component applied at the
concrete keyword "vegetarian". -/
theorem C8_persona_keywords_and_expansion_witness :
    str "vegetarian" ∈ expand_query_semantically kwFC :=
  C8_persona_keywords_and_expansion.2.2.2.2.1 (str "vegetarian") (by decide)

end C1B
